import Mathlib

/-!
# Random Universe Cipher (cpp-wasm): shallow embedding and verified properties

Bytes, 16/32/64-bit words and `size_t` values are natural numbers; every place where the
C++ code truncates (an assignment to a narrower unsigned type, an unsigned overflow) carries an
explicit `%`.  Arrays are lists, read with `List.getD _ _ 0` and written with `List.set`.
Loops whose trip count is known are folds over `List.range`; the one loop without a bound, the
rejection loop of `ChaCha20PRNG::next_int`, takes a `fuel` argument and yields `none` when the
fuel ends before a value is accepted.
-/

namespace RUC

/-! ## Common helpers -/

/-- The `uint64_t` modulus. -/
def U64 : Nat := 18446744073709551616

/-- The `uint32_t` modulus. -/
def U32 : Nat := 4294967296

/-- The library call `memcpy(dst + off, src, n)`: bytes `off .. off + n - 1` of `dst` become
bytes `0 .. n - 1` of `src`. -/
def memcpy (dst : List Nat) (off : Nat) (src : List Nat) (n : Nat) : List Nat :=
  dst.take off ++ (src.take n ++ dst.drop (off + n))

/-! ## shake256.cpp -/

/-- Keccak-f[1600] round constants `RC[24]`. -/
def RC : List Nat :=
  [0x0000000000000001, 0x0000000000008082, 0x800000000000808a,
   0x8000000080008000, 0x000000000000808b, 0x0000000080000001,
   0x8000000080008081, 0x8000000000008009, 0x000000000000008a,
   0x0000000000000088, 0x0000000080008009, 0x000000008000000a,
   0x000000008000808b, 0x800000000000008b, 0x8000000000008089,
   0x8000000000008003, 0x8000000000008002, 0x8000000000000080,
   0x000000000000800a, 0x800000008000000a, 0x8000000080008081,
   0x8000000000008080, 0x0000000080000001, 0x8000000080008008]

/-- `rotl64(x, y) = (x << y) | (x >> (64 - y))` on `uint64_t`.  For `y = 0` the right shift is
by the full width; a count taken modulo 64 and a result of zero both give `x` then. -/
def rotl64 (x y : Nat) : Nat := ((x <<< y) % U64) ||| (x >>> (64 - y))

/-- `~x` on `uint64_t`. -/
def not64 (x : Nat) : Nat := x ^^^ 0xFFFFFFFFFFFFFFFF

/-- The macro `KECCAK_ROUND(round_num)` acting on `state[25]`; the lanes `state[0..24]` on entry
are `a0 .. a24`, the lanes after Theta are `s0 .. s24`, and `B0 .. B24` is the array `B`. -/
def KECCAK_ROUND (state : List Nat) (round_num : Nat) : List Nat :=
  match state with
  | [a0, a1, a2, a3, a4, a5, a6, a7, a8, a9, a10, a11, a12,
     a13, a14, a15, a16, a17, a18, a19, a20, a21, a22, a23, a24] =>
    -- Theta
    let C0 := a0 ^^^ a5 ^^^ a10 ^^^ a15 ^^^ a20
    let C1 := a1 ^^^ a6 ^^^ a11 ^^^ a16 ^^^ a21
    let C2 := a2 ^^^ a7 ^^^ a12 ^^^ a17 ^^^ a22
    let C3 := a3 ^^^ a8 ^^^ a13 ^^^ a18 ^^^ a23
    let C4 := a4 ^^^ a9 ^^^ a14 ^^^ a19 ^^^ a24
    let D0 := C4 ^^^ rotl64 C1 1
    let D1 := C0 ^^^ rotl64 C2 1
    let D2 := C1 ^^^ rotl64 C3 1
    let D3 := C2 ^^^ rotl64 C4 1
    let D4 := C3 ^^^ rotl64 C0 1
    let s0 := a0 ^^^ D0; let s5 := a5 ^^^ D0; let s10 := a10 ^^^ D0; let s15 := a15 ^^^ D0; let s20 := a20 ^^^ D0
    let s1 := a1 ^^^ D1; let s6 := a6 ^^^ D1; let s11 := a11 ^^^ D1; let s16 := a16 ^^^ D1; let s21 := a21 ^^^ D1
    let s2 := a2 ^^^ D2; let s7 := a7 ^^^ D2; let s12 := a12 ^^^ D2; let s17 := a17 ^^^ D2; let s22 := a22 ^^^ D2
    let s3 := a3 ^^^ D3; let s8 := a8 ^^^ D3; let s13 := a13 ^^^ D3; let s18 := a18 ^^^ D3; let s23 := a23 ^^^ D3
    let s4 := a4 ^^^ D4; let s9 := a9 ^^^ D4; let s14 := a14 ^^^ D4; let s19 := a19 ^^^ D4; let s24 := a24 ^^^ D4
    -- Rho and Pi
    let B0 := rotl64 s0 0; let B1 := rotl64 s15 28; let B2 := rotl64 s5 1
    let B3 := rotl64 s20 27; let B4 := rotl64 s10 62; let B5 := rotl64 s6 44
    let B6 := rotl64 s21 20; let B7 := rotl64 s11 6; let B8 := rotl64 s1 36
    let B9 := rotl64 s16 55; let B10 := rotl64 s12 43; let B11 := rotl64 s2 3
    let B12 := rotl64 s17 25; let B13 := rotl64 s7 10; let B14 := rotl64 s22 39
    let B15 := rotl64 s18 21; let B16 := rotl64 s8 45; let B17 := rotl64 s23 8
    let B18 := rotl64 s13 15; let B19 := rotl64 s3 41; let B20 := rotl64 s24 18
    let B21 := rotl64 s14 2; let B22 := rotl64 s9 61; let B23 := rotl64 s4 56
    let B24 := rotl64 s19 14
    -- Chi, and Iota on lane 0
    [ (B0 ^^^ (not64 B1 &&& B2)) ^^^ RC.getD round_num 0,
      B1 ^^^ (not64 B2 &&& B3),
      B2 ^^^ (not64 B3 &&& B4),
      B3 ^^^ (not64 B4 &&& B0),
      B4 ^^^ (not64 B0 &&& B1),
      B5 ^^^ (not64 B6 &&& B7),
      B6 ^^^ (not64 B7 &&& B8),
      B7 ^^^ (not64 B8 &&& B9),
      B8 ^^^ (not64 B9 &&& B5),
      B9 ^^^ (not64 B5 &&& B6),
      B10 ^^^ (not64 B11 &&& B12),
      B11 ^^^ (not64 B12 &&& B13),
      B12 ^^^ (not64 B13 &&& B14),
      B13 ^^^ (not64 B14 &&& B10),
      B14 ^^^ (not64 B10 &&& B11),
      B15 ^^^ (not64 B16 &&& B17),
      B16 ^^^ (not64 B17 &&& B18),
      B17 ^^^ (not64 B18 &&& B19),
      B18 ^^^ (not64 B19 &&& B15),
      B19 ^^^ (not64 B15 &&& B16),
      B20 ^^^ (not64 B21 &&& B22),
      B21 ^^^ (not64 B22 &&& B23),
      B22 ^^^ (not64 B23 &&& B24),
      B23 ^^^ (not64 B24 &&& B20),
      B24 ^^^ (not64 B20 &&& B21) ]
  | _ => state

/-- The permutation `keccak_f`: the round macro for `round_num = 0, 1, ..., 23`, in this order. -/
def keccak_f (state : List Nat) : List Nat :=
  (List.range 24).foldl KECCAK_ROUND state

/-- The SHAKE256 rate in bytes (`rate`). -/
def rate : Nat := 136

/-- One absorb step: `state[pos / 8] ^= ((uint64_t)byte) << ((pos % 8) * 8)`. -/
def xor_byte (state : List Nat) (pos byte : Nat) : List Nat :=
  state.set (pos / 8) (state.getD (pos / 8) 0 ^^^ ((byte <<< ((pos % 8) * 8)) % U64))

/-- The fast absorb path (`input_len <= rate`): byte `i` is XORed in at position `i`, the
position after the loop is `input_len`, and `keccak_f` is not called. -/
def absorb_fast (state : List Nat) (input : List Nat) : List Nat × Nat :=
  input.foldl (fun sp b => (xor_byte sp.1 sp.2 b, sp.2 + 1)) (state, 0)

/-- The general absorb path: XOR at `pos`, advance, and permute when `pos == rate`. -/
def absorb_general (state : List Nat) (input : List Nat) : List Nat × Nat :=
  input.foldl
    (fun sp b =>
      let st := xor_byte sp.1 sp.2 b
      let pos := sp.2 + 1
      if pos = rate then (keccak_f st, 0) else (st, pos))
    (state, 0)

/-- Byte `pos` of the state: `(uint8_t)((state[pos / 8] >> ((pos % 8) * 8)) & 0xFF)`. -/
def state_byte (state : List Nat) (pos : Nat) : Nat :=
  (state.getD (pos / 8) 0 >>> ((pos % 8) * 8)) &&& 0xFF

/-- The 32-byte squeeze path: the eight bytes of each of the lanes 0..3, with no permutation. -/
def squeeze32 (state : List Nat) : List Nat :=
  (List.range 4).flatMap (fun i =>
    let lane_val := state.getD i 0
    [lane_val &&& 0xFF, (lane_val >>> 8) &&& 0xFF, (lane_val >>> 16) &&& 0xFF,
     (lane_val >>> 24) &&& 0xFF, (lane_val >>> 32) &&& 0xFF, (lane_val >>> 40) &&& 0xFF,
     (lane_val >>> 48) &&& 0xFF, (lane_val >>> 56) &&& 0xFF])

/-- The general squeeze loop with `n` output bytes still to write, from `state` and `pos`. -/
def squeeze_general : Nat → List Nat → Nat → List Nat
  | 0, _, _ => []
  | n + 1, state, pos =>
    let state1 := if pos = rate then keccak_f state else state
    let pos1 := if pos = rate then 0 else pos
    state_byte state1 pos1 :: squeeze_general n state1 (pos1 + 1)

/-- The function `shake256_hash(input, input_len, output, output_len)`, with `input_len` the
length of `input`; the result is the array `output`. -/
def shake256_hash (input : List Nat) (output_len : Nat) : List Nat :=
  let state0 := List.replicate 25 0
  let sp := if input.length ≤ rate then absorb_fast state0 input else absorb_general state0 input
  let state1 := xor_byte sp.1 sp.2 0x1F
  let state2 := xor_byte state1 (rate - 1) 0x80
  let state3 := keccak_f state2
  if output_len = 32 then squeeze32 state3 else squeeze_general output_len state3 0

/-- The function `shake256_with_domain(key, key_len, domain, index, output, output_len)`;
`domain` holds the characters of the C string before its terminating NUL, so that
`strlen(domain)` is its length. -/
def shake256_with_domain (key : List Nat) (key_len : Nat) (domain : List Nat) (index : Nat)
    (output_len : Nat) : List Nat :=
  let input := key.take key_len
  let input := input ++ domain
  let input := input ++ [(index >>> 8) &&& 0xFF]
  let input := input ++ [index &&& 0xFF]
  shake256_hash input output_len

/-! ## gf_math.cpp -/

/-- The table update `val = (val << 1) ^ ((val & 0x80) ? 0x1B : 0)` on a `uint8_t`. -/
def gf_step (val : Nat) : Nat :=
  ((val <<< 1) ^^^ (if val &&& 0x80 ≠ 0 then 0x1B else 0)) % 256

/-- The function `init_gf_tables`: the pair `(gf_exp_table, gf_log_table)` it leaves behind.
Both arrays have static storage, so they start as 256 zero bytes. -/
def init_gf_tables : List Nat × List Nat :=
  let r := (List.range 255).foldl
    (fun (t : List Nat × List Nat × Nat) i =>
      (t.1.set i t.2.2, t.2.1.set t.2.2 i, gf_step t.2.2))
    (List.replicate 256 0, List.replicate 256 0, 1)
  (r.1.set 255 1, (r.2.1.set 0 0).set 1 0)

/-- The array `gf_exp_table` after initialisation. -/
def gf_exp_table : List Nat := init_gf_tables.1

/-- The array `gf_log_table` after initialisation. -/
def gf_log_table : List Nat := init_gf_tables.2

/-- The body of `gf_mul` over given log and exp tables. -/
def gf_mul_with (log exp : List Nat) (a b : Nat) : Nat :=
  if a = 0 ∨ b = 0 then 0
  else
    let sum := log.getD a 0 + log.getD b 0
    let sum := (sum &&& 0xFF) + (sum >>> 8)
    let sum := (sum &&& 0xFF) + (sum >>> 8)
    exp.getD sum 0

/-- The function `gf_mul(a, b)`. -/
def gf_mul (a b : Nat) : Nat := gf_mul_with gf_log_table gf_exp_table a b

/-- The function `gf_mul_register_inplace(reg, multiplier)`. -/
def gf_mul_register_inplace (reg : List Nat) (multiplier : Nat) : List Nat :=
  reg.map (fun x => gf_mul x multiplier)

/-! ## sbox.cpp -/

/-- The characters of `"RUC-SBOX"`. -/
def RUC_SBOX_TAG : List Nat := [0x52, 0x55, 0x43, 0x2D, 0x53, 0x42, 0x4F, 0x58]

/-- One iteration of the Fisher-Yates loop of `generate_sbox` for loop variable `i`. -/
def sbox_swap_step (shuffle_seed : List Nat) (sbox : List Nat) (i : Nat) : List Nat :=
  let idx := 2 * (255 - i)
  let rand_val := ((shuffle_seed.getD idx 0 <<< 8) ||| shuffle_seed.getD (idx + 1) 0) % 65536
  let j := rand_val % (i + 1)
  let temp := sbox.getD i 0
  let sbox := sbox.set i (sbox.getD j 0)
  sbox.set j temp

/-- The Fisher-Yates loop `for (int i = 255; i > 0; i--)` of `generate_sbox`. -/
def sbox_shuffle (shuffle_seed : List Nat) (sbox : List Nat) : List Nat :=
  (List.range 255).foldl (fun sbox k => sbox_swap_step shuffle_seed sbox (255 - k)) sbox

/-- The function `generate_sbox(key, key_len, round, sbox)`; the result is the array `sbox`. -/
def generate_sbox (key : List Nat) (key_len : Nat) (round : Nat) : List Nat :=
  let sbox := List.range 256
  let round_bytes := [(round >>> 8) % 256, (round &&& 0xFF) % 256]
  let input := List.replicate (key_len + 8 + 2) 0
  let input := memcpy input 0 key key_len
  let input := memcpy input key_len RUC_SBOX_TAG 8
  let input := memcpy input (key_len + 8) round_bytes 2
  let shuffle_seed := shake256_hash input 512
  sbox_shuffle shuffle_seed sbox

/-! ## chacha20.cpp -/

/-- The array `CHACHA_CONSTANTS`. -/
def CHACHA_CONSTANTS : List Nat := [0x61707865, 0x3320646e, 0x79622d32, 0x6b206574]

/-- `rotl32(x, n) = (x << n) | (x >> (32 - n))` on `uint32_t`. -/
def rotl32 (x n : Nat) : Nat := ((x <<< n) % U32) ||| (x >>> (32 - n))

/-- The function `quarter_round(state, a, b, c, d)`. -/
def quarter_round (state : List Nat) (a b c d : Nat) : List Nat :=
  let state := state.set a ((state.getD a 0 + state.getD b 0) % U32)
  let state := state.set d (rotl32 (state.getD d 0 ^^^ state.getD a 0) 16)
  let state := state.set c ((state.getD c 0 + state.getD d 0) % U32)
  let state := state.set b (rotl32 (state.getD b 0 ^^^ state.getD c 0) 12)
  let state := state.set a ((state.getD a 0 + state.getD b 0) % U32)
  let state := state.set d (rotl32 (state.getD d 0 ^^^ state.getD a 0) 8)
  let state := state.set c ((state.getD c 0 + state.getD d 0) % U32)
  state.set b (rotl32 (state.getD b 0 ^^^ state.getD c 0) 7)

/-- The little-endian `uint32_t` read from bytes `4 * i .. 4 * i + 3` of `p`. -/
def le_word (p : List Nat) (i : Nat) : Nat :=
  p.getD (i * 4) 0 ||| (p.getD (i * 4 + 1) 0 <<< 8) ||| (p.getD (i * 4 + 2) 0 <<< 16) |||
    (p.getD (i * 4 + 3) 0 <<< 24)

/-- One pass of the loop "20 rounds (10 double rounds)" of `chacha_block`. -/
def double_round (working : List Nat) : List Nat :=
  let working := quarter_round working 0 4 8 12
  let working := quarter_round working 1 5 9 13
  let working := quarter_round working 2 6 10 14
  let working := quarter_round working 3 7 11 15
  let working := quarter_round working 0 5 10 15
  let working := quarter_round working 1 6 11 12
  let working := quarter_round working 2 7 8 13
  quarter_round working 3 4 9 14

/-- The four bytes of a `uint32_t` in memory order (little-endian target). -/
def word_bytes (w : Nat) : List Nat :=
  [w &&& 0xFF, (w >>> 8) &&& 0xFF, (w >>> 16) &&& 0xFF, (w >>> 24) &&& 0xFF]

/-- The function `chacha_block(key, nonce, counter, output)`; the result is `output[64]`. -/
def chacha_block (key nonce : List Nat) (counter : Nat) : List Nat :=
  let state := CHACHA_CONSTANTS ++ (List.range 8).map (fun i => le_word key i) ++ [counter] ++
    (List.range 3).map (fun i => le_word nonce i)
  let working := state
  let working := (List.range 10).foldl (fun w _ => double_round w) working
  let working := (List.range 16).map (fun i => (working.getD i 0 + state.getD i 0) % U32)
  working.flatMap word_bytes

/-- The data members of `class ChaCha20PRNG`. -/
structure ChaCha20PRNG where
  /-- The member `key[32]`. -/
  key : List Nat
  /-- The member `nonce[12]`. -/
  nonce : List Nat
  /-- The member `counter`. -/
  counter : Nat
  /-- The member `buffer[64]`. -/
  buffer : List Nat
  /-- The member `buffer_pos`. -/
  buffer_pos : Nat
deriving DecidableEq

/-- The constructor `ChaCha20PRNG(seed_key, seed_nonce)`; `none` is the null pointer. -/
def ChaCha20PRNG.init (seed_key : List Nat) (seed_nonce : Option (List Nat)) : ChaCha20PRNG :=
  { key := seed_key.take 32
    nonce := match seed_nonce with
      | some n => n.take 12
      | none => List.replicate 12 0
    counter := 0
    buffer := List.replicate 64 0
    buffer_pos := 64 }

/-- The method `generate_block`. -/
def ChaCha20PRNG.generate_block (p : ChaCha20PRNG) : ChaCha20PRNG :=
  { p with
    buffer := chacha_block p.key p.nonce p.counter
    counter := (p.counter + 1) % U32
    buffer_pos := 0 }

/-- The loop `while (written < count)` of `next_bytes`, at most `steps` iterations of it;
`output` is what has been written so far. -/
def ChaCha20PRNG.next_bytes_loop :
    Nat → ChaCha20PRNG → Nat → Nat → List Nat → ChaCha20PRNG × List Nat
  | 0, p, _, _, output => (p, output)
  | steps + 1, p, count, written, output =>
    if written < count then
      let p := if p.buffer_pos ≥ 64 then p.generate_block else p
      let available := 64 - p.buffer_pos
      let to_write := if count - written < available then count - written else available
      let output := output ++ (p.buffer.drop p.buffer_pos).take to_write
      ChaCha20PRNG.next_bytes_loop steps { p with buffer_pos := p.buffer_pos + to_write } count
        (written + to_write) output
    else (p, output)

/-- The method `next_bytes(output, count)`.  Every iteration of its loop writes at least one
byte, so `count` iterations are enough to leave it. -/
def ChaCha20PRNG.next_bytes (p : ChaCha20PRNG) (count : Nat) : ChaCha20PRNG × List Nat :=
  ChaCha20PRNG.next_bytes_loop count p count 0 []

/-- The method `next_u32`: four bytes packed big-endian. -/
def ChaCha20PRNG.next_u32 (p : ChaCha20PRNG) : ChaCha20PRNG × Nat :=
  let r := p.next_bytes 4
  let bytes := r.2
  (r.1, ((bytes.getD 0 0 <<< 24) ||| (bytes.getD 1 0 <<< 16) ||| (bytes.getD 2 0 <<< 8) |||
    bytes.getD 3 0) % U32)

/-- The loop `do { value = next_u32(); } while (value >= max_valid);` of `next_int`, run for at
most `fuel` iterations: `none` when every one of them was rejected. -/
def ChaCha20PRNG.next_int_loop : Nat → ChaCha20PRNG → Nat → Option (ChaCha20PRNG × Nat)
  | 0, _, _ => none
  | fuel + 1, p, max_valid =>
    let r := p.next_u32
    if r.2 ≥ max_valid then ChaCha20PRNG.next_int_loop fuel r.1 max_valid else some r

/-- The method `next_int(max)`. -/
def ChaCha20PRNG.next_int (fuel : Nat) (p : ChaCha20PRNG) (max : Nat) :
    Option (ChaCha20PRNG × Nat) :=
  let max_valid := ((0xFFFFFFFF / max) * max) % U32
  match ChaCha20PRNG.next_int_loop fuel p max_valid with
  | none => none
  | some r => some (r.1, r.2 % max)

/-! ## ruc_cipher.h -/

/-- The constant `KEY_SIZE`. -/
def KEY_SIZE : Nat := 64
/-- The constant `BLOCK_SIZE`. -/
def BLOCK_SIZE : Nat := 32
/-- The constant `REGISTER_SIZE`. -/
def REGISTER_SIZE : Nat := 64
/-- The constant `ACCUMULATOR_SIZE`. -/
def ACCUMULATOR_SIZE : Nat := 128
/-- The constant `IV_SIZE`. -/
def IV_SIZE : Nat := 32
/-- The constant `ROUNDS`. -/
def ROUNDS : Nat := 24
/-- The constant `REGISTER_COUNT`. -/
def REGISTER_COUNT : Nat := 7
/-- The constant `MIN_SELECTORS`. -/
def MIN_SELECTORS : Nat := 16
/-- The constant `MAX_SELECTORS`. -/
def MAX_SELECTORS : Nat := 31

/-- The type `struct CipherState`. -/
structure CipherState where
  /-- The member `registers[REGISTER_COUNT][REGISTER_SIZE]`. -/
  registers : List (List Nat)
  /-- The member `accumulator[ACCUMULATOR_SIZE]`. -/
  accumulator : List Nat
deriving DecidableEq

/-- The type `struct KeyMaterial`.  Of `selectors` and `key_constants` only the entries that
`ruc_expand_key` writes, those below `num_selectors`, are kept. -/
structure KeyMaterial where
  /-- The member `registers[REGISTER_COUNT][REGISTER_SIZE]`. -/
  registers : List (List Nat)
  /-- The member `selectors[MAX_SELECTORS]`. -/
  selectors : List Nat
  /-- The member `num_selectors`. -/
  num_selectors : Nat
  /-- The member `round_keys[ROUNDS][REGISTER_SIZE]`. -/
  round_keys : List (List Nat)
  /-- The member `sboxes[ROUNDS][256]`. -/
  sboxes : List (List Nat)
  /-- The member `key_constants[MAX_SELECTORS]`. -/
  key_constants : List Nat
deriving DecidableEq

/-! ## ruc_cipher.cpp -/

/-- The characters of `"RUC-REG"`. -/
def RUC_REG_TAG : List Nat := [0x52, 0x55, 0x43, 0x2D, 0x52, 0x45, 0x47]
/-- The characters of `"RUC-SEL"`. -/
def RUC_SEL_TAG : List Nat := [0x52, 0x55, 0x43, 0x2D, 0x53, 0x45, 0x4C]
/-- The characters of `"RUC-PERM"`. -/
def RUC_PERM_TAG : List Nat := [0x52, 0x55, 0x43, 0x2D, 0x50, 0x45, 0x52, 0x4D]
/-- The characters of `"RUC-RK"`. -/
def RUC_RK_TAG : List Nat := [0x52, 0x55, 0x43, 0x2D, 0x52, 0x4B]
/-- The characters of `"RUC-CONST"`. -/
def RUC_CONST_TAG : List Nat := [0x52, 0x55, 0x43, 0x2D, 0x43, 0x4F, 0x4E, 0x53, 0x54]
/-- The characters of `"RUC-PRIO"`. -/
def RUC_PRIO_TAG : List Nat := [0x52, 0x55, 0x43, 0x2D, 0x50, 0x52, 0x49, 0x4F]
/-- The characters of `"RUC-IV-EXPAND"`. -/
def RUC_IV_EXPAND_TAG : List Nat :=
  [0x52, 0x55, 0x43, 0x2D, 0x49, 0x56, 0x2D, 0x45, 0x58, 0x50, 0x41, 0x4E, 0x44]
/-- The characters of `"CTR"`. -/
def CTR_TAG : List Nat := [0x43, 0x54, 0x52]
/-- The characters of `"RUC-KS"`. -/
def RUC_KS_TAG : List Nat := [0x52, 0x55, 0x43, 0x2D, 0x4B, 0x53]

/-- The function `xor_512_inplace(a, b)` (and `xor_512(a, b, result)`): the 64 bytes of `a`
XORed with those of `b`, eight at a time. -/
def xor_512 (a b : List Nat) : List Nat :=
  List.zipWith (fun x y => x ^^^ y) a b

/-- The function `bytes_to_u64(bytes)`: the first eight bytes, little-endian. -/
def bytes_to_u64 (bytes : List Nat) : Nat :=
  bytes.getD 0 0 ||| (bytes.getD 1 0 <<< 8) ||| (bytes.getD 2 0 <<< 16) |||
    (bytes.getD 3 0 <<< 24) ||| (bytes.getD 4 0 <<< 32) ||| (bytes.getD 5 0 <<< 40) |||
    (bytes.getD 6 0 <<< 48) ||| (bytes.getD 7 0 <<< 56)

/-- The local type `struct PriorityItem` of `order_selectors`. -/
structure PriorityItem where
  /-- The member `selector`. -/
  selector : Nat
  /-- The member `priority`. -/
  priority : Nat
  /-- The member `index`. -/
  index : Nat
deriving DecidableEq, Inhabited

/-- The loop "Assign priorities" of `order_selectors`, from index `i` on, with `n` selectors
still to treat. -/
def assign_priorities (fuel : Nat) (km : KeyMaterial) :
    Nat → Nat → ChaCha20PRNG → List PriorityItem → Option (List PriorityItem)
  | 0, _, _, priorities => some priorities
  | n + 1, i, prng, priorities =>
    match prng.next_int fuel 7 with
    | none => none
    | some r =>
      let item : PriorityItem :=
        { selector := km.selectors.getD i 0, priority := r.2, index := i }
      assign_priorities fuel km n (i + 1) r.1 (priorities ++ [item])

/-- The inner `while` loop of the insertion sort together with the store that follows it;
the first argument is `j + 1` for the loop variable `j` (so `0` is `j = -1`), and `key` is the
item being inserted. -/
def insert_item (key : PriorityItem) : Nat → List PriorityItem → List PriorityItem
  | 0, priorities => priorities.set 0 key
  | j + 1, priorities =>
    let pj := priorities.getD j default
    if pj.priority > key.priority ∨ (pj.priority = key.priority ∧ pj.index > key.index) then
      insert_item key j (priorities.set (j + 1) pj)
    else priorities.set (j + 1) key

/-- The insertion sort `for (size_t i = 1; i < priorities.size(); i++)` of `order_selectors`. -/
def insertion_sort (priorities : List PriorityItem) : List PriorityItem :=
  (List.range (priorities.length - 1)).foldl
    (fun ps k => insert_item (ps.getD (k + 1) default) (k + 1) ps) priorities

/-- The function `order_selectors(km, key, iv, block_number, ordered_selectors,
selector_indices)`; the result is the pair of the two output arrays, `num_selectors` entries
each.  `block_number` is the 64-bit parameter. -/
def order_selectors (fuel : Nat) (km : KeyMaterial) (key iv : List Nat) (block_number : Nat) :
    Option (List Nat × List Nat) :=
  let block_bytes := (List.range 8).map (fun i => (block_number >>> (i * 8)) &&& 0xFF)
  let seed_len := KEY_SIZE + IV_SIZE + 8 + 8
  let seed_input := List.replicate seed_len 0
  let seed_input := memcpy seed_input 0 key KEY_SIZE
  let seed_input := memcpy seed_input KEY_SIZE iv IV_SIZE
  let seed_input := memcpy seed_input (KEY_SIZE + IV_SIZE) block_bytes 8
  let seed_input := memcpy seed_input (KEY_SIZE + IV_SIZE + 8) RUC_PRIO_TAG 8
  let seed := shake256_hash seed_input 32
  let prng := ChaCha20PRNG.init seed none
  match assign_priorities fuel km km.num_selectors 0 prng [] with
  | none => none
  | some priorities =>
    let priorities := insertion_sort priorities
    some ((List.range km.num_selectors).map (fun i => (priorities.getD i default).selector),
          (List.range km.num_selectors).map (fun i => (priorities.getD i default).index))

/-- The eight bytes of a `uint64_t` in memory order (little-endian target). -/
def u64_bytes (v : Nat) : List Nat :=
  (List.range 8).map (fun i => (v >>> (i * 8)) &&& 0xFF)

/-- The in-place loop commented "Rotate left by 1" in `execute_round`, with the assignment to
`reg[REGISTER_SIZE - 1]` that follows it. -/
def rotate_step (reg : List Nat) : List Nat :=
  let first_byte := reg.getD 0 0
  let reg := (List.range (REGISTER_SIZE - 1)).foldl
    (fun reg i => reg.set i (((reg.getD i 0 >>> 1) ||| (reg.getD (i + 1) 0 <<< 7)) % 256)) reg
  reg.set (REGISTER_SIZE - 1)
    (((reg.getD (REGISTER_SIZE - 1) 0 >>> 1) ||| (first_byte <<< 7)) % 256)

/-- The body of the loop "Process each selector" of `execute_round` for `sel_idx`. -/
def selector_step (sbox round_key : List Nat) (ordered_selectors selector_indices : List Nat)
    (km : KeyMaterial) (state : CipherState) (sel_idx : Nat) : CipherState :=
  let sel := ordered_selectors.getD sel_idx 0
  let r0_u64 := bytes_to_u64 (state.registers.getD 0 [])
  let round_key_u64 := bytes_to_u64 round_key
  let dest_val := (r0_u64 ^^^ sel ^^^ round_key_u64) &&& 0xFFFFFFFF
  let place_idx := dest_val % 7
  let temp := (sel * 2) &&& 0xFFFF
  let state_byte := (state.registers.getD place_idx []).getD 0 0
  let gf_result := gf_mul (temp &&& 0xFF) state_byte
  let key_const := km.key_constants.getD (selector_indices.getD sel_idx 0) 0
  let gf_result := gf_result ^^^ key_const
  let result := sbox.getD gf_result 0
  let reg := state.registers.getD place_idx []
  let reg := gf_mul_register_inplace reg result
  let shift_amount := sel % 16
  let reg :=
    if shift_amount < 8 then reg.set 0 ((reg.getD 0 0 ^^^ (result <<< shift_amount)) % 256)
    else reg
  let reg := reg.set (REGISTER_SIZE - 1)
    (reg.getD (REGISTER_SIZE - 1) 0 ^^^ sbox.getD (reg.getD (REGISTER_SIZE - 1) 0) 0)
  let reg := rotate_step reg
  let reg := xor_512 reg (state.registers.getD ((place_idx + 1) % REGISTER_COUNT) [])
  let acc_sum := bytes_to_u64 state.accumulator
  let acc_sum := (acc_sum + result) % U64
  { registers := state.registers.set place_idx reg
    accumulator := memcpy state.accumulator 0 (u64_bytes acc_sum) 8 }

/-- The body of the loop "Inter-round state mixing" of `execute_round` for `i`. -/
def mix_step (registers : List (List Nat)) (i : Nat) : List (List Nat) :=
  let registers := registers.set i
    (xor_512 (registers.getD i []) (registers.getD ((i + 1) % REGISTER_COUNT) []))
  registers.set i
    (xor_512 (registers.getD i []) (registers.getD ((i + 2) % REGISTER_COUNT) []))

/-- The function `execute_round(state, round_index, ordered_selectors, selector_indices,
num_selectors, km, key)`; the result is the updated `*state`. -/
def execute_round (state : CipherState) (round_index : Nat)
    (ordered_selectors selector_indices : List Nat) (num_selectors : Nat) (km : KeyMaterial) :
    CipherState :=
  let sbox := km.sboxes.getD round_index []
  let round_key := km.round_keys.getD round_index []
  let state := (List.range num_selectors).foldl
    (selector_step sbox round_key ordered_selectors selector_indices km) state
  { state with registers := (List.range REGISTER_COUNT).foldl mix_step state.registers }

/-- The function `generate_keystream(state, block_number, keystream)`; `block_number` is the
32-bit parameter and the result is `keystream[BLOCK_SIZE]`. -/
def generate_keystream (state : CipherState) (block_number : Nat) : List Nat :=
  let combined := state.accumulator.take ACCUMULATOR_SIZE
  let combined := combined ++ (state.registers.getD 0 []).take REGISTER_SIZE
  let combined := combined ++ (state.registers.getD 1 []).take REGISTER_SIZE
  let combined := combined ++ (state.registers.getD 2 []).take REGISTER_SIZE
  let combined := combined ++ (state.registers.getD 3 []).take REGISTER_SIZE
  let combined := combined ++ (state.registers.getD 4 []).take REGISTER_SIZE
  let combined := combined ++ (state.registers.getD 5 []).take REGISTER_SIZE
  let combined := combined ++ (state.registers.getD 6 []).take REGISTER_SIZE
  let combined := combined ++ RUC_KS_TAG
  let combined := combined ++
    [block_number &&& 0xFF, (block_number >>> 8) &&& 0xFF, (block_number >>> 16) &&& 0xFF,
     (block_number >>> 24) &&& 0xFF]
  let combined := combined ++ [0, 0, 0, 0]
  shake256_hash combined BLOCK_SIZE

/-- The function `apply_ciphertext_feedback(state, ciphertext)`. -/
def apply_ciphertext_feedback (state : CipherState) (ciphertext : List Nat) : CipherState :=
  { state with
    registers := (List.range REGISTER_COUNT).foldl
      (fun registers i =>
        let _feedback_shift := (i * 37) % 256
        registers.set i
          ((List.range REGISTER_SIZE).foldl
            (fun reg j => reg.set j (reg.getD j 0 ^^^ ciphertext.getD (j % BLOCK_SIZE) 0))
            (registers.getD i [])))
      state.registers }

/-- The selector derivation of `ruc_expand_key` for index `i`: two hash bytes packed
big-endian into a `uint16_t`, made odd, and set to 1 when zero. -/
def derive_selector (key : List Nat) (i : Nat) : Nat :=
  let sel_bytes := shake256_with_domain key KEY_SIZE RUC_SEL_TAG i 2
  let selector := ((sel_bytes.getD 0 0 <<< 8) ||| sel_bytes.getD 1 0) % 65536
  let selector := if selector % 2 = 0 then (selector + 1) % 65536 else selector
  if selector = 0 then 1 else selector

/-- The loop `for (int i = num_selectors - 1; i > 0; i--)` of `ruc_expand_key` that permutes
the selectors, entered with loop variable `i` equal to the first argument. -/
def shuffle_selectors (fuel : Nat) : Nat → ChaCha20PRNG → List Nat → Option (List Nat)
  | 0, _, selectors => some selectors
  | i + 1, prng, selectors =>
    match prng.next_int fuel (i + 1 + 1) with
    | none => none
    | some r =>
      let j := r.2
      let temp := selectors.getD (i + 1) 0
      let selectors := selectors.set (i + 1) (selectors.getD j 0)
      let selectors := selectors.set j temp
      shuffle_selectors fuel i r.1 selectors

/-- The key constant of `ruc_expand_key` for the selector value `selector`.  The buffer has
`KEY_SIZE + 8 + 2` bytes: the nine characters of the tag are copied to offsets 64..72 and the
selector bytes are then stored at offsets 72 and 73. -/
def key_constant (key : List Nat) (selector : Nat) : Nat :=
  let const_seed_input := List.replicate (KEY_SIZE + 8 + 2) 0
  let const_seed_input := memcpy const_seed_input 0 key KEY_SIZE
  let const_seed_input := memcpy const_seed_input KEY_SIZE RUC_CONST_TAG 9
  let const_seed_input := const_seed_input.set (KEY_SIZE + 8) ((selector >>> 8) &&& 0xFF)
  let const_seed_input := const_seed_input.set (KEY_SIZE + 9) (selector &&& 0xFF)
  let const_seed := shake256_hash (const_seed_input.take (KEY_SIZE + 10)) 1
  const_seed.getD 0 0

/-- The function `ruc_expand_key(key)`; `none` when a rejection loop of the selector shuffle
does not end within `fuel` draws. -/
def ruc_expand_key (fuel : Nat) (key : List Nat) : Option KeyMaterial :=
  let registers := (List.range REGISTER_COUNT).map
    (fun i => shake256_with_domain key KEY_SIZE RUC_REG_TAG i REGISTER_SIZE)
  let num_selectors := MIN_SELECTORS + key.getD 1 0 % (MAX_SELECTORS - MIN_SELECTORS + 1)
  let selectors := (List.range num_selectors).map (fun i => derive_selector key i)
  let permute_input := List.replicate (KEY_SIZE + 8) 0
  let permute_input := memcpy permute_input 0 key KEY_SIZE
  let permute_input := memcpy permute_input KEY_SIZE RUC_PERM_TAG 8
  let permute_seed := shake256_hash (permute_input.take (KEY_SIZE + 8)) 32
  let prng := ChaCha20PRNG.init permute_seed none
  match shuffle_selectors fuel (num_selectors - 1) prng selectors with
  | none => none
  | some selectors =>
    some
      { registers := registers
        selectors := selectors
        num_selectors := num_selectors
        round_keys := (List.range ROUNDS).map
          (fun r => shake256_with_domain key KEY_SIZE RUC_RK_TAG r REGISTER_SIZE)
        sboxes := (List.range ROUNDS).map (fun r => generate_sbox key KEY_SIZE r)
        key_constants := (List.range num_selectors).map
          (fun i => key_constant key (selectors.getD i 0)) }

/-- The expression `(block_number >> (i * 8)) & 0xFF` of `ruc_encrypt_block` and of the batch
routine, whose `block_number` is a `uint32_t`.  For `i >= 4` the shift count is 32 or more,
which C++ leaves undefined for a 32-bit operand; `wide x s` stands for whatever the target
yields for `x >> s` in that case. -/
def counter_byte (wide : Nat → Nat → Nat) (block_number i : Nat) : Nat :=
  (if i * 8 < 32 then block_number >>> (i * 8) else wide block_number (i * 8)) &&& 0xFF

/-- The function `ruc_encrypt_block(plaintext, key, iv, block_number, key_material,
ciphertext)`; the result is `ciphertext[BLOCK_SIZE]`, and `none` stands for a rejection loop
of `order_selectors` that does not end within `fuel` draws. -/
def ruc_encrypt_block (fuel : Nat) (wide : Nat → Nat → Nat) (plaintext key iv : List Nat)
    (block_number : Nat) (km : KeyMaterial) : Option (List Nat) :=
  let state : CipherState :=
    { registers := km.registers, accumulator := List.replicate ACCUMULATOR_SIZE 0 }
  let iv_input := List.replicate (IV_SIZE + 14) 0
  let iv_input := memcpy iv_input 0 iv IV_SIZE
  let iv_input := memcpy iv_input IV_SIZE RUC_IV_EXPAND_TAG 13
  let iv_expanded := shake256_hash (iv_input.take (IV_SIZE + 13)) REGISTER_SIZE
  let state := { state with
    registers := (List.range REGISTER_COUNT).foldl
      (fun registers i => registers.set i (xor_512 (registers.getD i []) iv_expanded))
      state.registers }
  let counter_bytes := (List.range 8).map (fun i => counter_byte wide block_number i)
  let ctr_input := List.replicate (8 + 3) 0
  let ctr_input := memcpy ctr_input 0 counter_bytes 8
  let ctr_input := memcpy ctr_input 8 CTR_TAG 3
  let counter_hash := shake256_hash (ctr_input.take 11) REGISTER_SIZE
  let state := { state with
    registers := state.registers.set 0 (xor_512 (state.registers.getD 0 []) counter_hash) }
  match order_selectors fuel km key iv block_number with
  | none => none
  | some ordered =>
    let state := (List.range ROUNDS).foldl
      (fun state r => execute_round state r ordered.1 ordered.2 km.num_selectors km) state
    let keystream := generate_keystream state block_number
    let ciphertext := (List.range BLOCK_SIZE).map
      (fun i => plaintext.getD i 0 ^^^ keystream.getD i 0)
    let _state := apply_ciphertext_feedback state ciphertext
    some ciphertext

/-- The function `ruc_decrypt_block(ciphertext, key, iv, block_number, key_material,
plaintext)`. -/
def ruc_decrypt_block (fuel : Nat) (wide : Nat → Nat → Nat) (ciphertext key iv : List Nat)
    (block_number : Nat) (km : KeyMaterial) : Option (List Nat) :=
  ruc_encrypt_block fuel wide ciphertext key iv block_number km

/-- The body of the loop "Process all blocks" of `ruc_encrypt_blocks_batch` for block `i`;
`ciphertext_blocks` holds the `i` blocks written so far and the result appends block `i`. -/
def batch_step (fuel : Nat) (wide : Nat → Nat → Nat) (plaintext_blocks key iv : List Nat)
    (start_block_number : Nat) (km : KeyMaterial) (iv_expanded : List Nat)
    (ciphertext_blocks : List Nat) (i : Nat) : Option (List Nat) :=
  let block_number := (start_block_number + i) % U32
  let state : CipherState :=
    { registers := km.registers, accumulator := List.replicate ACCUMULATOR_SIZE 0 }
  let state := { state with
    registers := (List.range REGISTER_COUNT).foldl
      (fun registers j => registers.set j (xor_512 (registers.getD j []) iv_expanded))
      state.registers }
  let counter_bytes := (List.range 8).map (fun j => counter_byte wide block_number j)
  let ctr_input := List.replicate (8 + 3) 0
  let ctr_input := memcpy ctr_input 0 counter_bytes 8
  let ctr_input := memcpy ctr_input 8 CTR_TAG 3
  let counter_hash := shake256_hash (ctr_input.take 11) REGISTER_SIZE
  let state := { state with
    registers := state.registers.set 0 (xor_512 (state.registers.getD 0 []) counter_hash) }
  match order_selectors fuel km key iv block_number with
  | none => none
  | some ordered =>
    let state := (List.range ROUNDS).foldl
      (fun state r => execute_round state r ordered.1 ordered.2 km.num_selectors km) state
    let keystream := generate_keystream state block_number
    let ciphertext := (List.range BLOCK_SIZE).map
      (fun j => plaintext_blocks.getD (i * BLOCK_SIZE + j) 0 ^^^ keystream.getD j 0)
    let _state := apply_ciphertext_feedback state ciphertext
    some (ciphertext_blocks ++ ciphertext)

/-- The function `ruc_encrypt_blocks_batch(plaintext_blocks, num_blocks, key, iv,
start_block_number, key_material, ciphertext_blocks)`; the result is the output array
`ciphertext_blocks`, whose blocks are written in increasing order. -/
def ruc_encrypt_blocks_batch (fuel : Nat) (wide : Nat → Nat → Nat)
    (plaintext_blocks : List Nat) (num_blocks : Nat) (key iv : List Nat)
    (start_block_number : Nat) (km : KeyMaterial) : Option (List Nat) :=
  let iv_input := List.replicate (IV_SIZE + 14) 0
  let iv_input := memcpy iv_input 0 iv IV_SIZE
  let iv_input := memcpy iv_input IV_SIZE RUC_IV_EXPAND_TAG 13
  let iv_expanded := shake256_hash (iv_input.take (IV_SIZE + 13)) REGISTER_SIZE
  (List.range num_blocks).foldl
    (fun out i =>
      match out with
      | none => none
      | some ciphertext_blocks =>
        batch_step fuel wide plaintext_blocks key iv start_block_number km iv_expanded
          ciphertext_blocks i)
    (some [])

/-! ## Definitions for the statements on the accumulator -/

/-- The value `result` of the selector step `sel_idx` of `execute_round`: the S-box output
that the step adds to the accumulator. -/
def selector_result (sbox round_key : List Nat) (ordered_selectors selector_indices : List Nat)
    (km : KeyMaterial) (state : CipherState) (sel_idx : Nat) : Nat :=
  let sel := ordered_selectors.getD sel_idx 0
  let r0_u64 := bytes_to_u64 (state.registers.getD 0 [])
  let round_key_u64 := bytes_to_u64 round_key
  let dest_val := (r0_u64 ^^^ sel ^^^ round_key_u64) &&& 0xFFFFFFFF
  let place_idx := dest_val % 7
  let temp := (sel * 2) &&& 0xFFFF
  let state_byte := (state.registers.getD place_idx []).getD 0 0
  let gf_result := gf_mul (temp &&& 0xFF) state_byte
  let key_const := km.key_constants.getD (selector_indices.getD sel_idx 0) 0
  let gf_result := gf_result ^^^ key_const
  sbox.getD gf_result 0

/-- The state of `ruc_encrypt_block` when it enters the rounds: the registers of the key
material mixed with the expanded iv and the counter hash, and the zeroed accumulator. -/
def block_init_state (wide : Nat → Nat → Nat) (iv : List Nat) (block_number : Nat)
    (km : KeyMaterial) : CipherState :=
  let state : CipherState :=
    { registers := km.registers, accumulator := List.replicate ACCUMULATOR_SIZE 0 }
  let iv_input := List.replicate (IV_SIZE + 14) 0
  let iv_input := memcpy iv_input 0 iv IV_SIZE
  let iv_input := memcpy iv_input IV_SIZE RUC_IV_EXPAND_TAG 13
  let iv_expanded := shake256_hash (iv_input.take (IV_SIZE + 13)) REGISTER_SIZE
  let state := { state with
    registers := (List.range REGISTER_COUNT).foldl
      (fun registers i => registers.set i (xor_512 (registers.getD i []) iv_expanded))
      state.registers }
  let counter_bytes := (List.range 8).map (fun i => counter_byte wide block_number i)
  let ctr_input := List.replicate (8 + 3) 0
  let ctr_input := memcpy ctr_input 0 counter_bytes 8
  let ctr_input := memcpy ctr_input 8 CTR_TAG 3
  let counter_hash := shake256_hash (ctr_input.take 11) REGISTER_SIZE
  { state with
    registers := state.registers.set 0 (xor_512 (state.registers.getD 0 []) counter_hash) }

/-- The state of `ruc_encrypt_block` after `r` complete rounds and the first `s` selector
steps of round `r`, for the ordering `ordered` returned by `order_selectors`. -/
def block_state_at (wide : Nat → Nat → Nat) (iv : List Nat) (block_number : Nat)
    (km : KeyMaterial) (ordered : List Nat × List Nat) (r s : Nat) : CipherState :=
  let state := (List.range r).foldl
    (fun state r => execute_round state r ordered.1 ordered.2 km.num_selectors km)
    (block_init_state wide iv block_number km)
  (List.range s).foldl
    (selector_step (km.sboxes.getD r []) (km.round_keys.getD r []) ordered.1 ordered.2 km) state

/-- The result byte of selector step `s` of round `r` of `ruc_encrypt_block`. -/
def block_result (wide : Nat → Nat → Nat) (iv : List Nat) (block_number : Nat)
    (km : KeyMaterial) (ordered : List Nat × List Nat) (r s : Nat) : Nat :=
  selector_result (km.sboxes.getD r []) (km.round_keys.getD r []) ordered.1 ordered.2 km
    (block_state_at wide iv block_number km ordered r s) s

/-- The exact sum, without reduction, of the result bytes of the first `r` rounds and of the
first `s` selector steps of round `r`. -/
def block_result_sum (wide : Nat → Nat → Nat) (iv : List Nat) (block_number : Nat)
    (km : KeyMaterial) (ordered : List Nat × List Nat) (r s : Nat) : Nat :=
  ((List.range r).map (fun r2 =>
      ((List.range km.num_selectors).map
        (fun s2 => block_result wide iv block_number km ordered r2 s2)).sum)).sum +
    ((List.range s).map (fun s2 => block_result wide iv block_number km ordered r s2)).sum

/-! ## The ChaCha20 block function as RFC 8439 describes it -/

/-- The quarter round of RFC 8439, section 2.1, on the four words `a, b, c, d`:
`a += b; d ^= a; d <<<= 16; c += d; b ^= c; b <<<= 12; a += b; d ^= a; d <<<= 8; c += d;
b ^= c; b <<<= 7`, with addition modulo `2^32` and `<<<` the rotation to the left. -/
def rfc8439_quarter_round (a b c d : Nat) : Nat × Nat × Nat × Nat :=
  let a := (a + b) % U32
  let d := rotl32 (d ^^^ a) 16
  let c := (c + d) % U32
  let b := rotl32 (b ^^^ c) 12
  let a := (a + b) % U32
  let d := rotl32 (d ^^^ a) 8
  let c := (c + d) % U32
  let b := rotl32 (b ^^^ c) 7
  (a, b, c, d)

/-- The `inner_block` of RFC 8439, section 2.3.1, on the 16 words of the state: the four
column rounds `QUARTERROUND(0, 4, 8, 12)`, `(1, 5, 9, 13)`, `(2, 6, 10, 14)`,
`(3, 7, 11, 15)`, then the four diagonal rounds `(0, 5, 10, 15)`, `(1, 6, 11, 12)`,
`(2, 7, 8, 13)`, `(3, 4, 9, 14)`. -/
def rfc8439_inner_block : List Nat → List Nat
  | [s0, s1, s2, s3, s4, s5, s6, s7, s8, s9, s10, s11, s12, s13, s14, s15] =>
    match rfc8439_quarter_round s0 s4 s8 s12, rfc8439_quarter_round s1 s5 s9 s13,
      rfc8439_quarter_round s2 s6 s10 s14, rfc8439_quarter_round s3 s7 s11 s15 with
    | (s0, s4, s8, s12), (s1, s5, s9, s13), (s2, s6, s10, s14), (s3, s7, s11, s15) =>
      match rfc8439_quarter_round s0 s5 s10 s15, rfc8439_quarter_round s1 s6 s11 s12,
        rfc8439_quarter_round s2 s7 s8 s13, rfc8439_quarter_round s3 s4 s9 s14 with
      | (s0, s5, s10, s15), (s1, s6, s11, s12), (s2, s7, s8, s13), (s3, s4, s9, s14) =>
        [s0, s1, s2, s3, s4, s5, s6, s7, s8, s9, s10, s11, s12, s13, s14, s15]
  | state => state

/-- The ChaCha20 block function of RFC 8439, section 2.3: the state is the four constant
words `"expand 32-byte k"`, the eight little-endian words of the key, the 32-bit block
counter and the three little-endian words of the nonce; ten passes of `inner_block`; the
original state added word by word modulo `2^32`; the 16 words serialised in little-endian
order. -/
def rfc8439_block (key nonce : List Nat) (counter : Nat) : List Nat :=
  let state := [0x61707865, 0x3320646e, 0x79622d32, 0x6b206574] ++
    [le_word key 0, le_word key 1, le_word key 2, le_word key 3, le_word key 4, le_word key 5,
     le_word key 6, le_word key 7] ++ [counter] ++
    [le_word nonce 0, le_word nonce 1, le_word nonce 2]
  let working := rfc8439_inner_block^[10] state
  (List.zipWith (fun w s => (w + s) % U32) working state).flatMap word_bytes

/-- The key stream of RFC 8439 for a key and a nonce: the blocks for the counters
`0, 1, ..., m - 1`, one after the other. -/
def rfc8439_stream (key nonce : List Nat) (m : Nat) : List Nat :=
  (List.range m).flatMap (fun c => rfc8439_block key nonce c)

/-- The key `00 01 .. 1f` of the test vector of RFC 8439, section 2.3.2. -/
def rfc8439_test_key : List Nat := List.range 32

/-- The nonce `00 00 00 09 00 00 00 4a 00 00 00 00` of the test vector of RFC 8439, section
2.3.2. -/
def rfc8439_test_nonce : List Nat := [0, 0, 0, 9, 0, 0, 0, 0x4a, 0, 0, 0, 0]

/-- Byte `i` of the byte stream of a generator with the given key and nonce: byte `i mod 64`
of the block that `chacha_block` gives for the counter `i / 64`, reduced to 32 bits. -/
def prng_stream_byte (key nonce : List Nat) (i : Nat) : Nat :=
  (chacha_block key nonce ((i / 64) % U32)).getD (i % 64) 0

/-- A generator that has emitted the first `pos` bytes of the stream for `key` and `nonce`:
its counter is the number `q` of blocks generated so far, reduced to 32 bits, the unread
bytes of its buffer are the bytes `pos, ..., 64 * q - 1` of the stream, and its buffer is
block `q - 1` when part of it is unread. -/
def prng_at (key nonce : List Nat) (p : ChaCha20PRNG) (pos : Nat) : Prop :=
  p.key = key ∧ p.nonce = nonce ∧ p.buffer_pos ≤ 64 ∧
    ∃ q, p.counter = q % U32 ∧ pos + (64 - p.buffer_pos) = 64 * q ∧
      (p.buffer_pos < 64 → p.buffer = chacha_block key nonce ((q - 1) % U32))


/-! ## Reference definitions the claims compare the code with -/

/-- Product of two polynomials over GF(2), bit `i` of a number being the coefficient of
`x^i`: the XOR of the shifts `a <<< i` over the set bits `i` of the byte `b`. -/
def poly_mul (a b : Nat) : Nat :=
  (List.range 8).foldl (fun acc i => if b.testBit i then acc ^^^ (a <<< i) else acc) 0

/-- Remainder of a polynomial of degree at most 14 modulo `x^8 + x^4 + x^3 + x + 1`
(`0x11B`): the multiples `0x11B <<< (k - 8)` cancel the bits `k = 14, ..., 8` in turn. -/
def poly_mod (p : Nat) : Nat :=
  [14, 13, 12, 11, 10, 9, 8].foldl
    (fun p k => if p.testBit k then p ^^^ (0x11B <<< (k - 8)) else p) p

/-- The product of the bytes `a` and `b` in GF(2^8) modulo `x^8 + x^4 + x^3 + x + 1`, by
the mathematical definition (polynomial product, then remainder). -/
def gf256_mul (a b : Nat) : Nat := poly_mod (poly_mul a b)

/-! ## Explicit contents of the tables of gf_math.cpp -/

/-- The first 51 entries of `gf_exp_table`: the powers `2^0, ..., 2^50` in GF(2^8). -/
def exp_period : List Nat :=
  [1, 2, 4, 8, 16, 32, 64, 128, 27, 54, 108, 216, 171, 77, 154, 47,
   94, 188, 99, 198, 151, 53, 106, 212, 179, 125, 250, 239, 197, 145, 57, 114,
   228, 211, 189, 97, 194, 159, 37, 74, 148, 51, 102, 204, 131, 29, 58, 116,
   232, 203, 141]

/-- The contents of `gf_log_table` after `init_gf_tables`. -/
def log_values : List Nat :=
  [0, 0, 205, 0, 206, 0, 0, 0, 207, 0, 0, 0, 0, 0, 0, 0,
   208, 0, 0, 0, 0, 0, 0, 0, 0, 0, 0, 212, 0, 249, 0, 0,
   209, 0, 0, 0, 0, 242, 0, 0, 0, 0, 0, 0, 0, 0, 0, 219,
   0, 0, 0, 245, 0, 225, 213, 0, 0, 234, 250, 0, 0, 0, 0, 0,
   210, 0, 0, 0, 0, 0, 0, 0, 0, 0, 243, 0, 0, 217, 0, 0,
   0, 0, 0, 0, 0, 0, 0, 0, 0, 0, 0, 0, 0, 0, 220, 0,
   0, 239, 0, 222, 0, 0, 246, 0, 0, 0, 226, 0, 214, 0, 0, 0,
   0, 0, 235, 0, 251, 0, 0, 0, 0, 0, 0, 0, 0, 229, 0, 0,
   211, 0, 0, 248, 0, 0, 0, 0, 0, 0, 0, 0, 0, 254, 0, 0,
   0, 233, 0, 0, 244, 0, 0, 224, 0, 0, 218, 0, 0, 0, 0, 241,
   0, 0, 0, 0, 0, 0, 0, 0, 0, 0, 0, 216, 0, 0, 0, 0,
   0, 0, 0, 228, 0, 0, 0, 0, 0, 0, 0, 0, 221, 238, 0, 0,
   0, 0, 240, 0, 0, 232, 223, 0, 0, 0, 0, 253, 247, 0, 0, 0,
   0, 0, 0, 237, 227, 0, 0, 0, 215, 0, 0, 0, 0, 0, 0, 0,
   0, 0, 0, 0, 236, 0, 0, 0, 252, 0, 0, 0, 0, 0, 0, 231,
   0, 0, 0, 0, 0, 0, 0, 0, 0, 0, 230, 0, 0, 0, 0, 0]

/-! ## Sample inputs -/

/-- The key of 64 zero bytes. -/
def zero_key : List Nat := List.replicate 64 0

/-- The IV of 32 zero bytes. -/
def zero_iv : List Nat := List.replicate 32 0

/-- The block of 32 zero bytes. -/
def zero_block : List Nat := List.replicate 32 0

/-- A result of zero for the shifts of the 32-bit block number by 32 bits or more. -/
def wide_zero : Nat → Nat → Nat := fun _ _ => 0

/-- A key material that carries only a selector count (every array empty). -/
def count_only (n : Nat) : KeyMaterial :=
  { registers := [], selectors := [], num_selectors := n, round_keys := [], sboxes := [],
    key_constants := [] }

/-- The shift of a 32-bit value with the count taken modulo 32, as the `i32.shr_u` instruction
of WebAssembly and the x86 shift do, for the shifts by 32 bits or more. -/
def wide_wrap : Nat → Nat → Nat := fun x s => x >>> (s % 32)

/-! ## Derived definitions used in the statements -/

/-- The keystream block that `ruc_encrypt_block` XORs into the plaintext: the value of its
local `keystream`, computed from `key`, `iv`, `block_number` and the key material alone. -/
def block_keystream (fuel : Nat) (wide : Nat → Nat → Nat) (key iv : List Nat)
    (block_number : Nat) (km : KeyMaterial) : Option (List Nat) :=
  let state : CipherState :=
    { registers := km.registers, accumulator := List.replicate ACCUMULATOR_SIZE 0 }
  let iv_input := List.replicate (IV_SIZE + 14) 0
  let iv_input := memcpy iv_input 0 iv IV_SIZE
  let iv_input := memcpy iv_input IV_SIZE RUC_IV_EXPAND_TAG 13
  let iv_expanded := shake256_hash (iv_input.take (IV_SIZE + 13)) REGISTER_SIZE
  let state := { state with
    registers := (List.range REGISTER_COUNT).foldl
      (fun registers i => registers.set i (xor_512 (registers.getD i []) iv_expanded))
      state.registers }
  let counter_bytes := (List.range 8).map (fun i => counter_byte wide block_number i)
  let ctr_input := List.replicate (8 + 3) 0
  let ctr_input := memcpy ctr_input 0 counter_bytes 8
  let ctr_input := memcpy ctr_input 8 CTR_TAG 3
  let counter_hash := shake256_hash (ctr_input.take 11) REGISTER_SIZE
  let state := { state with
    registers := state.registers.set 0 (xor_512 (state.registers.getD 0 []) counter_hash) }
  match order_selectors fuel km key iv block_number with
  | none => none
  | some ordered =>
    let state := (List.range ROUNDS).foldl
      (fun state r => execute_round state r ordered.1 ordered.2 km.num_selectors km) state
    some (generate_keystream state block_number)

/-- The block `i` of a buffer of 32-byte blocks: bytes `32 * i .. 32 * i + 31`. -/
def block_at (buffer : List Nat) (i : Nat) : List Nat := (buffer.drop (32 * i)).take 32

/-- The byte-wise XOR of a 32-byte block with a keystream, `block[i] ^ keystream[i]` for
`i < 32`. -/
def xor_block (block keystream : List Nat) : List Nat :=
  (List.range 32).map (fun i => block.getD i 0 ^^^ keystream.getD i 0)

/-- The generator that `order_selectors` draws the priorities from: `ChaCha20PRNG prng(seed)`
for the seed hashed from `key`, `iv` and the 64-bit `block_number`. -/
def order_prng (key iv : List Nat) (block_number : Nat) : ChaCha20PRNG :=
  let block_bytes := (List.range 8).map (fun i => (block_number >>> (i * 8)) &&& 0xFF)
  let seed_len := KEY_SIZE + IV_SIZE + 8 + 8
  let seed_input := List.replicate seed_len 0
  let seed_input := memcpy seed_input 0 key KEY_SIZE
  let seed_input := memcpy seed_input KEY_SIZE iv IV_SIZE
  let seed_input := memcpy seed_input (KEY_SIZE + IV_SIZE) block_bytes 8
  let seed_input := memcpy seed_input (KEY_SIZE + IV_SIZE + 8) RUC_PRIO_TAG 8
  ChaCha20PRNG.init (shake256_hash seed_input 32) none

/-! ## Known answers -/

/-- The first 32 bytes of SHAKE256 of the empty message, from the NIST known-answer tests. -/
def nist_shake256_empty : List Nat :=
  [0x46, 0xb9, 0xdd, 0x2b, 0x0b, 0xa8, 0x8d, 0x13, 0x23, 0x3b, 0x3f, 0xeb, 0x74, 0x3e, 0xeb, 0x24,
   0x3f, 0xcd, 0x52, 0xea, 0x62, 0xb8, 0x1b, 0x82, 0xb5, 0x0c, 0x27, 0x64, 0x6e, 0xd5, 0x76, 0x2f]

/-! ## Definitions for the statements on the generator -/

/-- The rejection threshold of `next_int(max)`: its local `max_valid`. -/
def next_int_max_valid (max : Nat) : Nat := ((0xFFFFFFFF / max) * max) % U32

/-- A generator whose buffer has the bytes `FF FF FF FE 00 00 00 01` at its read position, so
that its next two `next_u32` values are `0xFFFFFFFE` and `1`. -/
def prng_before_top_value : ChaCha20PRNG :=
  { key := List.replicate 32 0
    nonce := List.replicate 12 0
    counter := 1
    buffer := [0xFF, 0xFF, 0xFF, 0xFE, 0, 0, 0, 1] ++ List.replicate 56 0
    buffer_pos := 0 }

/-! ## Definitions for the statements on the rotate step -/

/-- The little-endian integer `sum reg[i] * 256^i` that a byte array holds. -/
def le_value : List Nat → Nat
  | [] => 0
  | b :: rest => b + 256 * le_value rest

/-- The byte that the rotate loop stores at a position holding `b` whose right-hand
neighbour holds `next`: `(b >> 1) | (next << 7)`, truncated to 8 bits. -/
def rot_byte (b next : Nat) : Nat := ((b >>> 1) ||| (next <<< 7)) % 256

/-- The rotation of a 512-bit integer right by one bit: `(N >> 1) + (N mod 2) * 2^511`. -/
def rotr512 (N : Nat) : Nat := N / 2 + (N % 2) * 2 ^ 511

/-- A sample register: the 64 bytes `(37 * i + 1) mod 256`. -/
def sample_register : List Nat := (List.range 64).map (fun i => (37 * i + 1) % 256)

/-! ## Definitions for the statements on the selector shuffle -/

/-- The generator that `ruc_expand_key` draws the swap indices from: `ChaCha20PRNG
prng(permute_seed)` for the seed hashed from `key` and `"RUC-PERM"`. -/
def permute_prng (key : List Nat) : ChaCha20PRNG :=
  let permute_input := List.replicate (KEY_SIZE + 8) 0
  let permute_input := memcpy permute_input 0 key KEY_SIZE
  let permute_input := memcpy permute_input KEY_SIZE RUC_PERM_TAG 8
  let permute_seed := shake256_hash (permute_input.take (KEY_SIZE + 8)) 32
  ChaCha20PRNG.init permute_seed none

/-- The loop of `shuffle_selectors` with its draws recorded: next to the selectors it returns,
for every pass, the loop variable `i`, the argument `i + 1` of `next_int` and the index `j`
drawn, in the order of the passes. -/
def shuffle_selectors_draws (fuel : Nat) :
    Nat → ChaCha20PRNG → List Nat → Option (List Nat × List (Nat × Nat × Nat))
  | 0, _, selectors => some (selectors, [])
  | i + 1, prng, selectors =>
    match prng.next_int fuel (i + 1 + 1) with
    | none => none
    | some r =>
      let j := r.2
      let temp := selectors.getD (i + 1) 0
      let selectors := selectors.set (i + 1) (selectors.getD j 0)
      let selectors := selectors.set j temp
      (shuffle_selectors_draws fuel i r.1 selectors).map
        (fun out => (out.1, (i + 1, i + 1 + 1, j) :: out.2))

/-! ## The general sponge, for the comparison with the single-block path -/

/-- The hash with the general absorb loop taken for every input length: each byte is XORed in
at the position, and each time 136 bytes have been absorbed `keccak_f` is applied and the
position is reset to 0; then the padding, the final permutation and the squeeze of
`shake256_hash`. -/
def shake256_hash_general (input : List Nat) (output_len : Nat) : List Nat :=
  let state0 := List.replicate 25 0
  let sp := absorb_general state0 input
  let state1 := xor_byte sp.1 sp.2 0x1F
  let state2 := xor_byte state1 (rate - 1) 0x80
  let state3 := keccak_f state2
  if output_len = 32 then squeeze32 state3 else squeeze_general output_len state3 0

/-- The input of 136 zero bytes, one full rate block. -/
def zero_rate_block : List Nat := List.replicate 136 0

/-! ## Definitions for the statements on the selector ordering -/

/-- The condition of the inner `while` loop of the insertion sort, for the item `a` at
position `j` and the item `key` being inserted: `a` has the greater priority, or the same
priority and the greater index. -/
def item_gt (a key : PriorityItem) : Prop :=
  a.priority > key.priority ∨ (a.priority = key.priority ∧ a.index > key.index)

/-- The negation of the loop condition, read from the side of the inserted item: `key` may
stay to the right of `a`. -/
def item_ge (key a : PriorityItem) : Prop := ¬ item_gt a key

/-- Ascending by priority, ties broken by ascending index. -/
def item_le (a b : PriorityItem) : Prop :=
  a.priority < b.priority ∨ (a.priority = b.priority ∧ a.index ≤ b.index)

/-- The comparison of a sort by priority alone. -/
def priority_le (a b : PriorityItem) : Bool := decide (a.priority ≤ b.priority)

/-- The loop condition is decidable. -/
instance item_gt_decidable : DecidableRel item_gt := fun a key =>
  inferInstanceAs (Decidable
    (a.priority > key.priority ∨ (a.priority = key.priority ∧ a.index > key.index)))

/-- The negated loop condition is decidable. -/
instance item_ge_decidable : DecidableRel item_ge := fun key a =>
  inferInstanceAs (Decidable (¬ item_gt a key))

/-- The order by priority and index is decidable. -/
instance item_le_decidable : DecidableRel item_le := fun a b =>
  inferInstanceAs (Decidable
    (a.priority < b.priority ∨ (a.priority = b.priority ∧ a.index ≤ b.index)))

/-! # Theorems -/

set_option maxRecDepth 100000

/-! ## ruc_cipher.cpp: block encryption (C1, C2) -/

/-- The function `ruc_encrypt_block` XORs its plaintext with `block_keystream`, which does not
see the plaintext. -/
theorem ruc_encrypt_block_eq (fuel : Nat) (wide : Nat → Nat → Nat) (plaintext key iv : List Nat)
    (block_number : Nat) (km : KeyMaterial) :
    ruc_encrypt_block fuel wide plaintext key iv block_number km =
      (block_keystream fuel wide key iv block_number km).map (xor_block plaintext) := by
  unfold ruc_encrypt_block block_keystream
  simp only
  cases order_selectors fuel km key iv block_number with
  | none => rfl
  | some ordered => rfl

/-- Reading the 32 bytes of a 32-byte list gives the list back. -/
theorem map_getD_range (l : List Nat) (h : l.length = 32) :
    (List.range 32).map (fun i => l.getD i 0) = l := by
  apply List.ext_getElem
  · simp [h]
  · intro i h1 h2
    simp only [List.getElem_map, List.getElem_range]
    exact List.getD_eq_getElem _ _ h2

/-- XORing twice with the same keystream restores a 32-byte block. -/
theorem xor_block_twice (block keystream : List Nat) (h : block.length = 32) :
    xor_block (xor_block block keystream) keystream = block := by
  unfold xor_block
  conv_rhs => rw [← map_getD_range block h]
  apply List.map_congr_left
  intro i hi
  rw [List.mem_range] at hi
  rw [List.getD_eq_getElem _ _ (by simpa using hi)]
  simp only [List.getElem_map, List.getElem_range]
  rw [Nat.xor_assoc, Nat.xor_self, Nat.xor_zero]

/-- C1: when `ruc_encrypt_block` returns the ciphertext `ct` for a 32-byte plaintext, then
`ruc_decrypt_block` with the same key, iv, block number and key material returns the
plaintext for `ct`. -/
theorem decrypt_encrypt_roundtrip (fuel : Nat) (wide : Nat → Nat → Nat)
    (plaintext key iv : List Nat) (block_number : Nat) (km : KeyMaterial) (ct : List Nat)
    (hlen : plaintext.length = 32)
    (h : ruc_encrypt_block fuel wide plaintext key iv block_number km = some ct) :
    ruc_decrypt_block fuel wide ct key iv block_number km = some plaintext := by
  unfold ruc_decrypt_block
  rw [ruc_encrypt_block_eq] at h ⊢
  cases hks : block_keystream fuel wide key iv block_number km with
  | none => rw [hks] at h; exact absurd h (by simp)
  | some ks =>
    rw [hks] at h
    simp only [Option.map_some', Option.some.injEq] at h ⊢
    rw [← h]
    exact xor_block_twice plaintext ks hlen

/-- A ciphertext returned by `ruc_encrypt_block` has 32 bytes. -/
theorem ruc_encrypt_block_length (fuel : Nat) (wide : Nat → Nat → Nat)
    (plaintext key iv : List Nat) (block_number : Nat) (km : KeyMaterial) (ct : List Nat)
    (h : ruc_encrypt_block fuel wide plaintext key iv block_number km = some ct) :
    ct.length = 32 := by
  rw [ruc_encrypt_block_eq] at h
  cases hks : block_keystream fuel wide key iv block_number km with
  | none => rw [hks] at h; exact absurd h (by simp)
  | some ks =>
    rw [hks] at h
    simp only [Option.map_some', Option.some.injEq] at h
    rw [← h]
    simp [xor_block]

/-- Byte `j < 32` of block `i` of a buffer is byte `32 * i + j` of the buffer. -/
theorem block_at_getD (buffer : List Nat) (i j : Nat) (hj : j < 32) :
    (block_at buffer i).getD j 0 = buffer.getD (i * 32 + j) 0 := by
  unfold block_at
  simp only [List.getD_eq_getElem?_getD, List.getElem?_take, List.getElem?_drop, hj, if_true]
  rw [Nat.mul_comm]

/-- One pass of the batch loop is `ruc_encrypt_block` on block `i` of the input with block
number `start_block_number + i` (as a `uint32_t`), appended to the output so far. -/
theorem batch_step_eq (fuel : Nat) (wide : Nat → Nat → Nat) (plaintext_blocks key iv : List Nat)
    (start_block_number : Nat) (km : KeyMaterial) (ciphertext_blocks : List Nat) (i : Nat) :
    batch_step fuel wide plaintext_blocks key iv start_block_number km
        (shake256_hash
          ((memcpy (memcpy (List.replicate (IV_SIZE + 14) 0) 0 iv IV_SIZE) IV_SIZE
            RUC_IV_EXPAND_TAG 13).take (IV_SIZE + 13)) REGISTER_SIZE)
        ciphertext_blocks i =
      (ruc_encrypt_block fuel wide (block_at plaintext_blocks i) key iv
        ((start_block_number + i) % U32) km).map (fun ct => ciphertext_blocks ++ ct) := by
  unfold batch_step ruc_encrypt_block
  simp only
  cases order_selectors fuel km key iv ((start_block_number + i) % U32) with
  | none => rfl
  | some ordered =>
    simp only [Option.map_some', Option.some.injEq]
    congr 1
    apply List.map_congr_left
    intro j hj
    rw [List.mem_range] at hj
    rw [block_at_getD _ _ _ hj]
    rfl

/-- The batch routine on `n + 1` blocks is the batch routine on `n` blocks followed by
`ruc_encrypt_block` on block `n`. -/
theorem batch_succ (fuel : Nat) (wide : Nat → Nat → Nat) (plaintext_blocks : List Nat)
    (n : Nat) (key iv : List Nat) (start_block_number : Nat) (km : KeyMaterial) :
    ruc_encrypt_blocks_batch fuel wide plaintext_blocks (n + 1) key iv start_block_number km =
      (ruc_encrypt_blocks_batch fuel wide plaintext_blocks n key iv start_block_number km).bind
        (fun out =>
          (ruc_encrypt_block fuel wide (block_at plaintext_blocks n) key iv
            ((start_block_number + n) % U32) km).map (fun ct => out ++ ct)) := by
  unfold ruc_encrypt_blocks_batch
  simp only
  rw [List.range_succ, List.foldl_append]
  simp only [List.foldl_cons, List.foldl_nil]
  cases List.foldl _ (some []) (List.range n) with
  | none => rfl
  | some out => exact batch_step_eq fuel wide plaintext_blocks key iv start_block_number km out n

/-- Block `i` of `out ++ ct` is block `i` of `out` when `out` holds more than `i` blocks. -/
theorem block_at_append_left (out ct : List Nat) (n i : Nat) (hlen : out.length = 32 * n)
    (hi : i < n) : block_at (out ++ ct) i = block_at out i := by
  unfold block_at
  have h1 : 32 * i ≤ out.length := by omega
  rw [List.drop_append_of_le_length h1, List.take_append_of_le_length]
  rw [List.length_drop]
  omega

/-- Block `n` of `out ++ ct` is `ct` when `out` holds `n` blocks and `ct` has 32 bytes. -/
theorem block_at_append_right (out ct : List Nat) (n : Nat) (hlen : out.length = 32 * n)
    (hct : ct.length = 32) : block_at (out ++ ct) n = ct := by
  unfold block_at
  rw [← hlen, List.drop_left, ← hct, List.take_length]

/-- C2: the batch routine returns `out` exactly when `out` consists of `num_blocks` blocks of
32 bytes and, for every `i < num_blocks`, block `i` of `out` is what `ruc_encrypt_block`
returns for block `i` of the plaintext with block number `start_block_number + i` reduced to
32 bits. -/
theorem batch_eq_single_blocks (fuel : Nat) (wide : Nat → Nat → Nat)
    (plaintext_blocks : List Nat) (num_blocks : Nat) (key iv : List Nat)
    (start_block_number : Nat) (km : KeyMaterial) (out : List Nat) :
    ruc_encrypt_blocks_batch fuel wide plaintext_blocks num_blocks key iv start_block_number km
        = some out ↔
      out.length = 32 * num_blocks ∧
        ∀ i, i < num_blocks →
          ruc_encrypt_block fuel wide (block_at plaintext_blocks i) key iv
            ((start_block_number + i) % U32) km = some (block_at out i) := by
  induction num_blocks generalizing out with
  | zero =>
    have h0 : ruc_encrypt_blocks_batch fuel wide plaintext_blocks 0 key iv start_block_number km
        = some [] := rfl
    rw [h0]
    constructor
    · intro h
      simp only [Option.some.injEq] at h
      subst h
      exact ⟨rfl, fun i hi => absurd hi (Nat.not_lt_zero i)⟩
    · rintro ⟨hlen, _⟩
      have : out = [] := List.length_eq_zero.mp (by simpa using hlen)
      rw [this]
  | succ n ih =>
    rw [batch_succ]
    constructor
    · intro h
      obtain ⟨acc, hacc, hstep⟩ := Option.bind_eq_some.mp h
      obtain ⟨ct, hct, hout⟩ := Option.map_eq_some'.mp hstep
      obtain ⟨hacclen, hblocks⟩ := (ih acc).mp hacc
      have hctlen := ruc_encrypt_block_length _ _ _ _ _ _ _ _ hct
      subst hout
      refine ⟨by rw [List.length_append, hacclen, hctlen]; ring, ?_⟩
      intro i hi
      rcases Nat.lt_succ_iff_lt_or_eq.mp hi with hlt | heq
      · rw [block_at_append_left acc ct n i hacclen hlt]
        exact hblocks i hlt
      · subst heq
        rw [block_at_append_right acc ct i hacclen hctlen]
        exact hct
    · rintro ⟨hlen, hblocks⟩
      have hacclen : (out.take (32 * n)).length = 32 * n := by
        rw [List.length_take, hlen]; omega
      have hctlen : (out.drop (32 * n)).length = 32 := by
        rw [List.length_drop, hlen]; omega
      have hsplit : out.take (32 * n) ++ out.drop (32 * n) = out := List.take_append_drop _ _
      have hacc : ruc_encrypt_blocks_batch fuel wide plaintext_blocks n key iv
          start_block_number km = some (out.take (32 * n)) := by
        refine (ih _).mpr ⟨hacclen, fun i hi => ?_⟩
        rw [← block_at_append_left (out.take (32 * n)) (out.drop (32 * n)) n i hacclen hi, hsplit]
        exact hblocks i (by omega)
      have hlast := hblocks n (Nat.lt_succ_self n)
      rw [← hsplit, block_at_append_right _ _ n hacclen hctlen] at hlast
      rw [hacc, Option.some_bind, hlast, Option.map_some', hsplit]

/-! ## shake256.cpp against the SHAKE256 known answer (C3) -/

/-- The 32 bytes that `shake256_hash` returns for the empty input. -/
theorem shake256_hash_empty :
    shake256_hash [] 32 =
      [0x87, 0xc6, 0xa6, 0xf4, 0xb2, 0x89, 0xde, 0xb3, 0xa6, 0xc0, 0x32, 0x18, 0x9e, 0x3b, 0xe9,
       0x37, 0x04, 0xff, 0x96, 0xde, 0x45, 0x93, 0x57, 0x7c, 0x56, 0xec, 0xcd, 0x4b, 0xf1, 0x36,
       0xd7, 0x7e] := by
  decide!

/-- C3 (fails on the code): `shake256_hash` is not SHAKE256.  For the empty input and 32
output bytes it returns `87c6a6f4...d77e`, not the NIST known answer `46b9dd2b...762f` of
SHAKE256. -/
theorem shake256_hash_not_shake256 :
    shake256_hash [] 32 ≠ nist_shake256_empty ∧
      shake256_hash [] 32 =
        [0x87, 0xc6, 0xa6, 0xf4, 0xb2, 0x89, 0xde, 0xb3, 0xa6, 0xc0, 0x32, 0x18, 0x9e, 0x3b,
         0xe9, 0x37, 0x04, 0xff, 0x96, 0xde, 0x45, 0x93, 0x57, 0x7c, 0x56, 0xec, 0xcd, 0x4b,
         0xf1, 0x36, 0xd7, 0x7e] := by
  rw [shake256_hash_empty]
  exact ⟨by decide, rfl⟩

/-! ## gf_math.cpp: the tables and `gf_mul` (C4, C5, C6, C7) -/

/-- The tables that `init_gf_tables` builds, entry by entry: `gf_exp_table` is five copies
of a block of 51 values followed by the final 1, and `gf_log_table` is `log_values`. -/
theorem init_gf_tables_eq :
    init_gf_tables =
      (exp_period ++ exp_period ++ exp_period ++ exp_period ++ exp_period ++ [1],
       log_values) := by
  decide!

/-- The function `gf_mul` reads the tables of `init_gf_tables_eq`. -/
theorem gf_mul_eq_tables (a b : Nat) :
    gf_mul a b =
      gf_mul_with log_values
        (exp_period ++ exp_period ++ exp_period ++ exp_period ++ exp_period ++ [1]) a b := by
  unfold gf_mul gf_log_table gf_exp_table
  rw [init_gf_tables_eq]

/-- The reference product gives the two known answers `0x57 * 0x83 = 0xC1` and `3 * 3 = 5`. -/
theorem gf256_mul_known_answers : gf256_mul 0x57 0x83 = 0xC1 ∧ gf256_mul 3 3 = 5 := by
  decide

/-- C4 (fails on the code): `gf_mul` is not the product of GF(2^8) modulo
`x^8 + x^4 + x^3 + x + 1`.  On the claim's own witnesses the code returns `gf_mul(3, 3) = 1`
and `gf_mul(0x57, 0x83) = 0x83`, where the field product is `5` and `0xC1`. -/
theorem gf_mul_not_field_product :
    gf_mul 3 3 = 1 ∧ gf256_mul 3 3 = 5 ∧ gf_mul 0x57 0x83 = 0x83 ∧ gf256_mul 0x57 0x83 = 0xC1 := by
  refine ⟨?_, by decide, ?_, by decide⟩
  · rw [gf_mul_eq_tables]; decide
  · rw [gf_mul_eq_tables]; decide

/-- C5 (fails on the code): 1 is not a multiplicative identity of `gf_mul`, since
`gf_mul(3, 1) = 1`, not `3`. -/
theorem gf_mul_one_not_identity : gf_mul 3 1 = 1 ∧ gf_mul 3 1 ≠ 3 := by
  have h : gf_mul 3 1 = 1 := by rw [gf_mul_eq_tables]; decide
  exact ⟨h, by rw [h]; decide⟩

/-- C6: `gf_mul(a, b) = gf_mul(b, a)` for all `a` and `b`. -/
theorem gf_mul_comm (a b : Nat) : gf_mul a b = gf_mul b a := by
  unfold gf_mul gf_mul_with
  by_cases ha : a = 0
  · simp [ha]
  · by_cases hb : b = 0
    · simp [hb]
    · simp only [ha, hb, or_self, if_false]
      rw [Nat.add_comm (gf_log_table.getD a 0) (gf_log_table.getD b 0)]

/-- C7: `gf_mul(a, 0) = 0` and `gf_mul(0, a) = 0` for every `a`, and this holds for the body
of `gf_mul` over any log and exp tables whatever, so it does not depend on `gf_log_table[0]`. -/
theorem gf_mul_zero_absorbs (a : Nat) :
    gf_mul a 0 = 0 ∧ gf_mul 0 a = 0 ∧
      ∀ log exp : List Nat, gf_mul_with log exp a 0 = 0 ∧ gf_mul_with log exp 0 a = 0 := by
  refine ⟨?_, ?_, fun log exp => ⟨?_, ?_⟩⟩ <;> simp [gf_mul, gf_mul_with]

/-! ## sbox.cpp: the S-box is a permutation (C8) -/

/-- Exchanging the entries at two positions of a list, the way the swap of the shuffles
does it, permutes the list. -/
theorem swap_perm (l : List Nat) (i j : Nat) (hi : i < l.length) (hj : j < l.length) :
    ((l.set i (l.getD j 0)).set j (l.getD i 0)).Perm l := by
  rw [List.getD_eq_getElem _ _ hi, List.getD_eq_getElem _ _ hj, List.perm_iff_count]
  intro a
  have hj2 : j < (l.set i l[j]).length := by simpa using hj
  rw [List.count_set _ _ _ _ hj2, List.count_set _ _ _ _ hi]
  have h1 := List.boole_getElem_le_count a l i hi
  have h2 := List.boole_getElem_le_count a l j hj
  by_cases hij : i = j
  · subst hij
    simp only [List.getElem_set_self]
    split_ifs at h1 ⊢ <;> omega
  · rw [List.getElem_set_ne hij]
    split_ifs at h1 h2 ⊢ <;> omega

/-- One iteration of the Fisher-Yates loop permutes the table, for `i` inside it. -/
theorem sbox_swap_step_perm (seed sbox : List Nat) (i : Nat) (hi : i < sbox.length) :
    (sbox_swap_step seed sbox i).Perm sbox := by
  unfold sbox_swap_step
  apply swap_perm _ _ _ hi
  exact lt_of_le_of_lt (Nat.lt_succ_iff.mp (Nat.mod_lt _ (Nat.succ_pos i))) hi

/-- The Fisher-Yates loop permutes a table of 256 entries, whatever the seed. -/
theorem sbox_shuffle_perm (seed sbox : List Nat) (hlen : sbox.length = 256) :
    (sbox_shuffle seed sbox).Perm sbox := by
  unfold sbox_shuffle
  have key : ∀ n, n ≤ 255 →
      ((List.range n).foldl (fun sbox k => sbox_swap_step seed sbox (255 - k)) sbox).Perm sbox := by
    intro n
    induction n with
    | zero => intro _; exact List.Perm.refl _
    | succ n ih =>
      intro hn
      rw [List.range_succ, List.foldl_append]
      have ih2 := ih (by omega)
      simp only [List.foldl_cons, List.foldl_nil]
      refine (sbox_swap_step_perm seed _ (255 - n) ?_).trans ih2
      rw [ih2.length_eq, hlen]
      omega
  exact key 255 (le_refl _)

/-- C8: the table written by `generate_sbox` is a permutation of `0, 1, ..., 255`, for every
key, key length and round; more generally the shuffle loop started on the identity table
yields a permutation of `0, ..., 255` for every seed. -/
theorem generate_sbox_perm (key : List Nat) (key_len round : Nat) :
    (generate_sbox key key_len round).Perm (List.range 256) ∧
      ∀ seed : List Nat, (sbox_shuffle seed (List.range 256)).Perm (List.range 256) := by
  constructor
  · unfold generate_sbox
    exact sbox_shuffle_perm _ _ (List.length_range 256)
  · intro seed
    exact sbox_shuffle_perm _ _ (List.length_range 256)

/-! ## ruc_cipher.cpp: key expansion (C9, C10) -/

/-- A value returned by `next_int(max)` is below `max`. -/
theorem next_int_lt (fuel : Nat) (p : ChaCha20PRNG) (max : Nat) (r : ChaCha20PRNG × Nat)
    (hmax : 0 < max) (h : p.next_int fuel max = some r) : r.2 < max := by
  unfold ChaCha20PRNG.next_int at h
  simp only at h
  split at h
  · exact absurd h (by simp)
  · simp only [Option.some.injEq] at h
    rw [← h]
    exact Nat.mod_lt _ hmax

/-- The selector shuffle of `ruc_expand_key` permutes the selectors it is given. -/
theorem shuffle_selectors_perm (fuel : Nat) :
    ∀ (i : Nat) (prng : ChaCha20PRNG) (selectors out : List Nat), i < selectors.length →
      shuffle_selectors fuel i prng selectors = some out → out.Perm selectors := by
  intro i
  induction i with
  | zero =>
    intro prng selectors out _ h
    simp only [shuffle_selectors, Option.some.injEq] at h
    rw [← h]
  | succ i ih =>
    intro prng selectors out hi h
    unfold shuffle_selectors at h
    split at h
    · exact absurd h (by simp)
    · rename_i r hr
      have hj : r.2 < i + 1 + 1 := next_int_lt fuel prng _ r (by omega) hr
      have hperm := swap_perm selectors (i + 1) r.2 hi (by omega)
      refine (ih _ _ _ ?_ h).trans hperm
      rw [hperm.length_eq]
      omega

/-- A derived selector is an odd 16-bit value. -/
theorem derive_selector_odd (key : List Nat) (i : Nat) :
    derive_selector key i % 2 = 1 ∧ derive_selector key i < 65536 := by
  unfold derive_selector
  simp only
  have hx := Nat.mod_lt (((shake256_with_domain key KEY_SIZE RUC_SEL_TAG i 2).getD 0 0 <<< 8) |||
    (shake256_with_domain key KEY_SIZE RUC_SEL_TAG i 2).getD 1 0) (show 0 < 65536 by decide)
  generalize (((shake256_with_domain key KEY_SIZE RUC_SEL_TAG i 2).getD 0 0 <<< 8) |||
    (shake256_with_domain key KEY_SIZE RUC_SEL_TAG i 2).getD 1 0) % 65536 = x at hx
  split_ifs <;> omega

/-- The selectors and the selector count of an expanded key: the selectors are a permutation
of the derived selectors for the indices below `16 + key[1] % 16`. -/
theorem ruc_expand_key_selectors (fuel : Nat) (key : List Nat) (km : KeyMaterial)
    (h : ruc_expand_key fuel key = some km) :
    km.num_selectors = 16 + key.getD 1 0 % 16 ∧
      km.selectors.Perm ((List.range km.num_selectors).map (fun i => derive_selector key i)) := by
  unfold ruc_expand_key at h
  simp only at h
  split at h
  · exact absurd h (by simp)
  · rename_i sels hs
    simp only [Option.some.injEq] at h
    subst h
    refine ⟨by simp [MIN_SELECTORS, MAX_SELECTORS], ?_⟩
    refine shuffle_selectors_perm fuel _ _ _ _ ?_ hs
    simp [MIN_SELECTORS, MAX_SELECTORS]

/-- C9: every one of the `num_selectors` selectors stored in the `KeyMaterial` that
`ruc_expand_key` returns is odd and nonzero. -/
theorem expand_key_selectors_odd (fuel : Nat) (key : List Nat) (km : KeyMaterial)
    (h : ruc_expand_key fuel key = some km) (i : Nat) (hi : i < km.num_selectors) :
    km.selectors.getD i 0 % 2 = 1 ∧ km.selectors.getD i 0 ≠ 0 := by
  obtain ⟨_, hperm⟩ := ruc_expand_key_selectors fuel key km h
  have hlen : km.selectors.length = km.num_selectors := by
    rw [hperm.length_eq]; simp
  have hi2 : i < km.selectors.length := by omega
  have hmem : km.selectors.getD i 0 ∈ km.selectors := by
    rw [List.getD_eq_getElem _ _ hi2]
    exact List.getElem_mem hi2
  have hmem2 := hperm.subset hmem
  simp only [List.mem_map, List.mem_range] at hmem2
  obtain ⟨k, _, hk⟩ := hmem2
  have hodd := (derive_selector_odd key k).1
  rw [hk] at hodd
  exact ⟨hodd, by omega⟩

/-- C10: `ruc_expand_key` sets `num_selectors = 16 + (key[1] mod 16)`, which lies between
16 and 31. -/
theorem expand_key_num_selectors (fuel : Nat) (key : List Nat) (km : KeyMaterial)
    (h : ruc_expand_key fuel key = some km) :
    km.num_selectors = 16 + key.getD 1 0 % 16 ∧ 16 ≤ km.num_selectors ∧
      km.num_selectors ≤ 31 := by
  have hn := (ruc_expand_key_selectors fuel key km h).1
  omega

/-- The function `ruc_expand_key` returns for the all-zero key: no draw of its shuffle is
rejected, so a single draw per call of `next_int` is enough. -/
theorem zero_key_expands : (ruc_expand_key 1 zero_key).isSome = true := by
  decide!

/-- Witness for C9: the all-zero key expands to 16 selectors, and the selector at index 15 is
odd and nonzero. -/
theorem expand_key_selectors_odd_witness :
    ∃ km, ruc_expand_key 1 zero_key = some km ∧ 15 < km.num_selectors ∧
      (km.selectors.getD 15 0 % 2 = 1 ∧ km.selectors.getD 15 0 ≠ 0) := by
  obtain ⟨km, hkm⟩ := Option.isSome_iff_exists.mp zero_key_expands
  have hn : km.num_selectors = 16 := (ruc_expand_key_selectors 1 zero_key km hkm).1
  have hi : 15 < km.num_selectors := by omega
  exact ⟨km, hkm, hi, expand_key_selectors_odd 1 zero_key km hkm 15 hi⟩

/-- Witness for C10: the all-zero key (`key[1] = 0`) expands, and its selector count is 16. -/
theorem expand_key_num_selectors_witness :
    ∃ km, ruc_expand_key 1 zero_key = some km ∧
      (km.num_selectors = 16 + zero_key.getD 1 0 % 16 ∧ 16 ≤ km.num_selectors ∧
        km.num_selectors ≤ 31) ∧
      km.num_selectors = 16 := by
  obtain ⟨km, hkm⟩ := Option.isSome_iff_exists.mp zero_key_expands
  have h := expand_key_num_selectors 1 zero_key km hkm
  exact ⟨km, hkm, h, h.1⟩

/-! ## The "zero inputs" scenario (witness for C1) -/

/-- Whether the priority loop of `order_selectors` returns does not depend on the key material
or on the items collected so far, only on the generator and the number of draws. -/
theorem assign_priorities_isSome (fuel : Nat) (km km2 : KeyMaterial) :
    ∀ (n i i2 : Nat) (prng : ChaCha20PRNG) (ps ps2 : List PriorityItem),
      (assign_priorities fuel km n i prng ps).isSome =
        (assign_priorities fuel km2 n i2 prng ps2).isSome := by
  intro n
  induction n with
  | zero => intro i i2 prng ps ps2; rfl
  | succ n ih =>
    intro i i2 prng ps ps2
    unfold assign_priorities
    cases prng.next_int fuel 7 with
    | none => rfl
    | some r => exact ih _ _ _ _ _

/-- The function `order_selectors` returns exactly when its priority loop does. -/
theorem order_selectors_isSome (fuel : Nat) (km : KeyMaterial) (key iv : List Nat)
    (block_number : Nat) :
    (order_selectors fuel km key iv block_number).isSome =
      (assign_priorities fuel km km.num_selectors 0 (order_prng key iv block_number) []).isSome := by
  unfold order_selectors order_prng
  simp only
  split
  · rename_i h; rw [h]; rfl
  · rename_i ps h; rw [h]; rfl

/-- Whether `ruc_encrypt_block` returns depends on the key material only through its
selector count. -/
theorem ruc_encrypt_block_isSome (fuel : Nat) (wide : Nat → Nat → Nat)
    (plaintext key iv : List Nat) (block_number : Nat) (km : KeyMaterial) :
    (ruc_encrypt_block fuel wide plaintext key iv block_number km).isSome =
      (order_selectors fuel (count_only km.num_selectors) key iv block_number).isSome := by
  have h1 : (ruc_encrypt_block fuel wide plaintext key iv block_number km).isSome =
      (order_selectors fuel km key iv block_number).isSome := by
    unfold ruc_encrypt_block
    simp only
    cases order_selectors fuel km key iv block_number with
    | none => rfl
    | some ordered => rfl
  rw [h1, order_selectors_isSome, order_selectors_isSome]
  exact assign_priorities_isSome fuel km _ _ 0 0 _ [] []

/-- With 16 selectors, the all-zero key and iv and block number 0, no draw of
`order_selectors` is rejected. -/
theorem zero_inputs_order :
    (order_selectors 1 (count_only 16) zero_key zero_iv 0).isSome = true := by
  decide!

/-- Witness for C1: with the key material expanded from the all-zero key, the all-zero iv and
block number 0, encrypting the all-zero block returns a ciphertext, and decrypting that
ciphertext returns the all-zero block. -/
theorem decrypt_encrypt_roundtrip_witness :
    ∃ km ct, ruc_expand_key 1 zero_key = some km ∧
      ruc_encrypt_block 1 wide_zero zero_block zero_key zero_iv 0 km = some ct ∧
      ruc_decrypt_block 1 wide_zero ct zero_key zero_iv 0 km = some zero_block := by
  obtain ⟨km, hkm⟩ := Option.isSome_iff_exists.mp zero_key_expands
  have hn : km.num_selectors = 16 := (ruc_expand_key_selectors 1 zero_key km hkm).1
  have h : (ruc_encrypt_block 1 wide_zero zero_block zero_key zero_iv 0 km).isSome = true := by
    rw [ruc_encrypt_block_isSome, hn]
    exact zero_inputs_order
  obtain ⟨ct, hct⟩ := Option.isSome_iff_exists.mp h
  exact ⟨km, ct, hkm, hct,
    decrypt_encrypt_roundtrip 1 wide_zero zero_block zero_key zero_iv 0 km ct (by decide) hct⟩

/-! ## The batch routine on two blocks from block number 5 (witness for C2) -/

/-- With 16 selectors, the all-zero key and iv and the block numbers 5 and 6, no draw of
`order_selectors` is rejected. -/
theorem zero_inputs_order_5_6 :
    (order_selectors 1 (count_only 16) zero_key zero_iv 5).isSome = true ∧
      (order_selectors 1 (count_only 16) zero_key zero_iv 6).isSome = true := by
  decide!

/-- Witness for C2: with the key material expanded from the all-zero key, the batch routine
on two all-zero blocks starting at block number 5 returns 64 bytes, whose two blocks are the
results of `ruc_encrypt_block` for the block numbers 5 and 6. -/
theorem batch_eq_single_blocks_witness :
    ∃ km out, ruc_expand_key 1 zero_key = some km ∧
      ruc_encrypt_blocks_batch 1 wide_zero (zero_block ++ zero_block) 2 zero_key zero_iv 5 km
        = some out ∧
      out.length = 32 * 2 ∧
      ruc_encrypt_block 1 wide_zero zero_block zero_key zero_iv 5 km = some (block_at out 0) ∧
      ruc_encrypt_block 1 wide_zero zero_block zero_key zero_iv 6 km = some (block_at out 1) := by
  obtain ⟨km, hkm⟩ := Option.isSome_iff_exists.mp zero_key_expands
  have hn : km.num_selectors = 16 := (ruc_expand_key_selectors 1 zero_key km hkm).1
  have h5 : (ruc_encrypt_block 1 wide_zero zero_block zero_key zero_iv 5 km).isSome = true := by
    rw [ruc_encrypt_block_isSome, hn]
    exact zero_inputs_order_5_6.1
  have h6 : (ruc_encrypt_block 1 wide_zero zero_block zero_key zero_iv 6 km).isSome = true := by
    rw [ruc_encrypt_block_isSome, hn]
    exact zero_inputs_order_5_6.2
  obtain ⟨c5, hc5⟩ := Option.isSome_iff_exists.mp h5
  obtain ⟨c6, hc6⟩ := Option.isSome_iff_exists.mp h6
  have l5 := ruc_encrypt_block_length _ _ _ _ _ _ _ _ hc5
  have l6 := ruc_encrypt_block_length _ _ _ _ _ _ _ _ hc6
  have b0 : block_at (c5 ++ c6) 0 = c5 := by
    rw [block_at_append_left c5 c6 1 0 (by omega) (by omega)]
    unfold block_at
    rw [List.drop_zero, ← l5, List.take_length]
  have b1 : block_at (c5 ++ c6) 1 = c6 := block_at_append_right c5 c6 1 (by omega) l6
  have hbatch : ruc_encrypt_blocks_batch 1 wide_zero (zero_block ++ zero_block) 2 zero_key
      zero_iv 5 km = some (c5 ++ c6) := by
    refine (batch_eq_single_blocks 1 wide_zero (zero_block ++ zero_block) 2 zero_key zero_iv 5
      km (c5 ++ c6)).mpr ⟨by rw [List.length_append, l5, l6], fun i hi => ?_⟩
    rcases Nat.lt_succ_iff_lt_or_eq.mp hi with h0 | h1
    · have hi0 : i = 0 := by omega
      subst hi0
      rw [b0]
      exact hc5
    · subst h1
      rw [b1]
      exact hc6
  exact ⟨km, c5 ++ c6, hkm, hbatch, by rw [List.length_append, l5, l6], by rw [b0]; exact hc5,
    by rw [b1]; exact hc6⟩

/-! ## ruc_cipher.cpp: key constants (C11) -/

/-- The bytes hashed for a key constant: `key ‖ "RUC-CONS" ‖ hi ‖ lo`, 74 bytes for a 64-byte
key.  The store of the high selector byte at offset 72 replaces the final `T` of the tag. -/
theorem key_constant_input (key : List Nat) (selector : Nat) (hkey : key.length = 64) :
    key_constant key selector =
      (shake256_hash
        (key ++ [0x52, 0x55, 0x43, 0x2D, 0x43, 0x4F, 0x4E, 0x53] ++
          [(selector >>> 8) &&& 0xFF, selector &&& 0xFF]) 1).getD 0 0 := by
  unfold key_constant memcpy
  simp only [KEY_SIZE, RUC_CONST_TAG]
  have h1 : List.take 0 (List.replicate (64 + 8 + 2) 0) ++
      (List.take 64 key ++ List.drop (0 + 64) (List.replicate (64 + 8 + 2) 0)) =
      key ++ List.replicate 10 0 := by
    rw [← hkey, List.take_length]
    simp [hkey]
  rw [h1]
  have h2 : List.take 64 (key ++ List.replicate 10 0) = key := by
    rw [← hkey]; exact List.take_left' rfl
  have h3 : List.drop (64 + 9) (key ++ List.replicate 10 0) = [0] := by
    rw [List.drop_append_eq_append_drop]
    simp [hkey]
  rw [h2, h3]
  have h4 : ∀ (x y : Nat), List.take (64 + 10)
      (((key ++ ([0x52, 0x55, 0x43, 0x2D, 0x43, 0x4F, 0x4E, 0x53, 0x54] ++ [0])).set (64 + 8) x).set
        (64 + 9) y) =
      key ++ [0x52, 0x55, 0x43, 0x2D, 0x43, 0x4F, 0x4E, 0x53] ++ [x, y] := by
    intro x y
    rw [List.set_append_right _ _ (by omega), List.set_append_right _ _ (by simp; omega)]
    simp [hkey]
  simp only [List.take] at h4 ⊢
  rw [h4]

/-- The key constants of an expanded key: entry `i` is computed from the selector stored at
position `i`, for every position below `num_selectors`. -/
theorem ruc_expand_key_constants (fuel : Nat) (key : List Nat) (km : KeyMaterial)
    (h : ruc_expand_key fuel key = some km) :
    km.key_constants =
      (List.range km.num_selectors).map (fun i => key_constant key (km.selectors.getD i 0)) := by
  unfold ruc_expand_key at h
  simp only at h
  split at h
  · exact absurd h (by simp)
  · simp only [Option.some.injEq] at h
    subst h
    rfl

/-- For the all-zero key, the selector stored at position 0 is 47075 (`0xB7E3`) and the key
constant stored at position 0 is 184. -/
theorem zero_key_constant_0 :
    (ruc_expand_key 1 zero_key).map
        (fun km => (km.selectors.getD 0 0, km.key_constants.getD 0 0)) = some (47075, 184) := by
  decide!

/-- The first SHAKE byte of the 75-byte string `key ‖ "RUC-CONST" ‖ 0xB7 ‖ 0xE3` for the
all-zero key, with `shake256_hash` as the hash. -/
theorem zero_key_claimed_constant_0 :
    (shake256_hash (zero_key ++ RUC_CONST_TAG ++ [0xB7, 0xE3]) 1).getD 0 0 = 12 := by
  decide!

/-- C11 (fails on the code): the key constant of position `i` is the first hash byte of the
74-byte string `key ‖ "RUC-CONS" ‖ hi ‖ lo`, not of the 75-byte string with the whole tag
`"RUC-CONST"`.  For the all-zero key the selector at position 0 is `0xB7E3`, the stored
constant is 184, and the 75-byte string hashes to first byte 12. -/
theorem key_constant_drops_tag_byte :
    (∀ (key : List Nat) (selector : Nat), key.length = 64 →
      key_constant key selector =
        (shake256_hash
          (key ++ [0x52, 0x55, 0x43, 0x2D, 0x43, 0x4F, 0x4E, 0x53] ++
            [(selector >>> 8) &&& 0xFF, selector &&& 0xFF]) 1).getD 0 0) ∧
      ∃ km, ruc_expand_key 1 zero_key = some km ∧ 0 < km.num_selectors ∧
        km.selectors.getD 0 0 = 0xB7E3 ∧ km.key_constants.getD 0 0 = 184 ∧
        (shake256_hash (zero_key ++ RUC_CONST_TAG ++ [0xB7, 0xE3]) 1).getD 0 0 = 12 ∧
        km.key_constants.getD 0 0 ≠
          (shake256_hash (zero_key ++ RUC_CONST_TAG ++
            [(km.selectors.getD 0 0 >>> 8) &&& 0xFF, km.selectors.getD 0 0 &&& 0xFF]) 1).getD 0 0 := by
  refine ⟨fun key selector hkey => key_constant_input key selector hkey, ?_⟩
  obtain ⟨km, hkm, hval⟩ := Option.map_eq_some'.mp zero_key_constant_0
  have hn : km.num_selectors = 16 := (ruc_expand_key_selectors 1 zero_key km hkm).1
  simp only [Prod.mk.injEq] at hval
  obtain ⟨hs, hc⟩ := hval
  refine ⟨km, hkm, by omega, hs, hc, zero_key_claimed_constant_0, ?_⟩
  rw [hs, hc]
  have h2 : ((47075 >>> 8) &&& 0xFF) = 0xB7 ∧ (47075 &&& 0xFF) = 0xE3 := by decide
  rw [h2.1, h2.2, zero_key_claimed_constant_0]
  decide

/-! ## chacha20.cpp: bounded integers (C12, C13) -/

/-- The threshold `(0xFFFFFFFF / max) * max` fits 32 bits, so the reduction to `uint32_t`
leaves it unchanged. -/
theorem next_int_max_valid_eq (max : Nat) :
    next_int_max_valid max = (0xFFFFFFFF / max) * max := by
  unfold next_int_max_valid U32
  have h := Nat.div_mul_le_self 0xFFFFFFFF max
  omega

/-- One turn of the loop of `next_int`: the value drawn is rejected exactly when it is at
least `(0xFFFFFFFF / max) * max`; otherwise `next_int` returns it reduced modulo `max`. -/
theorem next_int_step (fuel : Nat) (p : ChaCha20PRNG) (max : Nat) :
    p.next_int (fuel + 1) max =
      if (p.next_u32).2 ≥ (0xFFFFFFFF / max) * max then (p.next_u32).1.next_int fuel max
      else some ((p.next_u32).1, (p.next_u32).2 % max) := by
  have h := next_int_max_valid_eq max
  unfold next_int_max_valid at h
  unfold ChaCha20PRNG.next_int
  simp only [h]
  rw [ChaCha20PRNG.next_int_loop]
  by_cases hc : (p.next_u32).2 ≥ 0xFFFFFFFF / max * max
  · simp only [hc, if_true]
  · simp only [hc, if_false]

/-- The two thresholds compared: `(0xFFFFFFFF / max) * max` is `(2^32 / max) * max` unless
`max` divides `2^32`, and is `2^32 - max` when it does. -/
theorem max_valid_vs_claimed (max : Nat) (hmax : 1 ≤ max) :
    (¬ max ∣ 2 ^ 32 → (0xFFFFFFFF / max) * max = (2 ^ 32 / max) * max) ∧
      (max ∣ 2 ^ 32 → (0xFFFFFFFF / max) * max = 2 ^ 32 - max) := by
  constructor
  · intro hnd
    have h1 : 2 ^ 32 % max ≠ 0 := fun h => hnd (Nat.dvd_of_mod_eq_zero h)
    have h2 := Nat.div_add_mod (2 ^ 32) max
    have h3 := Nat.mod_lt (2 ^ 32) hmax
    have h4 : 0xFFFFFFFF / max = 2 ^ 32 / max := by
      apply Nat.div_eq_of_lt_le
      · calc 2 ^ 32 / max * max ≤ 2 ^ 32 - 1 := by
              rw [Nat.mul_comm]; omega
          _ = 0xFFFFFFFF := by norm_num
      · calc 0xFFFFFFFF < 2 ^ 32 := by norm_num
          _ < (2 ^ 32 / max + 1) * max := by
              rw [Nat.add_mul, Nat.one_mul, Nat.mul_comm]; omega
    rw [h4]
  · rintro ⟨k, hk⟩
    have hk0 : 0 < k := by
      rcases Nat.eq_zero_or_pos k with h | h
      · subst h; norm_num at hk
      · exact h
    have h4 : 0xFFFFFFFF / max = k - 1 := by
      apply Nat.div_eq_of_lt_le
      · have : (k - 1) * max = max * k - max := by
          rw [Nat.sub_mul, Nat.one_mul, Nat.mul_comm]
        rw [this, ← hk]
        have : max ≤ 2 ^ 32 := by rw [hk]; exact Nat.le_mul_of_pos_right _ hk0
        norm_num at this ⊢
        omega
      · have : (k - 1 + 1) * max = 2 ^ 32 := by
          rw [Nat.sub_add_cancel hk0, Nat.mul_comm, hk]
        rw [this]; norm_num
    rw [h4, Nat.sub_mul, Nat.one_mul, Nat.mul_comm, ← hk]

/-- Counterexample for C12 as stated: `max = 2` divides `2^32`, and the drawn value
`0xFFFFFFFE` is below `(2^32 / 2) * 2 = 2^32`, yet `next_int(2)` rejects it: with one draw
allowed nothing is returned, and with two draws the result is the second value, 1, not
`0xFFFFFFFE mod 2 = 0`. -/
theorem next_int_rejects_below_claimed :
    (prng_before_top_value.next_u32).2 = 0xFFFFFFFE ∧ 0xFFFFFFFE < (2 ^ 32 / 2) * 2 ∧
      prng_before_top_value.next_int 1 2 = none ∧
      (prng_before_top_value.next_int 2 2).map (fun r => r.2) = some 1 := by
  decide!

/-- C12 (amended): for `max >= 1`, `next_int(max)` rejects a drawn 32-bit value `v` exactly
when `v >= (0xFFFFFFFF / max) * max` and returns `v mod max` for the first value not
rejected.  That threshold is `(2^32 / max) * max` unless `max` divides `2^32`; when it does,
the threshold is `2^32 - max`, so the top `max` values are rejected. -/
theorem next_int_rejection_threshold (max : Nat) (hmax : 1 ≤ max) :
    (∀ (fuel : Nat) (p : ChaCha20PRNG),
      p.next_int (fuel + 1) max =
        if (p.next_u32).2 ≥ (0xFFFFFFFF / max) * max then (p.next_u32).1.next_int fuel max
        else some ((p.next_u32).1, (p.next_u32).2 % max)) ∧
      (¬ max ∣ 2 ^ 32 → (0xFFFFFFFF / max) * max = (2 ^ 32 / max) * max) ∧
      (max ∣ 2 ^ 32 → (0xFFFFFFFF / max) * max = 2 ^ 32 - max) :=
  ⟨fun fuel p => next_int_step fuel p max, max_valid_vs_claimed max hmax⟩

/-- Witness for C12: `max = 7`, with the step of `next_int` taken at the sample generator. -/
theorem next_int_rejection_threshold_witness :
    1 ≤ 7 ∧
      (prng_before_top_value.next_int (0 + 1) 7 =
        if (prng_before_top_value.next_u32).2 ≥ (0xFFFFFFFF / 7) * 7 then
          (prng_before_top_value.next_u32).1.next_int 0 7
        else some ((prng_before_top_value.next_u32).1, (prng_before_top_value.next_u32).2 % 7)) ∧
      (0xFFFFFFFF / 7) * 7 = (2 ^ 32 / 7) * 7 :=
  ⟨by decide, (next_int_rejection_threshold 7 (by decide)).1 0 prng_before_top_value,
    (next_int_rejection_threshold 7 (by decide)).2.1 (by decide)⟩

/-- C13: for `max >= 1`, a result of `next_int(max)` is below `max`, and every residue
`r < max` has the same number, `0xFFFFFFFF / max`, of 32-bit values below the rejection
threshold that reduce to it; so a uniform `next_u32` gives a uniform result. -/
theorem next_int_uniform (max : Nat) (hmax : 1 ≤ max) :
    (∀ (fuel : Nat) (p : ChaCha20PRNG) (r : ChaCha20PRNG × Nat),
      p.next_int fuel max = some r → r.2 < max) ∧
      ∀ r, r < max →
        ((Finset.range (next_int_max_valid max)).filter (fun v => v % max = r)).card =
          0xFFFFFFFF / max := by
  refine ⟨fun fuel p r h => next_int_lt fuel p max r hmax h, fun r hr => ?_⟩
  rw [next_int_max_valid_eq]
  have hcount := Nat.count_modEq_card (0xFFFFFFFF / max * max) hmax r
  rw [Nat.count_eq_card_filter_range] at hcount
  have hfilter : (Finset.range (0xFFFFFFFF / max * max)).filter (fun v => v % max = r) =
      (Finset.range (0xFFFFFFFF / max * max)).filter (fun v => v ≡ r [MOD max]) := by
    apply Finset.filter_congr
    intro x _
    unfold Nat.ModEq
    rw [Nat.mod_eq_of_lt hr]
  rw [hfilter, hcount, Nat.mul_mod_left, Nat.mul_div_cancel _ hmax]
  simp

/-- Witness for C13: `max = 3`, `7` and `256`. -/
theorem next_int_uniform_witness :
    1 ≤ 3 ∧
      (∀ r, r < 3 →
        ((Finset.range (next_int_max_valid 3)).filter (fun v => v % 3 = r)).card =
          0xFFFFFFFF / 3) ∧
      (∀ r, r < 7 →
        ((Finset.range (next_int_max_valid 7)).filter (fun v => v % 7 = r)).card =
          0xFFFFFFFF / 7) ∧
      (∀ r, r < 256 →
        ((Finset.range (next_int_max_valid 256)).filter (fun v => v % 256 = r)).card =
          0xFFFFFFFF / 256) :=
  ⟨by decide, (next_int_uniform 3 (by decide)).2, (next_int_uniform 7 (by decide)).2,
    (next_int_uniform 256 (by decide)).2⟩

/-! ## ruc_cipher.cpp: the counter bytes of the CTR mix (C16) -/

/-- The 11 bytes that `ruc_encrypt_block` and the batch routine hash for the CTR mix: the
eight values of `(block_number >> (i * 8)) & 0xFF` followed by `"CTR"`. -/
theorem ctr_input_eq (wide : Nat → Nat → Nat) (block_number : Nat) :
    (memcpy (memcpy (List.replicate (8 + 3) 0) 0
        ((List.range 8).map (fun i => counter_byte wide block_number i)) 8) 8 CTR_TAG 3).take 11 =
      (List.range 8).map (fun i => counter_byte wide block_number i) ++ CTR_TAG := by
  rfl

/-- The counter bytes 0..3 are the little-endian bytes of the block number; the bytes 4..7
are whatever the shifts by 32, 40, 48 and 56 bits yield. -/
theorem counter_byte_cases (wide : Nat → Nat → Nat) (block_number i : Nat) :
    (i < 4 → counter_byte wide block_number i = (block_number >>> (i * 8)) &&& 0xFF) ∧
      (4 ≤ i → counter_byte wide block_number i = wide block_number (i * 8) &&& 0xFF) := by
  unfold counter_byte
  constructor
  · intro h
    rw [if_pos (by omega)]
  · intro h
    rw [if_neg (by omega)]

/-- C16 (fails on the code): the counter bytes 4..7 are not zero by what the code says: they
come from shifts of the 32-bit `block_number` by 32 to 56 bits.  With the shift count taken
modulo 32, `block_number = 1` gives `01 00 00 00 01 00 00 00`; a shift that yields zero gives
the claimed `01 00 00 00 00 00 00 00`. -/
theorem counter_bytes_depend_on_wide_shift :
    (List.range 8).map (fun i => counter_byte wide_wrap 1 i) = [1, 0, 0, 0, 1, 0, 0, 0] ∧
      (List.range 8).map (fun i => counter_byte wide_zero 1 i) = [1, 0, 0, 0, 0, 0, 0, 0] ∧
      ∀ (wide : Nat → Nat → Nat) (block_number i : Nat),
        (i < 4 → counter_byte wide block_number i = (block_number >>> (i * 8)) &&& 0xFF) ∧
          (4 ≤ i → counter_byte wide block_number i = wide block_number (i * 8) &&& 0xFF) :=
  ⟨by decide, by decide, counter_byte_cases⟩

/-! ## shake256.cpp: domain-separated hashing (C17) -/

/-- C17: for a key of `key_len` bytes and a 16-bit index, `shake256_with_domain` hashes the
string `key ‖ domain ‖ (index >> 8) ‖ (index & 0xFF)`, of `key_len + strlen(domain) + 2`
bytes, where `domain` holds the characters before the terminating NUL. -/
theorem shake256_with_domain_input (key domain : List Nat) (key_len index output_len : Nat)
    (hkey : key.length = key_len) (hindex : index < 65536) :
    shake256_with_domain key key_len domain index output_len =
        shake256_hash (key ++ domain ++ [index >>> 8, index &&& 0xFF]) output_len ∧
      (key ++ domain ++ [index >>> 8, index &&& 0xFF]).length = key_len + domain.length + 2 := by
  have hhi : (index >>> 8) &&& 0xFF = index >>> 8 := by
    have h1 : index >>> 8 < 256 := by
      rw [Nat.shiftRight_eq_div_pow]
      omega
    have h2 := Nat.and_pow_two_sub_one_eq_mod (index >>> 8) 8
    norm_num at h2
    rw [h2, Nat.mod_eq_of_lt h1]
  constructor
  · unfold shake256_with_domain
    simp only [hhi, ← hkey, List.take_length, List.append_assoc, List.singleton_append]
  · simp [hkey]
    omega

/-- Witness for C17: the all-zero key with the tag `"RUC-REG"` (7 bytes) and index 3 gives a
hash input of 64 + 7 + 2 bytes; the tag `"RUC-RK"` has 6 bytes. -/
theorem shake256_with_domain_input_witness :
    zero_key.length = 64 ∧ 3 < 65536 ∧
      (shake256_with_domain zero_key 64 RUC_REG_TAG 3 64 =
          shake256_hash (zero_key ++ RUC_REG_TAG ++ [3 >>> 8, 3 &&& 0xFF]) 64 ∧
        (zero_key ++ RUC_REG_TAG ++ [3 >>> 8, 3 &&& 0xFF]).length =
          64 + RUC_REG_TAG.length + 2) ∧
      RUC_REG_TAG.length = 7 ∧ RUC_RK_TAG.length = 6 :=
  ⟨by decide, by decide,
    shake256_with_domain_input zero_key RUC_REG_TAG 64 3 64 (by decide) (by decide),
    by decide, by decide⟩

/-! ## ruc_cipher.cpp: inter-round mixing (C20) -/

/-- C20: the mixing pass of `execute_round` is sequential.  On the registers `R0 .. R6` (no
selector being processed before it) it leaves `N0 = R0^R1^R2`, ..., `N4 = R4^R5^R6`,
`N5 = R5^R6^N0` and `N6 = R6^N0^N1`, and the accumulator as it was; and for any number of
selectors the pass does not change the accumulator that the selector loop left. -/
theorem inter_round_mixing_sequential (R0 R1 R2 R3 R4 R5 R6 acc : List Nat) (round_index : Nat)
    (ordered_selectors selector_indices : List Nat) (km : KeyMaterial) :
    execute_round { registers := [R0, R1, R2, R3, R4, R5, R6], accumulator := acc } round_index
        ordered_selectors selector_indices 0 km =
      { registers :=
          [xor_512 (xor_512 R0 R1) R2,
           xor_512 (xor_512 R1 R2) R3,
           xor_512 (xor_512 R2 R3) R4,
           xor_512 (xor_512 R3 R4) R5,
           xor_512 (xor_512 R4 R5) R6,
           xor_512 (xor_512 R5 R6) (xor_512 (xor_512 R0 R1) R2),
           xor_512 (xor_512 R6 (xor_512 (xor_512 R0 R1) R2)) (xor_512 (xor_512 R1 R2) R3)]
        accumulator := acc } ∧
      ∀ (state : CipherState) (num_selectors : Nat),
        (execute_round state round_index ordered_selectors selector_indices num_selectors
            km).accumulator =
          ((List.range num_selectors).foldl
            (selector_step (km.sboxes.getD round_index []) (km.round_keys.getD round_index [])
              ordered_selectors selector_indices km) state).accumulator := by
  have hrange : List.range 7 = [0, 1, 2, 3, 4, 5, 6] := by decide
  refine ⟨?_, fun _ _ => rfl⟩
  unfold execute_round
  simp only [List.range_zero, List.foldl_nil, REGISTER_COUNT, hrange, List.foldl_cons, mix_step,
    Nat.reduceAdd, Nat.reduceMod, List.getD_cons_zero, List.getD_cons_succ, List.set_cons_zero,
    List.set_cons_succ]

/-! ## ruc_cipher.cpp: the rotate step of a round (C19) -/

/-- The first `k` passes of the rotate loop: positions below `k` hold the new bytes, computed
from the old bytes at the position and to its right; the other positions are untouched. -/
theorem rotate_loop_first_passes (l : List Nat) :
    ∀ k, k < l.length →
      (List.range k).foldl
          (fun reg i => reg.set i (((reg.getD i 0 >>> 1) ||| (reg.getD (i + 1) 0 <<< 7)) % 256)) l =
        (List.range k).map (fun i => rot_byte (l.getD i 0) (l.getD (i + 1) 0)) ++ l.drop k := by
  intro k
  induction k with
  | zero => intro _; simp
  | succ k ih =>
    intro hk
    have hk2 : k < l.length := by omega
    rw [List.range_succ, List.foldl_append, ih hk2, List.map_append]
    simp only [List.foldl_cons, List.foldl_nil, List.map_cons, List.map_nil]
    have hlen : ((List.range k).map (fun i => rot_byte (l.getD i 0) (l.getD (i + 1) 0))).length
        = k := by simp
    have hdrop : l.drop k = l.getD k 0 :: l.drop (k + 1) := by
      rw [List.getD_eq_getElem _ _ hk2]
      exact List.drop_eq_getElem_cons hk2
    have hdrop2 : l.drop (k + 1) = l.getD (k + 1) 0 :: l.drop (k + 1 + 1) := by
      rw [List.getD_eq_getElem _ _ hk]
      exact List.drop_eq_getElem_cons hk
    have hget1 : ((List.range k).map (fun i => rot_byte (l.getD i 0) (l.getD (i + 1) 0)) ++
        l.drop k).getD k 0 = l.getD k 0 := by
      rw [List.getD_append_right _ _ _ _ (by omega), hlen, Nat.sub_self, hdrop]
      rfl
    have hget2 : ((List.range k).map (fun i => rot_byte (l.getD i 0) (l.getD (i + 1) 0)) ++
        l.drop k).getD (k + 1) 0 = l.getD (k + 1) 0 := by
      rw [List.getD_append_right _ _ _ _ (by omega), hlen, hdrop, hdrop2]
      have : k + 1 - k = 1 := by omega
      rw [this]
      rfl
    rw [hget1, hget2, List.set_append_right _ _ (by omega), hlen, Nat.sub_self, hdrop]
    simp [rot_byte]

/-- The rotate step on a 64-byte register, position by position. -/
theorem rotate_step_map (reg : List Nat) (hlen : reg.length = 64) :
    rotate_step reg =
      (List.range 63).map (fun i => rot_byte (reg.getD i 0) (reg.getD (i + 1) 0)) ++
        [rot_byte (reg.getD 63 0) (reg.getD 0 0)] := by
  have h63 : reg.drop 63 = [reg.getD 63 0] := by
    rw [List.drop_eq_getElem_cons (by omega : 63 < reg.length),
      List.getD_eq_getElem _ _ (by omega : 63 < reg.length)]
    congr 1
    exact List.drop_of_length_le (by omega)
  have hl : ((List.range 63).map
      (fun i => rot_byte (reg.getD i 0) (reg.getD (i + 1) 0))).length = 63 := by
    rw [List.length_map, List.length_range]
  unfold rotate_step
  simp only [REGISTER_SIZE, Nat.add_one_sub_one]
  rw [rotate_loop_first_passes reg 63 (by omega), h63,
    List.getD_append_right _ _ _ _ (by rw [hl]), List.set_append_right _ _ (by rw [hl]), hl,
    Nat.sub_self]
  rfl

/-- Pairing a list with its left shift, read through positions. -/
theorem zipWith_shift (f : Nat → Nat → Nat) (c : Nat) :
    ∀ (rest : List Nat) (b : Nat),
      List.zipWith f (b :: rest) (rest ++ [c]) =
        (List.range rest.length).map
            (fun i => f ((b :: rest).getD i 0) ((b :: rest).getD (i + 1) 0)) ++
          [f ((b :: rest).getD rest.length 0) c] := by
  intro rest
  induction rest with
  | nil => intro b; rfl
  | cons b2 rest ih =>
    intro b
    rw [List.cons_append, List.zipWith_cons_cons, ih b2, List.length_cons, List.range_succ_eq_map,
      List.map_cons, List.map_map, List.cons_append]
    rfl

/-- The bytes that the rotate step leaves in a 64-byte register: position `i` holds the new
byte for the old bytes at `i` and `i + 1`, and position 63 the one for the old bytes at 63 and
0. -/
theorem rotate_step_bytes (reg : List Nat) (hlen : reg.length = 64) :
    rotate_step reg = List.zipWith rot_byte reg (reg.drop 1 ++ [reg.getD 0 0]) := by
  rw [rotate_step_map reg hlen]
  match reg, hlen with
  | b :: rest, hlen =>
    have hr : rest.length = 63 := by simpa using hlen
    rw [List.drop_one, List.tail_cons, zipWith_shift rot_byte _ rest b, hr]

/-- The stored byte in arithmetic: half of the old byte, plus 128 when the neighbour is odd. -/
theorem rot_byte_eq (b next : Nat) (hb : b < 256) :
    rot_byte b next = b / 2 + (next % 2) * 128 := by
  unfold rot_byte
  have h1 : b >>> 1 = b / 2 := by rw [Nat.shiftRight_eq_div_pow, pow_one]
  have h3 : next <<< 7 = 2 ^ 7 * next := by rw [Nat.shiftLeft_eq, Nat.mul_comm]
  have h4 : b / 2 < 2 ^ 7 := by omega
  have h2 : (b >>> 1) ||| (next <<< 7) = 2 ^ 7 * next + b / 2 := by
    rw [Nat.lor_comm, h1, h3]
    exact (Nat.mul_add_lt_is_or h4 next).symm
  rw [h2]
  omega

/-- The integer read from the rotated bytes: the old integer halved, with bit `c mod 2` of
the carried-in byte `c` placed on top. -/
theorem le_value_rot (c : Nat) :
    ∀ (rest : List Nat) (b : Nat), (∀ x ∈ b :: rest, x < 256) →
      le_value (List.zipWith rot_byte (b :: rest) (rest ++ [c])) =
        le_value (b :: rest) / 2 + (c % 2) * 2 ^ (8 * rest.length + 7) := by
  intro rest
  induction rest with
  | nil =>
    intro b hb
    have hb0 : b < 256 := hb b (List.mem_cons_self _ _)
    simp only [List.nil_append, List.zipWith_cons_cons, List.zipWith_nil_right, le_value,
      List.length_nil]
    rw [rot_byte_eq b c hb0]
    norm_num
  | cons b2 rest ih =>
    intro b hb
    have hb0 : b < 256 := hb b (List.mem_cons_self _ _)
    have hrest : ∀ x ∈ b2 :: rest, x < 256 := fun x hx => hb x (List.mem_cons_of_mem _ hx)
    have ih2 := ih b2 hrest
    simp only [List.cons_append, List.zipWith_cons_cons] at ih2 ⊢
    rw [le_value, ih2, rot_byte_eq b b2 hb0]
    have hpow : 2 ^ (8 * (b2 :: rest).length + 7) = 256 * 2 ^ (8 * rest.length + 7) := by
      rw [List.length_cons, show 8 * (rest.length + 1) + 7 = 8 + (8 * rest.length + 7) by ring,
        pow_add]
      norm_num
    rw [hpow]
    have hv : le_value (b :: b2 :: rest) = b + 256 * le_value (b2 :: rest) := rfl
    have hv2 : le_value (b2 :: rest) = b2 + 256 * le_value rest := rfl
    rw [hv]
    generalize 2 ^ (8 * rest.length + 7) = P
    generalize hV : le_value (b2 :: rest) = V at hv2 ⊢
    generalize le_value rest = W at hv2
    have : (c % 2) * (256 * P) = 256 * ((c % 2) * P) := by ring
    rw [this]
    generalize (c % 2) * P = Q
    omega

/-- The integer held by `n` bytes is below `256^n`. -/
theorem le_value_lt : ∀ (l : List Nat), (∀ x ∈ l, x < 256) → le_value l < 2 ^ (8 * l.length) := by
  intro l
  induction l with
  | nil => intro _; simp [le_value]
  | cons b rest ih =>
    intro h
    have hb : b < 256 := h b (List.mem_cons_self _ _)
    have hr := ih (fun x hx => h x (List.mem_cons_of_mem _ hx))
    have hpow : 2 ^ (8 * (b :: rest).length) = 256 * 2 ^ (8 * rest.length) := by
      rw [List.length_cons, show 8 * (rest.length + 1) = 8 + 8 * rest.length by ring, pow_add]
      norm_num
    rw [hpow, le_value]
    generalize 2 ^ (8 * rest.length) = P at hr ⊢
    generalize le_value rest = V at hr ⊢
    omega

/-- Byte arrays of the same length that hold the same integer are equal. -/
theorem le_value_inj : ∀ (l1 l2 : List Nat), l1.length = l2.length → (∀ x ∈ l1, x < 256) →
    (∀ x ∈ l2, x < 256) → le_value l1 = le_value l2 → l1 = l2 := by
  intro l1
  induction l1 with
  | nil =>
    intro l2 hl _ _ _
    exact (List.length_eq_zero.mp hl.symm).symm
  | cons b rest ih =>
    intro l2 hl h1 h2 hv
    match l2, hl, h2, hv with
    | c :: rest2, hl, h2, hv =>
      have hb : b < 256 := h1 b (List.mem_cons_self _ _)
      have hc : c < 256 := h2 c (List.mem_cons_self _ _)
      simp only [le_value] at hv
      have hbc : b = c := by omega
      have hvr : le_value rest = le_value rest2 := by omega
      have hrest := ih rest2 (by simpa using hl) (fun x hx => h1 x (List.mem_cons_of_mem _ hx))
        (fun x hx => h2 x (List.mem_cons_of_mem _ hx)) hvr
      rw [hbc, hrest]

/-- The rotate step keeps a register at 64 bytes, each below 256. -/
theorem rotate_step_valid (reg : List Nat) (hlen : reg.length = 64) :
    (rotate_step reg).length = 64 ∧ ∀ x ∈ rotate_step reg, x < 256 := by
  rw [rotate_step_map reg hlen]
  constructor
  · rw [List.length_append, List.length_map, List.length_range]
    rfl
  · intro x hx
    rw [List.mem_append, List.mem_map, List.mem_singleton] at hx
    rcases hx with ⟨i, _, hi⟩ | hx
    · rw [← hi]; exact Nat.mod_lt _ (by norm_num)
    · rw [hx]; exact Nat.mod_lt _ (by norm_num)

/-- The integer held after the rotate step is the integer held before it, rotated right by
one bit within 512 bits. -/
theorem le_value_rotate_step (reg : List Nat) (hlen : reg.length = 64)
    (hbytes : ∀ x ∈ reg, x < 256) : le_value (rotate_step reg) = rotr512 (le_value reg) := by
  rw [rotate_step_bytes reg hlen]
  match reg, hlen, hbytes with
  | b :: rest, hlen, hbytes =>
    have hr : rest.length = 63 := by simpa using hlen
    rw [List.drop_one, List.tail_cons, List.getD_cons_zero, le_value_rot b rest b hbytes, hr]
    unfold rotr512
    have hb : le_value (b :: rest) % 2 = b % 2 := by
      rw [le_value]; omega
    rw [hb]

/-- The rotation by one bit, applied `k` times, is the rotation by `k` bits. -/
theorem rotr512_iterate (N : Nat) :
    ∀ k, k ≤ 512 → rotr512^[k] N = N / 2 ^ k + (N % 2 ^ k) * 2 ^ (512 - k) := by
  intro k
  induction k with
  | zero =>
    intro _
    rw [Function.iterate_zero, id, pow_zero, Nat.div_one, Nat.mod_one, Nat.zero_mul,
      Nat.add_zero]
  | succ k ih =>
    intro hk
    rw [Function.iterate_succ_apply', ih (by omega)]
    unfold rotr512
    have hp : 2 ^ (512 - k) = 2 * 2 ^ (512 - (k + 1)) := by
      rw [show 512 - k = 1 + (512 - (k + 1)) by omega, pow_add, pow_one]
    have hq : 2 ^ 511 = 2 ^ k * 2 ^ (512 - (k + 1)) := by
      rw [← pow_add]; congr 1; omega
    have hm : N % 2 ^ (k + 1) = N % 2 ^ k + 2 ^ k * ((N / 2 ^ k) % 2) := Nat.mod_pow_succ
    have hd : N / 2 ^ (k + 1) = N / 2 ^ k / 2 := by
      rw [pow_succ, Nat.div_div_eq_div_mul]
    rw [hp, hq, hm, hd]
    generalize 2 ^ (512 - (k + 1)) = P
    generalize N / 2 ^ k = D
    generalize N % 2 ^ k = M
    generalize 2 ^ k = Q
    have h1 : (D + M * (2 * P)) / 2 = D / 2 + M * P := by
      rw [show M * (2 * P) = 2 * (M * P) by ring]; omega
    have h2 : (D + M * (2 * P)) % 2 = D % 2 := by
      rw [show M * (2 * P) = 2 * (M * P) by ring]; omega
    rw [h1, h2]
    ring

/-- What `k` rotate steps leave in a register: 64 bytes holding the integer rotated `k`
times. -/
theorem rotate_step_iterate (reg : List Nat) (hlen : reg.length = 64)
    (hbytes : ∀ x ∈ reg, x < 256) :
    ∀ k, (rotate_step^[k] reg).length = 64 ∧ (∀ x ∈ rotate_step^[k] reg, x < 256) ∧
      le_value (rotate_step^[k] reg) = rotr512^[k] (le_value reg) := by
  intro k
  induction k with
  | zero => exact ⟨hlen, hbytes, rfl⟩
  | succ k ih =>
    obtain ⟨h1, h2, h3⟩ := ih
    rw [Function.iterate_succ_apply', Function.iterate_succ_apply']
    have hv := rotate_step_valid _ h1
    exact ⟨hv.1, hv.2, by rw [le_value_rotate_step _ h1 h2, h3]⟩

/-- The rotate step applied 512 times gives the register back. -/
theorem rotate_step_512 (reg : List Nat) (hlen : reg.length = 64)
    (hbytes : ∀ x ∈ reg, x < 256) : rotate_step^[512] reg = reg := by
  obtain ⟨h1, h2, h3⟩ := rotate_step_iterate reg hlen hbytes 512
  apply le_value_inj _ _ (by rw [h1, hlen]) h2 hbytes
  rw [h3, rotr512_iterate _ 512 (le_refl _)]
  have hlt := le_value_lt reg hbytes
  rw [hlen] at hlt
  rw [Nat.sub_self, pow_zero, Nat.mul_one, Nat.div_eq_of_lt hlt, Nat.mod_eq_of_lt hlt, Nat.zero_add]

/-- C19: step 9 of the round is a 512-bit rotate right by one.  For a register of 64 bytes
holding the little-endian integer `N`, the rotate loop of `execute_round` leaves 64 bytes
holding `(N >> 1) + (N mod 2) * 2^511`; 512 applications give the register back; and the step
is a bijection on registers: it is injective and every register is the image of one. -/
theorem rotate_step_is_rotr512 (reg : List Nat) (hlen : reg.length = 64)
    (hbytes : ∀ x ∈ reg, x < 256) :
    ((rotate_step reg).length = 64 ∧ (∀ x ∈ rotate_step reg, x < 256) ∧
        le_value (rotate_step reg) = le_value reg / 2 + (le_value reg % 2) * 2 ^ 511) ∧
      rotate_step^[512] reg = reg ∧
      (∀ reg2 : List Nat, reg2.length = 64 → (∀ x ∈ reg2, x < 256) →
        rotate_step reg = rotate_step reg2 → reg = reg2) ∧
      (∃ pre : List Nat, pre.length = 64 ∧ (∀ x ∈ pre, x < 256) ∧ rotate_step pre = reg) := by
  refine ⟨⟨(rotate_step_valid reg hlen).1, (rotate_step_valid reg hlen).2,
    le_value_rotate_step reg hlen hbytes⟩, rotate_step_512 reg hlen hbytes, ?_, ?_⟩
  · intro reg2 hlen2 hbytes2 h
    have h1 := rotate_step_512 reg hlen hbytes
    have h2 := rotate_step_512 reg2 hlen2 hbytes2
    rw [show 512 = 511 + 1 from rfl, Function.iterate_succ_apply] at h1 h2
    rw [← h1, ← h2, h]
  · obtain ⟨h1, h2, _⟩ := rotate_step_iterate reg hlen hbytes 511
    refine ⟨rotate_step^[511] reg, h1, h2, ?_⟩
    rw [← Function.iterate_succ_apply' rotate_step 511 reg]
    exact rotate_step_512 reg hlen hbytes

/-- C19 on the register holding the bytes `1, 38, 75, ...`. -/
theorem rotate_step_is_rotr512_witness :
    sample_register.length = 64 ∧ (∀ x ∈ sample_register, x < 256) ∧
      le_value (rotate_step sample_register) =
        le_value sample_register / 2 + (le_value sample_register % 2) * 2 ^ 511 ∧
      rotate_step^[512] sample_register = sample_register :=
  have h := rotate_step_is_rotr512 sample_register (by decide) (by decide)
  ⟨by decide, by decide, h.1.2.2, h.2.1⟩

/-! ## ruc_cipher.cpp: keystream input, ciphertext feedback, plaintext independence -/

/-- The mask `x & 0xFF` keeps `x mod 256`. -/
theorem and_ff (x : Nat) : x &&& 0xFF = x % 256 := Nat.and_pow_two_sub_one_eq_mod x 8

/-- C21: for a state with a 128-byte accumulator and seven 64-byte registers and a 32-bit
`block_number`, `generate_keystream` returns the 32 bytes that `shake256_hash` gives for the
590-byte input accumulator, registers 0 to 6, the six characters of `"RUC-KS"`, and the
block number as eight little-endian bytes, of which the upper four are zero. -/
theorem generate_keystream_input (state : CipherState) (block_number : Nat)
    (hacc : state.accumulator.length = 128)
    (hregs : ∀ i, i < 7 → (state.registers.getD i []).length = 64)
    (hbn : block_number < 2 ^ 32) :
    ∃ input : List Nat,
      input = state.accumulator ++ state.registers.getD 0 [] ++ state.registers.getD 1 [] ++
        state.registers.getD 2 [] ++ state.registers.getD 3 [] ++ state.registers.getD 4 [] ++
        state.registers.getD 5 [] ++ state.registers.getD 6 [] ++
        [0x52, 0x55, 0x43, 0x2D, 0x4B, 0x53] ++
        [block_number % 256, block_number / 2 ^ 8 % 256, block_number / 2 ^ 16 % 256,
         block_number / 2 ^ 24 % 256, 0, 0, 0, 0] ∧
      input.length = 590 ∧
      generate_keystream state block_number = shake256_hash input 32 ∧
      (generate_keystream state block_number).length = 32 ∧
      u64_bytes block_number =
        [block_number % 256, block_number / 2 ^ 8 % 256, block_number / 2 ^ 16 % 256,
         block_number / 2 ^ 24 % 256, 0, 0, 0, 0] := by
  have h0 := hregs 0 (by omega)
  have h1 := hregs 1 (by omega)
  have h2 := hregs 2 (by omega)
  have h3 := hregs 3 (by omega)
  have h4 := hregs 4 (by omega)
  have h5 := hregs 5 (by omega)
  have h6 := hregs 6 (by omega)
  have hz : ∀ s, 32 ≤ s → block_number / 2 ^ s % 256 = 0 := by
    intro s hs
    have hle : (2 : Nat) ^ 32 ≤ 2 ^ s := Nat.pow_le_pow_right (by norm_num) hs
    rw [Nat.div_eq_of_lt (by omega)]
  refine ⟨_, rfl, ?_, ?_, ?_, ?_⟩
  · simp only [List.length_append, hacc, h0, h1, h2, h3, h4, h5, h6, List.length_cons,
      List.length_nil]
  · unfold generate_keystream
    simp only [ACCUMULATOR_SIZE, REGISTER_SIZE, BLOCK_SIZE, RUC_KS_TAG]
    rw [List.take_of_length_le (by omega : state.accumulator.length ≤ 128),
      List.take_of_length_le (by omega : (state.registers.getD 0 []).length ≤ 64),
      List.take_of_length_le (by omega : (state.registers.getD 1 []).length ≤ 64),
      List.take_of_length_le (by omega : (state.registers.getD 2 []).length ≤ 64),
      List.take_of_length_le (by omega : (state.registers.getD 3 []).length ≤ 64),
      List.take_of_length_le (by omega : (state.registers.getD 4 []).length ≤ 64),
      List.take_of_length_le (by omega : (state.registers.getD 5 []).length ≤ 64),
      List.take_of_length_le (by omega : (state.registers.getD 6 []).length ≤ 64)]
    simp only [and_ff, Nat.shiftRight_eq_div_pow, List.append_assoc, List.cons_append,
      List.nil_append]
  · unfold generate_keystream shake256_hash
    simp only [BLOCK_SIZE, if_true]
    rfl
  · unfold u64_bytes
    have hr : List.range 8 = [0, 1, 2, 3, 4, 5, 6, 7] := by decide
    rw [hr]
    simp only [List.map_cons, List.map_nil, and_ff, Nat.shiftRight_eq_div_pow, Nat.reduceMul,
      pow_zero, Nat.div_one, hz 32 (le_refl _), hz 40 (by omega), hz 48 (by omega),
      hz 56 (by omega)]

/-- C21 on the state of zero accumulator and seven sample registers, block number 1. -/
theorem generate_keystream_input_witness :
    ∃ input : List Nat,
      input = List.replicate 128 0 ++ sample_register ++ sample_register ++ sample_register ++
        sample_register ++ sample_register ++ sample_register ++ sample_register ++
        [0x52, 0x55, 0x43, 0x2D, 0x4B, 0x53] ++ [1, 0, 0, 0, 0, 0, 0, 0] ∧
      input.length = 590 ∧
      generate_keystream
        { registers := List.replicate 7 sample_register, accumulator := List.replicate 128 0 } 1 =
        shake256_hash input 32 := by
  obtain ⟨input, h1, h2, h3, _, _⟩ := generate_keystream_input
    { registers := List.replicate 7 sample_register, accumulator := List.replicate 128 0 } 1
    (by decide) (by decide) (by decide)
  exact ⟨input, h1, h2, h3⟩

/-- A loop that rewrites position `j` from its own old content, for `j = 0, ..., k - 1`:
the first `k` positions hold the rewritten values and the others are untouched. -/
theorem foldl_set_range {α : Type} (d : α) (g : Nat → α → α) (l : List α) :
    ∀ k, k ≤ l.length →
      (List.range k).foldl (fun acc j => acc.set j (g j (acc.getD j d))) l =
        (List.range k).map (fun j => g j (l.getD j d)) ++ l.drop k := by
  intro k
  induction k with
  | zero => intro _; simp
  | succ k ih =>
    intro hk
    have hk2 : k < l.length := by omega
    rw [List.range_succ, List.foldl_append, ih (by omega), List.map_append]
    simp only [List.foldl_cons, List.foldl_nil, List.map_cons, List.map_nil]
    have hlen : ((List.range k).map (fun j => g j (l.getD j d))).length = k := by simp
    have hdrop : l.drop k = l.getD k d :: l.drop (k + 1) := by
      rw [List.getD_eq_getElem _ _ hk2]
      exact List.drop_eq_getElem_cons hk2
    rw [List.getD_append_right _ _ _ _ (by omega), List.set_append_right _ _ (by omega), hlen,
      Nat.sub_self, hdrop]
    simp

/-- Reading every position of a list and mapping is mapping the list. -/
theorem map_range_getD {α β : Type} (d : α) (f : α → β) :
    ∀ l : List α, (List.range l.length).map (fun i => f (l.getD i d)) = l.map f := by
  intro l
  induction l with
  | nil => rfl
  | cons a rest ih =>
    rw [List.length_cons, List.range_succ_eq_map, List.map_cons, List.map_map, List.map_cons,
      ← ih]
    rfl

/-- C23: on a state of seven 64-byte registers, `apply_ciphertext_feedback` replaces byte `j`
of every register by its XOR with `ciphertext[j mod 32]`, in the same way for all seven
registers, and leaves the accumulator unchanged. -/
theorem apply_ciphertext_feedback_bytes (state : CipherState) (ciphertext : List Nat)
    (hcount : state.registers.length = 7)
    (hregs : ∀ reg ∈ state.registers, reg.length = 64) :
    (apply_ciphertext_feedback state ciphertext).registers =
        state.registers.map (fun reg =>
          (List.range 64).map (fun j => reg.getD j 0 ^^^ ciphertext.getD (j % 32) 0)) ∧
      (∀ i j, i < 7 → j < 64 →
        ((apply_ciphertext_feedback state ciphertext).registers.getD i []).getD j 0 =
          (state.registers.getD i []).getD j 0 ^^^ ciphertext.getD (j % 32) 0) ∧
      (apply_ciphertext_feedback state ciphertext).accumulator = state.accumulator := by
  have hinner : ∀ reg ∈ state.registers,
      (List.range 64).foldl
          (fun reg j => reg.set j (reg.getD j 0 ^^^ ciphertext.getD (j % 32) 0)) reg =
        (List.range 64).map (fun j => reg.getD j 0 ^^^ ciphertext.getD (j % 32) 0) := by
    intro reg hreg
    have h := foldl_set_range 0 (fun j b => b ^^^ ciphertext.getD (j % 32) 0) reg 64
      (by rw [hregs reg hreg])
    rw [List.drop_of_length_le (by rw [hregs reg hreg]), List.append_nil] at h
    exact h
  have houter : (apply_ciphertext_feedback state ciphertext).registers =
      state.registers.map (fun reg =>
        (List.range 64).foldl
          (fun reg j => reg.set j (reg.getD j 0 ^^^ ciphertext.getD (j % 32) 0)) reg) := by
    have h := foldl_set_range [] (fun _ reg => (List.range 64).foldl
        (fun reg j => reg.set j (reg.getD j 0 ^^^ ciphertext.getD (j % 32) 0)) reg)
      state.registers 7 (by omega)
    rw [List.drop_of_length_le (by omega), List.append_nil, ← hcount] at h
    beta_reduce at h
    rw [map_range_getD [] (fun reg => (List.range 64).foldl
        (fun reg j => reg.set j (reg.getD j 0 ^^^ ciphertext.getD (j % 32) 0)) reg)
      state.registers] at h
    rw [← h, hcount]
    rfl
  have hmap : (apply_ciphertext_feedback state ciphertext).registers =
      state.registers.map (fun reg =>
        (List.range 64).map (fun j => reg.getD j 0 ^^^ ciphertext.getD (j % 32) 0)) := by
    rw [houter]
    exact List.map_congr_left hinner
  refine ⟨hmap, ?_, rfl⟩
  intro i j hi hj
  have hi2 : i < (state.registers.map (fun reg =>
      (List.range 64).map (fun j => reg.getD j 0 ^^^ ciphertext.getD (j % 32) 0))).length := by
    rw [List.length_map]; omega
  rw [hmap, List.getD_eq_getElem _ [] hi2, List.getElem_map,
    List.getD_eq_getElem state.registers [] (by omega : i < state.registers.length)]
  have hj2 : j < ((List.range 64).map
      (fun j => (state.registers[i]).getD j 0 ^^^ ciphertext.getD (j % 32) 0)).length := by
    rw [List.length_map, List.length_range]; exact hj
  rw [List.getD_eq_getElem _ 0 hj2, List.getElem_map, List.getElem_range]

/-- C23 on seven sample registers and the ciphertext `0, 1, ..., 31`: byte 40 of register 3
is XORed with ciphertext byte 8. -/
theorem apply_ciphertext_feedback_bytes_witness :
    ((apply_ciphertext_feedback
        { registers := List.replicate 7 sample_register, accumulator := List.replicate 128 0 }
        (List.range 32)).registers.getD 3 []).getD 40 0 = sample_register.getD 40 0 ^^^ 8 ∧
      (apply_ciphertext_feedback
        { registers := List.replicate 7 sample_register, accumulator := List.replicate 128 0 }
        (List.range 32)).accumulator = List.replicate 128 0 :=
  have h := apply_ciphertext_feedback_bytes
    { registers := List.replicate 7 sample_register, accumulator := List.replicate 128 0 }
    (List.range 32) (by decide) (by decide)
  ⟨h.2.1 3 40 (by decide) (by decide), h.2.2⟩

/-- A byte of the XOR of two blocks. -/
theorem xor_block_getD (a b : List Nat) (i : Nat) (hi : i < 32) :
    (xor_block a b).getD i 0 = a.getD i 0 ^^^ b.getD i 0 := by
  unfold xor_block
  rw [List.getD_eq_getElem _ _ (by rw [List.length_map, List.length_range]; exact hi),
    List.getElem_map, List.getElem_range]

/-- C24: the keystream does not depend on the plaintext.  Encrypting `p XOR d` gives the
encryption of `p` XORed with `d` (and returns exactly when the encryption of `p` does), and
ciphertext XOR plaintext is the same block for any two plaintexts under the same key, iv,
block number and key material. -/
theorem encrypt_xor_malleable (fuel : Nat) (wide : Nat → Nat → Nat) (p d key iv : List Nat)
    (block_number : Nat) (km : KeyMaterial) :
    ruc_encrypt_block fuel wide (xor_block p d) key iv block_number km =
        (ruc_encrypt_block fuel wide p key iv block_number km).map (fun c => xor_block c d) ∧
      ∀ p1 p2 c1 c2 : List Nat,
        ruc_encrypt_block fuel wide p1 key iv block_number km = some c1 →
        ruc_encrypt_block fuel wide p2 key iv block_number km = some c2 →
        xor_block c1 p1 = xor_block c2 p2 := by
  constructor
  · rw [ruc_encrypt_block_eq, ruc_encrypt_block_eq, Option.map_map]
    congr 1
    funext ks
    unfold Function.comp xor_block
    apply List.map_congr_left
    intro i hi
    rw [List.mem_range] at hi
    have h1 := xor_block_getD p d i hi
    have h2 := xor_block_getD p ks i hi
    unfold xor_block at h1 h2
    rw [h1, h2, Nat.xor_assoc, Nat.xor_assoc, Nat.xor_comm (d.getD i 0)]
  · intro p1 p2 c1 c2 h1 h2
    rw [ruc_encrypt_block_eq] at h1 h2
    cases hks : block_keystream fuel wide key iv block_number km with
    | none => rw [hks] at h1; exact absurd h1 (by simp)
    | some ks =>
      rw [hks] at h1 h2
      simp only [Option.map_some', Option.some.injEq] at h1 h2
      rw [← h1, ← h2]
      have key : ∀ q : List Nat, xor_block (xor_block q ks) q = xor_block ks [] := by
        intro q
        unfold xor_block
        apply List.map_congr_left
        intro i hi
        rw [List.mem_range] at hi
        have h3 := xor_block_getD q ks i hi
        unfold xor_block at h3
        rw [h3, Nat.xor_comm (q.getD i 0), Nat.xor_assoc, Nat.xor_self]
        simp
      rw [key p1, key p2]

/-! ## ruc_cipher.cpp: the selector shuffle of the key expansion -/

/-- Recording the draws does not change the selectors that the shuffle returns. -/
theorem shuffle_selectors_draws_fst (fuel : Nat) :
    ∀ (i : Nat) (prng : ChaCha20PRNG) (selectors : List Nat),
      (shuffle_selectors_draws fuel i prng selectors).map (fun out => out.1) =
        shuffle_selectors fuel i prng selectors := by
  intro i
  induction i with
  | zero => intro prng selectors; rfl
  | succ i ih =>
    intro prng selectors
    unfold shuffle_selectors_draws shuffle_selectors
    cases prng.next_int fuel (i + 1 + 1) with
    | none => rfl
    | some r =>
      simp only [Option.map_map]
      rw [← ih]
      rfl

/-- Every pass of the shuffle calls `next_int` with the loop variable plus one, which is at
least 2, and draws an index that is at most the loop variable. -/
theorem shuffle_selectors_draws_bound (fuel : Nat) :
    ∀ (i : Nat) (prng : ChaCha20PRNG) (selectors : List Nat)
      (out : List Nat × List (Nat × Nat × Nat)),
      shuffle_selectors_draws fuel i prng selectors = some out →
        out.2.length = i ∧
          ∀ t ∈ out.2, 1 ≤ t.1 ∧ t.1 ≤ i ∧ t.2.1 = t.1 + 1 ∧ t.2.2 ≤ t.1 := by
  intro i
  induction i with
  | zero =>
    intro prng selectors out h
    simp only [shuffle_selectors_draws, Option.some.injEq] at h
    rw [← h]
    exact ⟨rfl, fun t ht => absurd ht (List.not_mem_nil t)⟩
  | succ i ih =>
    intro prng selectors out h
    unfold shuffle_selectors_draws at h
    cases hr : prng.next_int fuel (i + 1 + 1) with
    | none => rw [hr] at h; exact absurd h (by simp)
    | some r =>
      rw [hr] at h
      simp only [Option.map_eq_some'] at h
      obtain ⟨out2, hout2, hout⟩ := h
      have hj := next_int_lt fuel prng (i + 1 + 1) r (by omega) hr
      obtain ⟨hl, hb⟩ := ih _ _ out2 hout2
      rw [← hout]
      refine ⟨by simp [hl], ?_⟩
      intro t ht
      rcases List.mem_cons.mp ht with h1 | h1
      · rw [h1]
        exact ⟨by omega, le_refl _, rfl, by simp only; omega⟩
      · obtain ⟨a, b, c, d⟩ := hb t h1
        exact ⟨a, by omega, c, d⟩

/-- The shuffle inside `ruc_expand_key`: the selectors of the key material are what the loop
returns on the derived selectors, with the generator seeded from the key. -/
theorem ruc_expand_key_shuffle (fuel : Nat) (key : List Nat) (km : KeyMaterial)
    (h : ruc_expand_key fuel key = some km) :
    shuffle_selectors fuel (km.num_selectors - 1) (permute_prng key)
      ((List.range km.num_selectors).map (fun i => derive_selector key i)) =
        some km.selectors := by
  unfold ruc_expand_key at h
  simp only at h
  split at h
  · exact absurd h (by simp)
  · rename_i sels hs
    simp only [Option.some.injEq] at h
    subst h
    exact hs

/-- C30: the shuffle of the key expansion only permutes.  When `ruc_expand_key` returns, its
shuffle loop made `num_selectors - 1` passes; in each, `next_int` was called with
`max = i + 1 >= 2` for the loop variable `i`, the index drawn satisfies `j <= i`, and
`i < num_selectors`; and the selectors after the shuffle are a permutation of the derived
selectors. -/
theorem shuffle_only_permutes (fuel : Nat) (key : List Nat) (km : KeyMaterial)
    (h : ruc_expand_key fuel key = some km) :
    (∃ draws : List (Nat × Nat × Nat),
      shuffle_selectors_draws fuel (km.num_selectors - 1) (permute_prng key)
          ((List.range km.num_selectors).map (fun i => derive_selector key i)) =
        some (km.selectors, draws) ∧
      draws.length = km.num_selectors - 1 ∧
      ∀ t ∈ draws, t.2.1 = t.1 + 1 ∧ 2 ≤ t.2.1 ∧ t.2.2 ≤ t.1 ∧ t.1 < km.num_selectors) ∧
    km.selectors.Perm ((List.range km.num_selectors).map (fun i => derive_selector key i)) ∧
    km.selectors.length = km.num_selectors := by
  have hs := ruc_expand_key_shuffle fuel key km h
  have hn := (ruc_expand_key_selectors fuel key km h).1
  have hp := (ruc_expand_key_selectors fuel key km h).2
  rw [← shuffle_selectors_draws_fst, Option.map_eq_some'] at hs
  obtain ⟨out, hout, hfst⟩ := hs
  obtain ⟨hl, hb⟩ := shuffle_selectors_draws_bound fuel _ _ _ out hout
  refine ⟨⟨out.2, ?_, hl, ?_⟩, hp, ?_⟩
  · rw [hout, ← hfst]
  · intro t ht
    obtain ⟨a, b, c, d⟩ := hb t ht
    exact ⟨c, by omega, d, by omega⟩
  · rw [hp.length_eq, List.length_map, List.length_range]

/-- C30 on the all-zero key, which expands to 16 selectors shuffled in 15 passes. -/
theorem shuffle_only_permutes_witness :
    ∃ km, ruc_expand_key 1 zero_key = some km ∧
      (∃ draws : List (Nat × Nat × Nat),
        shuffle_selectors_draws 1 (km.num_selectors - 1) (permute_prng zero_key)
            ((List.range km.num_selectors).map (fun i => derive_selector zero_key i)) =
          some (km.selectors, draws) ∧
        draws.length = 15 ∧
        ∀ t ∈ draws, t.2.1 = t.1 + 1 ∧ 2 ≤ t.2.1 ∧ t.2.2 ≤ t.1 ∧ t.1 < km.num_selectors) ∧
      km.selectors.Perm
        ((List.range km.num_selectors).map (fun i => derive_selector zero_key i)) := by
  obtain ⟨km, hkm⟩ := Option.isSome_iff_exists.mp zero_key_expands
  have hn : km.num_selectors = 16 := (ruc_expand_key_selectors 1 zero_key km hkm).1
  obtain ⟨⟨draws, h1, h2, h3⟩, h4, _⟩ := shuffle_only_permutes 1 zero_key km hkm
  exact ⟨km, hkm, ⟨draws, h1, by rw [h2, hn], h3⟩, h4⟩

/-! ## gf_math.cpp: the image of `gf_mul` -/

/-- A table read returns the default or an entry of the table. -/
theorem getD_zero_or_mem (l : List Nat) (i : Nat) : l.getD i 0 = 0 ∨ l.getD i 0 ∈ l := by
  by_cases h : i < l.length
  · right
    rw [List.getD_eq_getElem _ _ h]
    exact List.getElem_mem h
  · left
    rw [List.getD_eq_default _ _ (by omega)]

/-- The array `gf_exp_table` written out: five times the 51 entries of `exp_period`, then 1. -/
theorem gf_exp_table_eq :
    gf_exp_table = exp_period ++ exp_period ++ exp_period ++ exp_period ++ exp_period ++ [1] := by
  unfold gf_exp_table
  rw [init_gf_tables_eq]

/-- C25: the image of `gf_mul` is small.  Every product `gf_mul(a, b)` is 0 or an entry of
`gf_exp_table`; the table repeats with period 51 and holds exactly 51 distinct values, none of
them 0; so `gf_mul` takes its values in a set of 52 bytes, and so does every byte of a
register after `gf_mul_register_inplace`. -/
theorem gf_mul_image_small :
    (∀ a b : Nat, gf_mul a b = 0 ∨ gf_mul a b ∈ gf_exp_table) ∧
      (∀ i, i < 256 → gf_exp_table.getD i 0 = exp_period.getD (i % 51) 0) ∧
      gf_exp_table.toFinset.card = 51 ∧
      (insert 0 gf_exp_table.toFinset).card = 52 ∧
      (∀ a b : Nat, gf_mul a b ∈ insert 0 gf_exp_table.toFinset) ∧
      (∀ (reg : List Nat) (multiplier : Nat), ∀ x ∈ gf_mul_register_inplace reg multiplier,
        x ∈ insert 0 gf_exp_table.toFinset) := by
  have himg : ∀ a b : Nat, gf_mul a b = 0 ∨ gf_mul a b ∈ gf_exp_table := by
    intro a b
    unfold gf_mul gf_mul_with
    split
    · left; rfl
    · exact getD_zero_or_mem _ _
  have hset : ∀ a b : Nat, gf_mul a b ∈ insert 0 gf_exp_table.toFinset := by
    intro a b
    rw [Finset.mem_insert, List.mem_toFinset]
    exact himg a b
  refine ⟨himg, ?_, ?_, ?_, hset, ?_⟩
  · rw [gf_exp_table_eq]
    decide!
  · rw [gf_exp_table_eq]
    decide!
  · rw [gf_exp_table_eq]
    decide!
  · intro reg multiplier x hx
    unfold gf_mul_register_inplace at hx
    rw [List.mem_map] at hx
    obtain ⟨y, _, hy⟩ := hx
    rw [← hy]
    exact hset y multiplier

/-! ## shake256.cpp: the two absorb paths and the two squeeze paths -/

/-- Below a full rate block the two absorb loops do the same: the position never reaches the
rate, so the general loop never permutes. -/
theorem absorb_loops_agree (input : List Nat) :
    ∀ sp : List Nat × Nat, sp.2 + input.length < rate →
      input.foldl (fun sp b => (xor_byte sp.1 sp.2 b, sp.2 + 1)) sp =
        input.foldl
          (fun sp b =>
            let st := xor_byte sp.1 sp.2 b
            let pos := sp.2 + 1
            if pos = rate then (keccak_f st, 0) else (st, pos)) sp := by
  induction input with
  | nil => intro sp _; rfl
  | cons b rest ih =>
    intro sp h
    rw [List.length_cons] at h
    rw [List.foldl_cons, List.foldl_cons]
    have hne : ¬ (sp.2 + 1 = rate) := by omega
    simp only [hne, if_false]
    exact ih _ (by simp only; omega)

/-- C26 (fails on the code): the single-block absorb path of `shake256_hash` agrees with the
general sponge for inputs shorter than the rate of 136 bytes (and longer inputs take the
general loop itself), but not for an input of exactly 136 bytes: there the single-block path
leaves the position at 136 without permuting, so the padding byte is XORed in at byte 136,
outside the rate, and the two outputs differ on 136 zero bytes. -/
theorem absorb_fast_differs_at_rate :
    (∀ (input : List Nat) (n : Nat), input.length < 136 →
        shake256_hash input n = shake256_hash_general input n) ∧
      (∀ (input : List Nat) (n : Nat), 136 < input.length →
        shake256_hash input n = shake256_hash_general input n) ∧
      zero_rate_block.length = 136 ∧
      shake256_hash zero_rate_block 32 =
        [0xed, 0x68, 0xf5, 0x93, 0x4f, 0x00, 0x58, 0x0f, 0xf9, 0xda, 0xc5, 0x56, 0x63, 0xa7,
         0x6f, 0xd9, 0xf5, 0xa2, 0x03, 0xa9, 0x14, 0x5d, 0x08, 0x7b, 0x57, 0x4f, 0x85, 0xf0,
         0xff, 0x9c, 0x95, 0xef] ∧
      shake256_hash_general zero_rate_block 32 =
        [0xcd, 0x3d, 0x5d, 0x65, 0x88, 0x33, 0xe5, 0x5f, 0xe8, 0x96, 0xc9, 0x9a, 0x5f, 0x20,
         0x10, 0xfb, 0xc2, 0x87, 0x2a, 0xf4, 0x91, 0x41, 0x21, 0xfc, 0xe0, 0xee, 0x48, 0x11,
         0x43, 0xb4, 0x7b, 0x3c] := by
  refine ⟨?_, ?_, by decide, by decide!, by decide!⟩
  · intro input n h
    unfold shake256_hash shake256_hash_general
    have hle : input.length ≤ rate := by unfold rate; omega
    simp only [hle, if_true]
    have hab : absorb_fast (List.replicate 25 0) input =
        absorb_general (List.replicate 25 0) input := by
      unfold absorb_fast absorb_general
      exact absorb_loops_agree input _ (by simp only [rate]; omega)
    rw [hab]
  · intro input n h
    unfold shake256_hash shake256_hash_general
    have hle : ¬ input.length ≤ rate := by unfold rate; omega
    simp only [hle, if_false]

/-- The general squeeze loop emits its bytes one after the other: a shorter output is a prefix
of a longer one. -/
theorem squeeze_general_take :
    ∀ (n m : Nat) (state : List Nat) (pos : Nat), n ≤ m →
      squeeze_general n state pos = (squeeze_general m state pos).take n := by
  intro n
  induction n with
  | zero => intro m state pos _; rfl
  | succ n ih =>
    intro m state pos h
    match m, h with
    | m + 1, h =>
      rw [squeeze_general, squeeze_general, List.take_succ_cons]
      exact congrArg _ (ih m _ _ (by omega))

/-- The 32-byte squeeze path writes the bytes that the general squeeze loop writes. -/
theorem squeeze32_eq_general (state : List Nat) : squeeze32 state = squeeze_general 32 state 0 := by
  rfl

/-- C27: for every input and all output lengths `n <= m`, `shake256_hash(input, n)` is the
first `n` bytes of `shake256_hash(input, m)`; and the 32-byte squeeze path returns the bytes
of the general squeeze loop. -/
theorem shake256_hash_xof_consistent (input : List Nat) (n m : Nat) (h : n ≤ m) :
    shake256_hash input n = (shake256_hash input m).take n ∧
      ∀ state : List Nat, squeeze32 state = squeeze_general 32 state 0 := by
  refine ⟨?_, squeeze32_eq_general⟩
  unfold shake256_hash
  simp only
  generalize keccak_f _ = state3
  by_cases hn : n = 32
  · by_cases hm : m = 32
    · simp only [hn, hm, if_true]
      rw [squeeze32_eq_general, ← squeeze_general_take 32 32 _ _ (le_refl _)]
    · simp only [hn, hm, if_true, if_false]
      rw [squeeze32_eq_general]
      exact squeeze_general_take 32 m _ _ (by omega)
  · by_cases hm : m = 32
    · simp only [hn, hm, if_true, if_false]
      rw [squeeze32_eq_general]
      exact squeeze_general_take n 32 _ _ (by omega)
    · simp only [hn, hm, if_false]
      exact squeeze_general_take n m _ _ h

/-- C27 on the empty input, for the output lengths 16 and 32 and for 32 and 64. -/
theorem shake256_hash_xof_consistent_witness :
    shake256_hash [] 16 = (shake256_hash [] 32).take 16 ∧
      shake256_hash [] 32 = (shake256_hash [] 64).take 32 :=
  ⟨(shake256_hash_xof_consistent [] 16 32 (by decide)).1, (shake256_hash_xof_consistent [] 32 64 (by decide)).1⟩

/-! ## ruc_cipher.cpp: the insertion sort of `order_selectors` -/

/-- The inner loop of the insertion sort, entered with the hole at position `m`: the `m`
items to the left of the hole, read from right to left, receive `key` at the first place where
the loop condition fails, and the items to the right of the hole stay. -/
theorem insert_item_eq (key : PriorityItem) :
    ∀ (m : Nat) (ps : List PriorityItem), m < ps.length →
      insert_item key m ps =
        (List.orderedInsert item_ge key (ps.take m).reverse).reverse ++ ps.drop (m + 1) := by
  intro m
  induction m with
  | zero =>
    intro ps h
    match ps, h with
    | a :: t, _ => simp [insert_item]
  | succ j ih =>
    intro ps h
    have hj : j < ps.length := by omega
    have hget : ps.getD j default = ps[j] := List.getD_eq_getElem _ _ hj
    have htake : ps.take (j + 1) = ps.take j ++ [ps[j]] := by
      rw [List.take_succ, List.getElem?_eq_getElem hj]
      rfl
    rw [insert_item]
    rw [htake, List.reverse_append, List.reverse_singleton, List.singleton_append,
      List.orderedInsert, hget]
    by_cases hc : item_gt ps[j] key
    · have hc2 : ¬ item_ge key ps[j] := fun hn => hn hc
      have hc3 : ps[j].priority > key.priority ∨
          (ps[j].priority = key.priority ∧ ps[j].index > key.index) := hc
      have hd : (ps.set (j + 1) ps[j]).drop (j + 1) = ps[j] :: ps.drop (j + 1 + 1) := by
        rw [List.drop_set, if_neg (by omega), Nat.sub_self, List.drop_eq_getElem_cons h,
          List.set_cons_zero]
      rw [if_pos hc3, if_neg hc2, ih _ (by rw [List.length_set]; exact hj),
        List.take_set_of_lt _ _ (by omega : j < j + 1), hd, List.reverse_cons, List.append_assoc]
      rfl
    · have hc2 : item_ge key ps[j] := hc
      have hc3 : ¬ (ps[j].priority > key.priority ∨
          (ps[j].priority = key.priority ∧ ps[j].index > key.index)) := hc
      rw [if_neg hc3, if_pos hc2, List.set_eq_take_append_cons_drop, if_pos h, htake]
      simp

/-- The outer loop of the insertion sort after `k` passes: the first `k + 1` items are
sorted, in the order that inserting them one by one from the right gives, and the others are
untouched. -/
theorem insertion_sort_first_passes (ps : List PriorityItem) :
    ∀ k, k + 1 ≤ ps.length →
      (List.range k).foldl (fun ps k => insert_item (ps.getD (k + 1) default) (k + 1) ps) ps =
        (List.insertionSort item_ge (ps.take (k + 1)).reverse).reverse ++ ps.drop (k + 1) := by
  intro k
  induction k with
  | zero =>
    intro h
    match ps, h with
    | a :: t, _ => rfl
  | succ k ih =>
    intro h
    have hk : k + 1 < ps.length := by omega
    have hlen : ((List.insertionSort item_ge (ps.take (k + 1)).reverse).reverse).length =
        k + 1 := by
      rw [List.length_reverse, List.length_insertionSort, List.length_reverse, List.length_take]
      omega
    have htake : ps.take (k + 1 + 1) = ps.take (k + 1) ++ [ps[k + 1]] := by
      rw [List.take_succ, List.getElem?_eq_getElem hk]
      rfl
    rw [List.range_succ, List.foldl_append, ih (by omega)]
    simp only [List.foldl_cons, List.foldl_nil]
    rw [List.getD_append_right _ _ _ _ (by omega), hlen, Nat.sub_self,
      List.drop_eq_getElem_cons hk, List.getD_cons_zero,
      insert_item_eq _ _ _ (by rw [List.length_append, hlen, List.length_cons]; omega),
      List.take_left' hlen, List.reverse_reverse,
      List.drop_append_eq_append_drop, hlen, htake, List.reverse_append,
      List.reverse_singleton, List.singleton_append, List.insertionSort,
      List.drop_of_length_le (by omega : (List.insertionSort item_ge
        (ps.take (k + 1)).reverse).reverse.length ≤ k + 1 + 1), List.nil_append]
    have hkk : k + 1 + 1 - (k + 1) = 1 := by omega
    rw [hkk]
    rfl

/-- The insertion sort of `order_selectors` returns what inserting the items one by one,
each from the right end of the sorted part, returns. -/
theorem insertion_sort_eq (ps : List PriorityItem) :
    insertion_sort ps = (List.insertionSort item_ge ps.reverse).reverse := by
  unfold insertion_sort
  match ps with
  | [] => rfl
  | a :: t =>
    have h := insertion_sort_first_passes (a :: t) t.length (by simp)
    rw [List.length_cons, Nat.add_sub_cancel, h, List.take_of_length_le (by simp),
      List.drop_of_length_le (by simp), List.append_nil]

/-- The negated loop condition says that the item on the left precedes the inserted one in
the order by priority and index. -/
theorem item_ge_iff (key a : PriorityItem) : item_ge key a ↔ item_le a key := by
  unfold item_ge item_gt item_le
  omega

/-- The insertion sort permutes the items. -/
theorem insertion_sort_perm (ps : List PriorityItem) : (insertion_sort ps).Perm ps := by
  rw [insertion_sort_eq]
  exact (List.reverse_perm _).trans
    ((List.perm_insertionSort item_ge _).trans (List.reverse_perm _))

/-- The insertion sort leaves the items ascending by priority, with ties in ascending
index. -/
theorem insertion_sort_sorted (ps : List PriorityItem) :
    (insertion_sort ps).Pairwise item_le := by
  haveI : IsTotal PriorityItem item_ge :=
    ⟨fun a b => by unfold item_ge item_gt; omega⟩
  haveI : IsTrans PriorityItem item_ge :=
    ⟨fun a b c => by unfold item_ge item_gt; omega⟩
  rw [insertion_sort_eq, List.pairwise_reverse]
  exact (List.sorted_insertionSort item_ge ps.reverse).imp
    (fun {a b} h => (item_ge_iff a b).mp h)

/-- Items whose indices increase along the list are told apart by their index. -/
theorem eq_of_index_eq :
    ∀ (ps : List PriorityItem), ps.Pairwise (fun a b => a.index < b.index) →
      ∀ a b, a ∈ ps → b ∈ ps → a.index = b.index → a = b := by
  intro ps
  induction ps with
  | nil => intro _ a b ha; exact absurd ha (List.not_mem_nil a)
  | cons x t ih =>
    intro h a b ha hb hab
    rw [List.pairwise_cons] at h
    rcases List.mem_cons.mp ha with ha | ha
    · rcases List.mem_cons.mp hb with hb | hb
      · rw [ha, hb]
      · have := h.1 b hb
        rw [ha] at hab
        omega
    · rcases List.mem_cons.mp hb with hb | hb
      · have := h.1 a ha
        rw [hb] at hab
        omega
      · exact ih h.2 a b ha hb hab

/-- A stable sort by priority alone, on items whose indices increase along the list, leaves
the items ascending by priority with ties in ascending index. -/
theorem mergeSort_priority_sorted (ps : List PriorityItem)
    (hidx : ps.Pairwise (fun a b => a.index < b.index)) :
    (ps.mergeSort priority_le).Pairwise item_le := by
  have htrans : ∀ a b c : PriorityItem, priority_le a b = true → priority_le b c = true →
      priority_le a c = true := by
    intro a b c h1 h2
    unfold priority_le at h1 h2 ⊢
    rw [decide_eq_true_eq] at h1 h2 ⊢
    omega
  have htotal : ∀ a b : PriorityItem, (priority_le a b || priority_le b a) = true := by
    intro a b
    unfold priority_le
    rw [Bool.or_eq_true, decide_eq_true_eq, decide_eq_true_eq]
    omega
  have hs := List.sorted_mergeSort htrans htotal ps
  have hp := List.mergeSort_perm ps priority_le
  have hfilter : ∀ p : Nat, (ps.mergeSort priority_le).filter (fun a => decide (a.priority = p)) =
      ps.filter (fun a => decide (a.priority = p)) := by
    intro p
    have hc1 : (ps.filter (fun a => decide (a.priority = p))).Pairwise
        (fun a b => priority_le a b = true) := by
      refine (hidx.sublist (List.filter_sublist _)).imp_of_mem ?_
      intro a b ha hb _
      have h1 := (List.mem_filter.mp ha).2
      have h2 := (List.mem_filter.mp hb).2
      rw [decide_eq_true_eq] at h1 h2
      unfold priority_le
      rw [decide_eq_true_eq]
      omega
    have hc2 := List.sublist_mergeSort htrans htotal hc1 (List.filter_sublist _)
    have hc3 := hc2.filter (fun a => decide (a.priority = p))
    rw [List.filter_filter] at hc3
    simp only [Bool.and_self] at hc3
    have hlen := (hp.filter (fun a => decide (a.priority = p))).length_eq
    exact (hc3.eq_of_length hlen.symm).symm
  rw [List.pairwise_iff_forall_sublist]
  intro a b hab
  have hle := (List.pairwise_iff_forall_sublist.mp hs) hab
  unfold priority_le at hle
  rw [decide_eq_true_eq] at hle
  unfold item_le
  by_cases hlt : a.priority < b.priority
  · exact Or.inl hlt
  · right
    have heq : a.priority = b.priority := by omega
    refine ⟨heq, ?_⟩
    have h1 := hab.filter (fun x => decide (x.priority = a.priority))
    rw [hfilter] at h1
    have h2 : [a, b].filter (fun x => decide (x.priority = a.priority)) = [a, b] := by
      simp [heq]
    rw [h2] at h1
    have h3 := (List.pairwise_iff_forall_sublist.mp hidx) (h1.trans (List.filter_sublist _))
    omega

/-- On items whose indices increase along the list, the insertion sort of `order_selectors`
returns what a stable sort by priority alone returns. -/
theorem insertion_sort_eq_mergeSort (ps : List PriorityItem)
    (hidx : ps.Pairwise (fun a b => a.index < b.index)) :
    insertion_sort ps = ps.mergeSort priority_le := by
  refine List.Perm.eq_of_sorted ?_ (insertion_sort_sorted ps)
    (mergeSort_priority_sorted ps hidx)
    ((insertion_sort_perm ps).trans (List.mergeSort_perm ps priority_le).symm)
  intro a b ha hb h1 h2
  have ha2 := (insertion_sort_perm ps).mem_iff.mp ha
  have hb2 := (List.mergeSort_perm ps priority_le).mem_iff.mp hb
  refine eq_of_index_eq ps hidx a b ha2 hb2 ?_
  unfold item_le at h1 h2
  omega

/-- The priority loop of `order_selectors` appends one item per selector, in the order of the
key material: item `k` carries selector `i + k`, index `i + k` and a drawn priority below
7. -/
theorem assign_priorities_items (fuel : Nat) (km : KeyMaterial) :
    ∀ (n i : Nat) (prng : ChaCha20PRNG) (acc out : List PriorityItem),
      assign_priorities fuel km n i prng acc = some out →
        ∃ items : List PriorityItem, out = acc ++ items ∧
          items.map (fun it => (it.selector, it.index)) =
            (List.range n).map (fun k => (km.selectors.getD (i + k) 0, i + k)) ∧
          ∀ it ∈ items, it.priority < 7 := by
  intro n
  induction n with
  | zero =>
    intro i prng acc out h
    simp only [assign_priorities, Option.some.injEq] at h
    exact ⟨[], by rw [← h, List.append_nil], rfl, fun it hit => absurd hit (List.not_mem_nil it)⟩
  | succ n ih =>
    intro i prng acc out h
    unfold assign_priorities at h
    cases hr : prng.next_int fuel 7 with
    | none => rw [hr] at h; exact absurd h (by simp)
    | some r =>
      rw [hr] at h
      simp only at h
      obtain ⟨items, h1, h2, h3⟩ := ih _ _ _ _ h
      have hlt := next_int_lt fuel prng 7 r (by norm_num) hr
      refine ⟨{ selector := km.selectors.getD i 0, priority := r.2, index := i } :: items,
        by rw [h1, List.append_assoc, List.singleton_append], ?_, ?_⟩
      · rw [List.map_cons, h2, List.range_succ_eq_map, List.map_cons, List.map_map]
        refine congrArg₂ _ rfl (List.map_congr_left ?_)
        intro k _
        simp only [Function.comp, Nat.succ_eq_add_one]
        rw [show i + 1 + k = i + (k + 1) by omega]
      · intro it hit
        rcases List.mem_cons.mp hit with hit | hit
        · rw [hit]; exact hlt
        · exact h3 it hit

/-- The structure of `order_selectors`: the items of the priority loop, sorted by the
insertion sort, give the two output arrays. -/
theorem order_selectors_items (fuel : Nat) (km : KeyMaterial) (key iv : List Nat)
    (block_number : Nat) (out : List Nat × List Nat)
    (h : order_selectors fuel km key iv block_number = some out) :
    ∃ ps : List PriorityItem,
      assign_priorities fuel km km.num_selectors 0 (order_prng key iv block_number) [] =
        some ps ∧
      ps.map (fun it => (it.selector, it.index)) =
        (List.range km.num_selectors).map (fun i => (km.selectors.getD i 0, i)) ∧
      (∀ it ∈ ps, it.priority < 7) ∧
      out = ((insertion_sort ps).map (fun it => it.selector),
             (insertion_sort ps).map (fun it => it.index)) := by
  unfold order_selectors at h
  simp only at h
  split at h
  · exact absurd h (by simp)
  · rename_i ps hps
    obtain ⟨items, h1, h2, h3⟩ := assign_priorities_items fuel km _ _ _ _ _ hps
    rw [List.nil_append] at h1
    subst h1
    simp only [Nat.zero_add] at h2
    have hlen : (insertion_sort ps).length = km.num_selectors := by
      rw [(insertion_sort_perm ps).length_eq, ← List.length_map ps, h2, List.length_map,
        List.length_range]
    refine ⟨ps, hps, h2, h3, ?_⟩
    simp only [Option.some.injEq] at h
    rw [← h, ← hlen,
      map_range_getD (default : PriorityItem) (fun it : PriorityItem => it.selector)
        (insertion_sort ps),
      map_range_getD (default : PriorityItem) (fun it : PriorityItem => it.index)
        (insertion_sort ps)]

/-- The indices of the items of the priority loop increase along the list. -/
theorem items_index_increasing (km : KeyMaterial) (n : Nat) (ps : List PriorityItem)
    (h : ps.map (fun it => (it.selector, it.index)) =
      (List.range n).map (fun i => (km.selectors.getD i 0, i))) :
    ps.map (fun it => it.index) = List.range n ∧
      ps.Pairwise (fun a b => a.index < b.index) := by
  have h1 : ps.map (fun it => it.index) = List.range n := by
    have := congrArg (List.map Prod.snd) h
    rw [List.map_map, List.map_map] at this
    rw [show (fun it : PriorityItem => it.index) =
      Prod.snd ∘ (fun it => (it.selector, it.index)) from rfl, this]
    exact List.map_id _
  refine ⟨h1, ?_⟩
  have h2 : (ps.map (fun it => it.index)).Pairwise (fun a b => a < b) := by
    rw [h1]; exact List.pairwise_lt_range n
  exact List.pairwise_map.mp h2

/-- C14: the ordering of the selectors.  The hand-written insertion sort permutes any list of
items and leaves it ascending by priority with ties in ascending index; on items whose
indices increase along the list it returns exactly what a stable sort by priority alone
returns; and what `order_selectors` emits is that sort of the selectors in key material
order, each with its drawn priority and its position as index. -/
theorem order_selectors_stable_sort :
    (∀ ps : List PriorityItem,
        (insertion_sort ps).Perm ps ∧ (insertion_sort ps).Pairwise item_le) ∧
      (∀ ps : List PriorityItem, ps.Pairwise (fun a b => a.index < b.index) →
        insertion_sort ps = ps.mergeSort priority_le) ∧
      (∀ (fuel : Nat) (km : KeyMaterial) (key iv : List Nat) (block_number : Nat)
        (out : List Nat × List Nat),
        order_selectors fuel km key iv block_number = some out →
        ∃ ps : List PriorityItem,
          ps.map (fun it => (it.selector, it.index)) =
            (List.range km.num_selectors).map (fun i => (km.selectors.getD i 0, i)) ∧
          (ps.mergeSort priority_le).Pairwise item_le ∧
          out.1 = (ps.mergeSort priority_le).map (fun it => it.selector) ∧
          out.2 = (ps.mergeSort priority_le).map (fun it => it.index)) := by
  refine ⟨fun ps => ⟨insertion_sort_perm ps, insertion_sort_sorted ps⟩,
    insertion_sort_eq_mergeSort, ?_⟩
  intro fuel km key iv block_number out h
  obtain ⟨ps, _, h2, _, h4⟩ := order_selectors_items fuel km key iv block_number out h
  have hidx := (items_index_increasing km _ ps h2).2
  refine ⟨ps, h2, mergeSort_priority_sorted ps hidx, ?_, ?_⟩
  · rw [h4, insertion_sort_eq_mergeSort ps hidx]
  · rw [h4, insertion_sort_eq_mergeSort ps hidx]

/-- C14 on 16 selectors with the all-zero key and iv and block number 0: `order_selectors`
returns, and its output is the stable sort of the 16 items. -/
theorem order_selectors_stable_sort_witness :
    ∃ (out : List Nat × List Nat) (ps : List PriorityItem),
      order_selectors 1 (count_only 16) zero_key zero_iv 0 = some out ∧
      ps.map (fun it => it.index) = List.range 16 ∧
      out.2 = (ps.mergeSort priority_le).map (fun it => it.index) := by
  obtain ⟨out, hout⟩ := Option.isSome_iff_exists.mp zero_inputs_order
  obtain ⟨ps, h1, _, _, h4⟩ :=
    order_selectors_stable_sort.2.2 1 (count_only 16) zero_key zero_iv 0 out hout
  exact ⟨out, ps, hout, (items_index_increasing (count_only 16) 16 ps h1).1, h4⟩

/-- C29: what `order_selectors` returns is a consistent permutation.  With
`n = num_selectors`, both output arrays have `n` entries, `selector_indices` is a permutation
of `0, ..., n - 1`, `ordered_selectors[p]` is the selector of the key material at index
`selector_indices[p]`, and every `selector_indices[p]` is below `n`. -/
theorem order_selectors_consistent_perm (fuel : Nat) (km : KeyMaterial) (key iv : List Nat)
    (block_number : Nat) (out : List Nat × List Nat)
    (h : order_selectors fuel km key iv block_number = some out) :
    out.1.length = km.num_selectors ∧ out.2.length = km.num_selectors ∧
      out.2.Perm (List.range km.num_selectors) ∧
      (∀ p, p < km.num_selectors →
        out.1.getD p 0 = km.selectors.getD (out.2.getD p 0) 0) ∧
      (∀ p, p < km.num_selectors → out.2.getD p 0 < km.num_selectors) := by
  obtain ⟨ps, _, h2, _, h4⟩ := order_selectors_items fuel km key iv block_number out h
  have hidx := (items_index_increasing km _ ps h2).1
  have hperm := insertion_sort_perm ps
  have hlen : (insertion_sort ps).length = km.num_selectors := by
    rw [hperm.length_eq, ← List.length_map ps, hidx, List.length_range]
  have hp2 : out.2.Perm (List.range km.num_selectors) := by
    rw [h4, ← hidx]
    exact hperm.map _
  have hsel : ∀ it ∈ insertion_sort ps,
      it.selector = km.selectors.getD it.index 0 ∧ it.index < km.num_selectors := by
    intro it hit
    have hmem : (it.selector, it.index) ∈ ps.map (fun it => (it.selector, it.index)) :=
      List.mem_map_of_mem _ (hperm.mem_iff.mp hit)
    rw [h2, List.mem_map] at hmem
    obtain ⟨i, hi, heq⟩ := hmem
    rw [List.mem_range] at hi
    rw [Prod.mk.injEq] at heq
    rw [← heq.1, ← heq.2]
    exact ⟨rfl, hi⟩
  have hget1 : ∀ p, p < km.num_selectors →
      out.1.getD p 0 = ((insertion_sort ps)[p]?.getD default).selector ∧
      out.2.getD p 0 = ((insertion_sort ps)[p]?.getD default).index ∧
      (insertion_sort ps)[p]?.getD default ∈ insertion_sort ps := by
    intro p hp
    have hp2 : p < (insertion_sort ps).length := by omega
    rw [h4]
    simp only
    rw [List.getD_eq_getElem _ _ (by rw [List.length_map]; exact hp2),
      List.getD_eq_getElem _ _ (by rw [List.length_map]; exact hp2), List.getElem_map,
      List.getElem_map, List.getElem?_eq_getElem hp2, Option.getD_some]
    exact ⟨rfl, rfl, List.getElem_mem hp2⟩
  refine ⟨by rw [h4, List.length_map, hlen], by rw [h4, List.length_map, hlen], hp2, ?_, ?_⟩
  · intro p hp
    obtain ⟨a, b, c⟩ := hget1 p hp
    rw [a, b]
    exact (hsel _ c).1
  · intro p hp
    obtain ⟨_, b, c⟩ := hget1 p hp
    rw [b]
    exact (hsel _ c).2

/-- C29 on the key material of the all-zero key, with the all-zero iv and block number 0. -/
theorem order_selectors_consistent_perm_witness :
    ∃ (km : KeyMaterial) (out : List Nat × List Nat),
      ruc_expand_key 1 zero_key = some km ∧
      order_selectors 1 km zero_key zero_iv 0 = some out ∧
      out.2.Perm (List.range 16) ∧
      (∀ p, p < 16 → out.1.getD p 0 = km.selectors.getD (out.2.getD p 0) 0) := by
  obtain ⟨km, hkm⟩ := Option.isSome_iff_exists.mp zero_key_expands
  have hn : km.num_selectors = 16 := (ruc_expand_key_selectors 1 zero_key km hkm).1
  have hsome : (order_selectors 1 km zero_key zero_iv 0).isSome = true := by
    rw [order_selectors_isSome, assign_priorities_isSome 1 km (count_only 16) _ 0 0 _ [] [], hn]
    have h := zero_inputs_order
    rw [order_selectors_isSome] at h
    exact h
  obtain ⟨out, hout⟩ := Option.isSome_iff_exists.mp hsome
  have h := order_selectors_consistent_perm 1 km zero_key zero_iv 0 out hout
  rw [hn] at h
  exact ⟨km, out, hkm, hout, h.2.2.1, h.2.2.2.1⟩

/-! ## ruc_cipher.cpp: the accumulator -/

/-- The eight bytes that `u64_bytes` stores, in arithmetic. -/
theorem u64_bytes_eq (v : Nat) :
    u64_bytes v = [v % 256, v / 2 ^ 8 % 256, v / 2 ^ 16 % 256, v / 2 ^ 24 % 256,
      v / 2 ^ 32 % 256, v / 2 ^ 40 % 256, v / 2 ^ 48 % 256, v / 2 ^ 56 % 256] := by
  unfold u64_bytes
  have hr : List.range 8 = [0, 1, 2, 3, 4, 5, 6, 7] := by decide
  rw [hr]
  simp only [List.map_cons, List.map_nil, and_ff, Nat.shiftRight_eq_div_pow, Nat.reduceMul,
    pow_zero, Nat.div_one]

/-- Placing a byte above a value that fits below it: the OR is a sum. -/
theorem or_shift_eq_add (a b n : Nat) (ha : a < 2 ^ n) : a ||| (b <<< n) = a + 2 ^ n * b := by
  rw [Nat.shiftLeft_eq, Nat.mul_comm b, Nat.lor_comm, Nat.add_comm]
  exact (Nat.mul_add_lt_is_or ha b).symm

/-- The value `bytes_to_u64` reads from eight bytes, in arithmetic. -/
theorem bytes_to_u64_eq (b0 b1 b2 b3 b4 b5 b6 b7 : Nat) (rest : List Nat)
    (h0 : b0 < 256) (h1 : b1 < 256) (h2 : b2 < 256) (h3 : b3 < 256) (h4 : b4 < 256)
    (h5 : b5 < 256) (h6 : b6 < 256) :
    bytes_to_u64 (b0 :: b1 :: b2 :: b3 :: b4 :: b5 :: b6 :: b7 :: rest) =
      b0 + 2 ^ 8 * b1 + 2 ^ 16 * b2 + 2 ^ 24 * b3 + 2 ^ 32 * b4 + 2 ^ 40 * b5 + 2 ^ 48 * b6 +
        2 ^ 56 * b7 := by
  unfold bytes_to_u64
  simp only [List.getD_cons_zero, List.getD_cons_succ]
  rw [or_shift_eq_add b0 b1 8 (by omega),
    or_shift_eq_add _ b2 16 (by omega),
    or_shift_eq_add _ b3 24 (by omega),
    or_shift_eq_add _ b4 32 (by omega),
    or_shift_eq_add _ b5 40 (by omega),
    or_shift_eq_add _ b6 48 (by omega),
    or_shift_eq_add _ b7 56 (by omega)]

/-- Reading back the eight bytes of a value below `2^64` gives the value. -/
theorem bytes_to_u64_u64_bytes (v : Nat) (rest : List Nat) (hv : v < 2 ^ 64) :
    bytes_to_u64 (u64_bytes v ++ rest) = v := by
  rw [u64_bytes_eq]
  simp only [List.cons_append, List.nil_append]
  rw [bytes_to_u64_eq _ _ _ _ _ _ _ _ _ (Nat.mod_lt _ (by norm_num))
    (Nat.mod_lt _ (by norm_num)) (Nat.mod_lt _ (by norm_num)) (Nat.mod_lt _ (by norm_num))
    (Nat.mod_lt _ (by norm_num)) (Nat.mod_lt _ (by norm_num)) (Nat.mod_lt _ (by norm_num))]
  omega

/-- The store of the eight bytes of a value at the start of the accumulator. -/
theorem memcpy_u64_bytes (acc : List Nat) (v : Nat) :
    memcpy acc 0 (u64_bytes v) 8 = u64_bytes v ++ acc.drop 8 := by
  unfold memcpy
  rw [u64_bytes_eq]
  rfl

/-- Reading a list past a dropped prefix. -/
theorem getD_drop (l : List Nat) (n i : Nat) : (l.drop n).getD i 0 = l.getD (n + i) 0 := by
  rw [List.getD_eq_getElem?_getD, List.getD_eq_getElem?_getD, List.getElem?_drop]

/-- The accumulator after a selector step: its first eight bytes hold the previous value plus
the result byte modulo `2^64`, and the other bytes are those it had. -/
theorem selector_step_accumulator (sbox round_key ordered_selectors selector_indices : List Nat)
    (km : KeyMaterial) (state : CipherState) (sel_idx : Nat)
    (hlen : state.accumulator.length = 128) :
    (selector_step sbox round_key ordered_selectors selector_indices km state
        sel_idx).accumulator.length = 128 ∧
      (∀ i, 8 ≤ i →
        (selector_step sbox round_key ordered_selectors selector_indices km state
          sel_idx).accumulator.getD i 0 = state.accumulator.getD i 0) ∧
      bytes_to_u64 (selector_step sbox round_key ordered_selectors selector_indices km state
          sel_idx).accumulator =
        (bytes_to_u64 state.accumulator +
          selector_result sbox round_key ordered_selectors selector_indices km state sel_idx) %
            2 ^ 64 := by
  have hacc : (selector_step sbox round_key ordered_selectors selector_indices km state
      sel_idx).accumulator =
      u64_bytes ((bytes_to_u64 state.accumulator +
        selector_result sbox round_key ordered_selectors selector_indices km state sel_idx) %
          U64) ++ state.accumulator.drop 8 := by
    rw [← memcpy_u64_bytes]
    rfl
  have hu : ∀ v, (u64_bytes v).length = 8 := by
    intro v; rw [u64_bytes_eq]; rfl
  have hU : U64 = 2 ^ 64 := by unfold U64; norm_num
  rw [hacc, hU]
  refine ⟨?_, ?_, ?_⟩
  · rw [List.length_append, hu, List.length_drop, hlen]
  · intro i hi
    rw [List.getD_append_right _ _ _ _ (by rw [hu]; exact hi), hu, getD_drop]
    congr 1
    omega
  · exact bytes_to_u64_u64_bytes _ _ (Nat.mod_lt _ (by norm_num))

/-- One more selector step of a round of `ruc_encrypt_block`. -/
theorem block_state_at_succ (wide : Nat → Nat → Nat) (iv : List Nat) (block_number : Nat)
    (km : KeyMaterial) (ordered : List Nat × List Nat) (r s : Nat) :
    block_state_at wide iv block_number km ordered r (s + 1) =
      selector_step (km.sboxes.getD r []) (km.round_keys.getD r []) ordered.1 ordered.2 km
        (block_state_at wide iv block_number km ordered r s) s := by
  unfold block_state_at
  simp only
  rw [List.range_succ, List.foldl_append]
  rfl

/-- The state that enters round `r + 1` is the state after all selector steps of round `r`
with its registers mixed; the accumulator is the same. -/
theorem block_state_at_round (wide : Nat → Nat → Nat) (iv : List Nat) (block_number : Nat)
    (km : KeyMaterial) (ordered : List Nat × List Nat) (r : Nat) :
    block_state_at wide iv block_number km ordered (r + 1) 0 =
      { block_state_at wide iv block_number km ordered r km.num_selectors with
        registers := (List.range REGISTER_COUNT).foldl mix_step
          (block_state_at wide iv block_number km ordered r km.num_selectors).registers } := by
  unfold block_state_at
  simp only [List.range_zero, List.foldl_nil]
  rw [List.range_succ, List.foldl_append]
  rfl

/-- The function `ruc_encrypt_block` in terms of the state after its 24 rounds. -/
theorem ruc_encrypt_block_state (fuel : Nat) (wide : Nat → Nat → Nat)
    (plaintext key iv : List Nat) (block_number : Nat) (km : KeyMaterial) :
    ruc_encrypt_block fuel wide plaintext key iv block_number km =
      (order_selectors fuel km key iv block_number).map (fun ordered =>
        xor_block plaintext
          (generate_keystream (block_state_at wide iv block_number km ordered 24 0)
            block_number)) := by
  rw [ruc_encrypt_block_eq]
  unfold block_keystream block_state_at block_init_state
  simp only [ROUNDS, List.range_zero, List.foldl_nil]
  cases order_selectors fuel km key iv block_number with
  | none => rfl
  | some ordered => rfl

/-- The accumulator keeps its 128 bytes, and its bytes 8 to 127 stay zero, at every point of
the rounds of `ruc_encrypt_block`. -/
theorem block_accumulator_tail (wide : Nat → Nat → Nat) (iv : List Nat) (block_number : Nat)
    (km : KeyMaterial) (ordered : List Nat × List Nat) :
    ∀ r s, (block_state_at wide iv block_number km ordered r s).accumulator.length = 128 ∧
      ∀ i, 8 ≤ i →
        (block_state_at wide iv block_number km ordered r s).accumulator.getD i 0 = 0 := by
  have hstep : ∀ r s,
      ((block_state_at wide iv block_number km ordered r s).accumulator.length = 128 ∧
        ∀ i, 8 ≤ i →
          (block_state_at wide iv block_number km ordered r s).accumulator.getD i 0 = 0) →
      ((block_state_at wide iv block_number km ordered r (s + 1)).accumulator.length = 128 ∧
        ∀ i, 8 ≤ i →
          (block_state_at wide iv block_number km ordered r (s + 1)).accumulator.getD i 0 =
            0) := by
    intro r s h
    rw [block_state_at_succ]
    obtain ⟨h1, h2, _⟩ := selector_step_accumulator (km.sboxes.getD r [])
      (km.round_keys.getD r []) ordered.1 ordered.2 km
      (block_state_at wide iv block_number km ordered r s) s h.1
    exact ⟨h1, fun i hi => by rw [h2 i hi]; exact h.2 i hi⟩
  intro r
  induction r with
  | zero =>
    intro s
    induction s with
    | zero =>
      refine ⟨rfl, ?_⟩
      intro i _
      show (List.replicate 128 0).getD i 0 = 0
      rw [List.getD_eq_getElem?_getD, List.getElem?_replicate]
      split <;> rfl
    | succ s ih => exact hstep 0 s ih
  | succ r ih =>
    intro s
    induction s with
    | zero =>
      rw [block_state_at_round]
      exact ih km.num_selectors
    | succ s ih2 => exact hstep (r + 1) s ih2

/-- C22: the accumulator discipline of `ruc_encrypt_block`.  The keystream is hashed from the
state after 24 rounds; the accumulator starts as 128 zero bytes; at every point of the rounds
(after `r` rounds and `s` selector steps) it has 128 bytes of which bytes 8 to 127 are zero;
each selector step leaves in the first eight bytes, read as a little-endian `uint64_t`, the
previous value plus the result byte of the step modulo `2^64`; and neither the mixing pass at
the end of a round nor the ciphertext feedback changes it. -/
theorem accumulator_discipline (fuel : Nat) (wide : Nat → Nat → Nat)
    (plaintext key iv : List Nat) (block_number : Nat) (km : KeyMaterial) :
    ruc_encrypt_block fuel wide plaintext key iv block_number km =
        (order_selectors fuel km key iv block_number).map (fun ordered =>
          xor_block plaintext
            (generate_keystream (block_state_at wide iv block_number km ordered 24 0)
              block_number)) ∧
      ∀ ordered : List Nat × List Nat,
        (block_state_at wide iv block_number km ordered 0 0).accumulator =
            List.replicate 128 0 ∧
          (∀ r s,
            (block_state_at wide iv block_number km ordered r s).accumulator.length = 128 ∧
              ∀ i, 8 ≤ i →
                (block_state_at wide iv block_number km ordered r s).accumulator.getD i 0 =
                  0) ∧
          (∀ r s,
            bytes_to_u64 (block_state_at wide iv block_number km ordered r (s + 1)).accumulator =
              (bytes_to_u64 (block_state_at wide iv block_number km ordered r s).accumulator +
                block_result wide iv block_number km ordered r s) % 2 ^ 64) ∧
          (∀ r,
            (block_state_at wide iv block_number km ordered (r + 1) 0).accumulator =
              (block_state_at wide iv block_number km ordered r km.num_selectors).accumulator) ∧
          (∀ (state : CipherState) (ciphertext : List Nat),
            (apply_ciphertext_feedback state ciphertext).accumulator = state.accumulator) := by
  refine ⟨ruc_encrypt_block_state fuel wide plaintext key iv block_number km, ?_⟩
  intro ordered
  refine ⟨rfl, block_accumulator_tail wide iv block_number km ordered, ?_, ?_,
    fun _ _ => rfl⟩
  · intro r s
    rw [block_state_at_succ]
    exact (selector_step_accumulator (km.sboxes.getD r []) (km.round_keys.getD r [])
      ordered.1 ordered.2 km (block_state_at wide iv block_number km ordered r s) s
      (block_accumulator_tail wide iv block_number km ordered r s).1).2.2
  · intro r
    rw [block_state_at_round]

/-- The accumulator after a selector step, written out. -/
theorem selector_step_accumulator_eq (sbox round_key ordered_selectors selector_indices : List Nat)
    (km : KeyMaterial) (state : CipherState) (sel_idx : Nat) :
    (selector_step sbox round_key ordered_selectors selector_indices km state
        sel_idx).accumulator =
      u64_bytes ((bytes_to_u64 state.accumulator +
        selector_result sbox round_key ordered_selectors selector_indices km state sel_idx) %
          2 ^ 64) ++ state.accumulator.drop 8 := by
  have hU : U64 = 2 ^ 64 := by unfold U64; norm_num
  rw [← memcpy_u64_bytes, ← hU]
  rfl

/-- A result byte is an S-box entry, so it is below 256 when the S-boxes hold bytes. -/
theorem block_result_lt (wide : Nat → Nat → Nat) (iv : List Nat) (block_number : Nat)
    (km : KeyMaterial) (ordered : List Nat × List Nat) (r s : Nat)
    (hsbox : ∀ sbox ∈ km.sboxes, ∀ x ∈ sbox, x < 256) :
    block_result wide iv block_number km ordered r s < 256 := by
  unfold block_result selector_result
  simp only
  generalize gf_mul _ _ ^^^ _ = g
  by_cases hr : r < km.sboxes.length
  · rw [List.getD_eq_getElem km.sboxes [] hr]
    rcases getD_zero_or_mem km.sboxes[r] g with h | h
    · rw [h]; norm_num
    · exact hsbox _ (List.getElem_mem hr) _ h
  · rw [List.getD_eq_default km.sboxes [] (by omega)]
    simp

/-- The sum of the result bytes grows by the result byte of each step. -/
theorem block_result_sum_succ (wide : Nat → Nat → Nat) (iv : List Nat) (block_number : Nat)
    (km : KeyMaterial) (ordered : List Nat × List Nat) (r s : Nat) :
    block_result_sum wide iv block_number km ordered r (s + 1) =
      block_result_sum wide iv block_number km ordered r s +
        block_result wide iv block_number km ordered r s := by
  unfold block_result_sum
  rw [List.range_succ, List.map_append, List.sum_append, List.map_cons, List.map_nil,
    List.sum_cons, List.sum_nil, Nat.add_zero, Nat.add_assoc]

/-- The sum of the result bytes at the start of a round is the sum at the end of the round
before. -/
theorem block_result_sum_round (wide : Nat → Nat → Nat) (iv : List Nat) (block_number : Nat)
    (km : KeyMaterial) (ordered : List Nat × List Nat) (r : Nat) :
    block_result_sum wide iv block_number km ordered (r + 1) 0 =
      block_result_sum wide iv block_number km ordered r km.num_selectors := by
  unfold block_result_sum
  rw [List.range_succ, List.map_append, List.sum_append, List.map_cons, List.map_nil,
    List.sum_cons, List.sum_nil, Nat.add_zero, List.range_zero, List.map_nil, List.sum_nil,
    Nat.add_zero]

/-- At every point of the first 24 rounds the first eight accumulator bytes hold the exact
sum of the result bytes so far, which is at most 255 times the number of steps done. -/
theorem block_accumulator_sum (wide : Nat → Nat → Nat) (iv : List Nat) (block_number : Nat)
    (km : KeyMaterial) (ordered : List Nat × List Nat)
    (hsbox : ∀ sbox ∈ km.sboxes, ∀ x ∈ sbox, x < 256) :
    ∀ r s, r * km.num_selectors + s ≤ 24 * 31 →
      (block_state_at wide iv block_number km ordered r s).accumulator.take 8 =
          u64_bytes (block_result_sum wide iv block_number km ordered r s) ∧
        block_result_sum wide iv block_number km ordered r s ≤
          (r * km.num_selectors + s) * 255 := by
  have hstep : ∀ r s, r * km.num_selectors + (s + 1) ≤ 24 * 31 →
      ((block_state_at wide iv block_number km ordered r s).accumulator.take 8 =
          u64_bytes (block_result_sum wide iv block_number km ordered r s) ∧
        block_result_sum wide iv block_number km ordered r s ≤
          (r * km.num_selectors + s) * 255) →
      ((block_state_at wide iv block_number km ordered r (s + 1)).accumulator.take 8 =
          u64_bytes (block_result_sum wide iv block_number km ordered r (s + 1)) ∧
        block_result_sum wide iv block_number km ordered r (s + 1) ≤
          (r * km.num_selectors + (s + 1)) * 255) := by
    intro r s hrs h
    have hlt := block_result_lt wide iv block_number km ordered r s hsbox
    have hlen := (block_accumulator_tail wide iv block_number km ordered r s).1
    have hval : bytes_to_u64 (block_state_at wide iv block_number km ordered r s).accumulator =
        block_result_sum wide iv block_number km ordered r s := by
      rw [← List.take_append_drop 8 (block_state_at wide iv block_number km ordered r s).accumulator,
        h.1]
      refine bytes_to_u64_u64_bytes _ _ ?_
      have := h.2
      generalize r * km.num_selectors = X at hrs this
      omega
    have hu : ∀ v, (u64_bytes v).length = 8 := by
      intro v; rw [u64_bytes_eq]; rfl
    rw [block_state_at_succ, selector_step_accumulator_eq, List.take_left' (hu _), hval,
      block_result_sum_succ]
    have hb := h.2
    unfold block_result at hlt ⊢
    generalize selector_result _ _ _ _ _ _ _ = res at hlt ⊢
    generalize block_result_sum wide iv block_number km ordered r s = total at hb ⊢
    generalize r * km.num_selectors = X at hrs hb ⊢
    have hmod : (total + res) % 2 ^ 64 = total + res := Nat.mod_eq_of_lt (by omega)
    rw [hmod]
    exact ⟨rfl, by omega⟩
  intro r
  induction r with
  | zero =>
    intro s
    induction s with
    | zero =>
      intro _
      have h0 : block_result_sum wide iv block_number km ordered 0 0 = 0 := by
        unfold block_result_sum; simp
      rw [h0, u64_bytes_eq]
      exact ⟨rfl, Nat.zero_le _⟩
    | succ s ih => intro h; exact hstep 0 s h (ih (by omega))
  | succ r ih =>
    intro s
    induction s with
    | zero =>
      intro h
      rw [block_state_at_round, block_result_sum_round]
      have h2 : r * km.num_selectors + km.num_selectors ≤ 24 * 31 := by
        rw [Nat.add_mul, Nat.one_mul] at h; omega
      have h3 := ih km.num_selectors h2
      refine ⟨h3.1, ?_⟩
      rw [Nat.add_mul r 1, Nat.one_mul, Nat.add_zero]
      exact h3.2
    | succ s ih2 => intro h; exact hstep (r + 1) s h (ih2 (by omega))

/-- The S-boxes that `ruc_expand_key` generates hold bytes. -/
theorem expand_key_sboxes_bytes (fuel : Nat) (key : List Nat) (km : KeyMaterial)
    (h : ruc_expand_key fuel key = some km) : ∀ sbox ∈ km.sboxes, ∀ x ∈ sbox, x < 256 := by
  unfold ruc_expand_key at h
  simp only at h
  split at h
  · exact absurd h (by simp)
  · simp only [Option.some.injEq] at h
    subst h
    intro sbox hs x hx
    simp only [List.mem_map] at hs
    obtain ⟨r, _, hr⟩ := hs
    rw [← hr] at hx
    unfold generate_sbox at hx
    have hp := sbox_shuffle_perm
      (shake256_hash (memcpy (memcpy (memcpy (List.replicate (KEY_SIZE + 8 + 2) 0) 0 key
        KEY_SIZE) KEY_SIZE RUC_SBOX_TAG 8) (KEY_SIZE + 8) [(r >>> 8) % 256, (r &&& 0xFF) % 256]
        2) 512) (List.range 256) (List.length_range 256)
    exact List.mem_range.mp (hp.mem_iff.mp hx)

/-- C28: the accumulator never wraps.  For a key material with at most 31 selectors whose
S-boxes hold bytes, the `uint64_t` accumulator of the state that `ruc_encrypt_block` hashes
into the keystream equals the exact sum of all result bytes, which is at most
`24 * num_selectors * 255 <= 189720 < 2^18`; so bytes 3 to 127 of the 128 accumulator bytes
are zero. -/
theorem accumulator_never_wraps (fuel : Nat) (wide : Nat → Nat → Nat)
    (plaintext key iv : List Nat) (block_number : Nat) (km : KeyMaterial)
    (hn : km.num_selectors ≤ 31) (hsbox : ∀ sbox ∈ km.sboxes, ∀ x ∈ sbox, x < 256) :
    ruc_encrypt_block fuel wide plaintext key iv block_number km =
        (order_selectors fuel km key iv block_number).map (fun ordered =>
          xor_block plaintext
            (generate_keystream (block_state_at wide iv block_number km ordered 24 0)
              block_number)) ∧
      ∀ ordered : List Nat × List Nat,
        bytes_to_u64 (block_state_at wide iv block_number km ordered 24 0).accumulator =
            block_result_sum wide iv block_number km ordered 24 0 ∧
          block_result_sum wide iv block_number km ordered 24 0 ≤
            24 * km.num_selectors * 255 ∧
          24 * km.num_selectors * 255 ≤ 189720 ∧ 189720 < 2 ^ 18 ∧
          (block_state_at wide iv block_number km ordered 24 0).accumulator.length = 128 ∧
          ∀ i, 3 ≤ i →
            (block_state_at wide iv block_number km ordered 24 0).accumulator.getD i 0 = 0 := by
  refine ⟨ruc_encrypt_block_state fuel wide plaintext key iv block_number km, ?_⟩
  intro ordered
  obtain ⟨h1, h2⟩ := block_accumulator_sum wide iv block_number km ordered hsbox 24 0
    (by omega)
  obtain ⟨h3, h4⟩ := block_accumulator_tail wide iv block_number km ordered 24 0
  rw [Nat.add_zero] at h2
  have hlt : block_result_sum wide iv block_number km ordered 24 0 < 2 ^ 24 := by omega
  refine ⟨?_, h2, by omega, by norm_num, h3, ?_⟩
  · rw [← List.take_append_drop 8
      (block_state_at wide iv block_number km ordered 24 0).accumulator, h1]
    exact bytes_to_u64_u64_bytes _ _ (by omega)
  · intro i hi
    by_cases h8 : 8 ≤ i
    · exact h4 i h8
    · have ht : (block_state_at wide iv block_number km ordered 24 0).accumulator.getD i 0 =
          ((block_state_at wide iv block_number km ordered 24 0).accumulator.take 8).getD i 0 := by
        rw [List.getD_eq_getElem?_getD, List.getD_eq_getElem?_getD, List.getElem?_take,
          if_pos (by omega)]
      rw [ht, h1, u64_bytes_eq]
      generalize block_result_sum wide iv block_number km ordered 24 0 = total at hlt
      have hi2 : i = 3 ∨ i = 4 ∨ i = 5 ∨ i = 6 ∨ i = 7 := by omega
      rcases hi2 with h | h | h | h | h <;> subst h <;>
        simp only [List.getD_cons_zero, List.getD_cons_succ] <;> omega

/-- C28 on the key material of the all-zero key, with the all-zero iv and block number 0. -/
theorem accumulator_never_wraps_witness :
    ∃ km, ruc_expand_key 1 zero_key = some km ∧ km.num_selectors ≤ 31 ∧
      ∀ ordered : List Nat × List Nat,
        bytes_to_u64 (block_state_at wide_zero zero_iv 0 km ordered 24 0).accumulator ≤
            189720 ∧
          ∀ i, 3 ≤ i →
            (block_state_at wide_zero zero_iv 0 km ordered 24 0).accumulator.getD i 0 = 0 := by
  obtain ⟨km, hkm⟩ := Option.isSome_iff_exists.mp zero_key_expands
  have hn : km.num_selectors = 16 := (ruc_expand_key_selectors 1 zero_key km hkm).1
  have h := (accumulator_never_wraps 1 wide_zero zero_block zero_key zero_iv 0 km (by omega)
    (expand_key_sboxes_bytes 1 zero_key km hkm)).2
  refine ⟨km, hkm, by omega, ?_⟩
  intro ordered
  obtain ⟨h1, h2, h3, _, _, h6⟩ := h ordered
  exact ⟨by omega, h6⟩

/-! ## chacha20.cpp: the block function and the byte stream -/

/-- A list of 16 entries, written out. -/
theorem list16_eq (l : List Nat) (h : l.length = 16) :
    l = [l.getD 0 0, l.getD 1 0, l.getD 2 0, l.getD 3 0, l.getD 4 0, l.getD 5 0, l.getD 6 0,
      l.getD 7 0, l.getD 8 0, l.getD 9 0, l.getD 10 0, l.getD 11 0, l.getD 12 0, l.getD 13 0,
      l.getD 14 0, l.getD 15 0] := by
  have h1 := map_range_getD 0 (fun x : Nat => x) l
  rw [h, List.map_id'] at h1
  rw [← h1]
  rfl

/-- One pass of the loop of `chacha_block` on 16 words is the `inner_block` of RFC 8439. -/
theorem double_round_eq_words (x0 x1 x2 x3 x4 x5 x6 x7 x8 x9 x10 x11 x12 x13 x14 x15 : Nat) :
    double_round [x0, x1, x2, x3, x4, x5, x6, x7, x8, x9, x10, x11, x12, x13, x14, x15] =
      rfc8439_inner_block
        [x0, x1, x2, x3, x4, x5, x6, x7, x8, x9, x10, x11, x12, x13, x14, x15] := by
  simp only [double_round, quarter_round, rfc8439_inner_block, rfc8439_quarter_round,
    List.getD_cons_zero, List.getD_cons_succ, List.set_cons_zero, List.set_cons_succ]

/-- One pass of the loop of `chacha_block` on a state of 16 words is the `inner_block` of
RFC 8439, and leaves 16 words. -/
theorem double_round_eq (l : List Nat) (h : l.length = 16) :
    double_round l = rfc8439_inner_block l ∧ (rfc8439_inner_block l).length = 16 := by
  rw [list16_eq l h]
  refine ⟨double_round_eq_words _ _ _ _ _ _ _ _ _ _ _ _ _ _ _ _, ?_⟩
  simp only [rfc8439_inner_block, rfc8439_quarter_round, List.length_cons, List.length_nil]

/-- The loop "20 rounds (10 double rounds)" of `chacha_block` applies `inner_block` once per
pass. -/
theorem double_round_loop (l : List Nat) (h : l.length = 16) :
    ∀ n, (List.range n).foldl (fun w _ => double_round w) l = rfc8439_inner_block^[n] l ∧
      (rfc8439_inner_block^[n] l).length = 16 := by
  intro n
  induction n with
  | zero => exact ⟨rfl, h⟩
  | succ n ih =>
    rw [List.range_succ, List.foldl_append, ih.1, Function.iterate_succ_apply']
    simp only [List.foldl_cons, List.foldl_nil]
    exact double_round_eq _ ih.2

/-- The addition of the original state, word by word. -/
theorem add_state_eq (w st : List Nat) (hw : w.length = 16) (hst : st.length = 16) :
    (List.range 16).map (fun i => (w.getD i 0 + st.getD i 0) % U32) =
      List.zipWith (fun w s => (w + s) % U32) w st := by
  have hr : List.range 16 = [0, 1, 2, 3, 4, 5, 6, 7, 8, 9, 10, 11, 12, 13, 14, 15] := by decide
  rw [hr]
  conv_rhs => rw [list16_eq w hw, list16_eq st hst]
  rfl

/-- The function `chacha_block` is the ChaCha20 block function of RFC 8439. -/
theorem chacha_block_eq_rfc8439 (key nonce : List Nat) (counter : Nat) :
    chacha_block key nonce counter = rfc8439_block key nonce counter := by
  have hr8 : List.range 8 = [0, 1, 2, 3, 4, 5, 6, 7] := by decide
  have hr3 : List.range 3 = [0, 1, 2] := by decide
  unfold chacha_block rfc8439_block
  simp only [CHACHA_CONSTANTS, hr8, hr3, List.map_cons, List.map_nil, List.cons_append,
    List.nil_append]
  have hl := double_round_loop
    [0x61707865, 0x3320646e, 0x79622d32, 0x6b206574, le_word key 0, le_word key 1,
      le_word key 2, le_word key 3, le_word key 4, le_word key 5, le_word key 6, le_word key 7,
      counter, le_word nonce 0, le_word nonce 1, le_word nonce 2] rfl 10
  rw [hl.1, add_state_eq _
    [0x61707865, 0x3320646e, 0x79622d32, 0x6b206574, le_word key 0, le_word key 1,
      le_word key 2, le_word key 3, le_word key 4, le_word key 5, le_word key 6, le_word key 7,
      counter, le_word nonce 0, le_word nonce 1, le_word nonce 2] hl.2 rfl]

/-- A block of `chacha_block` has 64 bytes. -/
theorem chacha_block_length (key nonce : List Nat) (counter : Nat) :
    (chacha_block key nonce counter).length = 64 := by
  unfold chacha_block
  simp only
  have hr : List.range 16 = [0, 1, 2, 3, 4, 5, 6, 7, 8, 9, 10, 11, 12, 13, 14, 15] := by decide
  rw [hr]
  rfl

/-- The block function of RFC 8439 gives the block of the test vector of its section 2.3.2
(key `00 .. 1f`, nonce `00 00 00 09 00 00 00 4a 00 00 00 00`, block counter 1). -/
theorem rfc8439_block_test_vector :
    rfc8439_block rfc8439_test_key rfc8439_test_nonce 1 =
      [0x10, 0xf1, 0xe7, 0xe4, 0xd1, 0x3b, 0x59, 0x15, 0x50, 0x0f, 0xdd, 0x1f, 0xa3, 0x20,
       0x71, 0xc4, 0xc7, 0xd1, 0xf4, 0xc7, 0x33, 0xc0, 0x68, 0x03, 0x04, 0x22, 0xaa, 0x9a,
       0xc3, 0xd4, 0x6c, 0x4e, 0xd2, 0x82, 0x64, 0x46, 0x07, 0x9f, 0xaa, 0x09, 0x14, 0xc2,
       0xd7, 0x05, 0xd9, 0x8b, 0x02, 0xa2, 0xb5, 0x12, 0x9c, 0xd1, 0xde, 0x16, 0x4e, 0xb9,
       0xcb, 0xd0, 0x83, 0xe8, 0xa2, 0x50, 0x3c, 0x4e] := by
  decide!

/-- A slice of a list, read position by position. -/
theorem drop_take_eq_map (l : List Nat) (a : Nat) :
    ∀ t, a + t ≤ l.length →
      (l.drop a).take t = (List.range t).map (fun i => l.getD (a + i) 0) := by
  intro t
  induction t with
  | zero => intro _; rfl
  | succ t ih =>
    intro h
    have hlt : t < (l.drop a).length := by rw [List.length_drop]; omega
    rw [List.take_succ, ih (by omega), List.range_succ, List.map_append,
      List.getElem?_eq_getElem hlt, List.getElem_drop]
    simp only [List.map_cons, List.map_nil, Option.toList]
    rw [List.getD_eq_getElem l 0 (by omega : a + t < l.length)]

/-- The refill at the head of the loop of `next_bytes`: afterwards the buffer is the block of
the stream that holds byte `pos`, read up to that byte. -/
theorem refill_spec (key nonce : List Nat) (p : ChaCha20PRNG) (pos : Nat)
    (h : prng_at key nonce p pos) :
    (if p.buffer_pos ≥ 64 then p.generate_block else p).key = key ∧
      (if p.buffer_pos ≥ 64 then p.generate_block else p).nonce = nonce ∧
      (if p.buffer_pos ≥ 64 then p.generate_block else p).buffer_pos = pos % 64 ∧
      (if p.buffer_pos ≥ 64 then p.generate_block else p).buffer =
        chacha_block key nonce ((pos / 64) % U32) ∧
      (if p.buffer_pos ≥ 64 then p.generate_block else p).counter = (pos / 64 + 1) % U32 := by
  obtain ⟨hk, hn, hb, q, hc, hq, hbuf⟩ := h
  by_cases hge : p.buffer_pos ≥ 64
  · rw [if_pos hge]
    have hpos : pos = 64 * q := by omega
    have hdiv : pos / 64 = q := by omega
    refine ⟨hk, hn, ?_, ?_, ?_⟩
    · show 0 = pos % 64
      omega
    · show chacha_block p.key p.nonce p.counter = _
      rw [hk, hn, hc, hdiv]
    · show (p.counter + 1) % U32 = _
      rw [hc, hdiv, Nat.add_mod, Nat.mod_mod, ← Nat.add_mod]
  · rw [if_neg hge]
    have hlt : p.buffer_pos < 64 := by omega
    have hdiv : pos / 64 = q - 1 := by omega
    have hq1 : q - 1 + 1 = q := by omega
    refine ⟨hk, hn, by omega, ?_, ?_⟩
    · rw [hbuf hlt, hdiv]
    · rw [hc, hdiv, hq1]

/-- The loop of `next_bytes`: from a generator that has emitted `pos` bytes of the stream it
appends the next `count - written` bytes of the stream and leaves a generator that has
emitted those too. -/
theorem next_bytes_loop_stream (key nonce : List Nat) :
    ∀ (steps : Nat) (p : ChaCha20PRNG) (count written : Nat) (output : List Nat) (pos : Nat),
      prng_at key nonce p pos → written ≤ count → count - written ≤ steps →
        (ChaCha20PRNG.next_bytes_loop steps p count written output).2 =
            output ++ (List.range (count - written)).map
              (fun i => prng_stream_byte key nonce (pos + i)) ∧
          prng_at key nonce (ChaCha20PRNG.next_bytes_loop steps p count written output).1
            (pos + (count - written)) := by
  intro steps
  induction steps with
  | zero =>
    intro p count written output pos h hw hs
    have h0 : count - written = 0 := by omega
    rw [h0]
    exact ⟨by simp [ChaCha20PRNG.next_bytes_loop], h⟩
  | succ steps ih =>
    intro p count written output pos h hw hs
    rw [ChaCha20PRNG.next_bytes_loop]
    by_cases hlt : written < count
    · rw [if_pos hlt]
      obtain ⟨h1, h2, h3, h4, h5⟩ := refill_spec key nonce p pos h
      simp only
      generalize (if p.buffer_pos ≥ 64 then p.generate_block else p) = p1 at h1 h2 h3 h4 h5 ⊢
      have hbp : p1.buffer_pos < 64 := by rw [h3]; exact Nat.mod_lt _ (by norm_num)
      generalize ht : (if count - written < 64 - p1.buffer_pos then count - written
        else 64 - p1.buffer_pos) = t
      have ht1 : 1 ≤ t ∧ t ≤ 64 - p1.buffer_pos ∧ t ≤ count - written := by
        rw [← ht]; split <;> omega
      have hchunk : (p1.buffer.drop p1.buffer_pos).take t =
          (List.range t).map (fun i => prng_stream_byte key nonce (pos + i)) := by
        rw [drop_take_eq_map _ _ _ (by rw [h4, chacha_block_length]; omega)]
        apply List.map_congr_left
        intro i hi
        rw [List.mem_range] at hi
        unfold prng_stream_byte
        have e1 : (pos + i) / 64 = pos / 64 := by omega
        have e2 : (pos + i) % 64 = p1.buffer_pos + i := by omega
        rw [h4, e1, e2]
      have hat : prng_at key nonce { p1 with buffer_pos := p1.buffer_pos + t } (pos + t) := by
        refine ⟨h1, h2, by simp only; omega, pos / 64 + 1, h5, by simp only; omega, ?_⟩
        intro _
        rw [Nat.add_sub_cancel]
        exact h4
      obtain ⟨r1, r2⟩ := ih { p1 with buffer_pos := p1.buffer_pos + t } count (written + t)
        (output ++ (p1.buffer.drop p1.buffer_pos).take t) (pos + t) hat (by omega) (by omega)
      constructor
      · rw [r1, hchunk, List.append_assoc]
        refine (List.append_right_inj _).mpr ?_
        have hsplit : count - written = t + (count - (written + t)) := by omega
        rw [hsplit, List.range_add, List.map_append, List.map_map]
        refine (List.append_right_inj _).mpr ?_
        apply List.map_congr_left
        intro i _
        simp only [Function.comp, Nat.add_assoc]
      · have hpos : pos + t + (count - (written + t)) = pos + (count - written) := by omega
        rw [← hpos]
        exact r2
    · rw [if_neg hlt]
      have h0 : count - written = 0 := by omega
      rw [h0]
      exact ⟨by simp, h⟩

/-- The method `next_bytes` on a generator that has emitted `pos` bytes of the stream returns
the next `count` bytes of the stream. -/
theorem next_bytes_stream (key nonce : List Nat) (p : ChaCha20PRNG) (pos count : Nat)
    (h : prng_at key nonce p pos) :
    (p.next_bytes count).2 =
        (List.range count).map (fun i => prng_stream_byte key nonce (pos + i)) ∧
      prng_at key nonce (p.next_bytes count).1 (pos + count) := by
  have h1 := next_bytes_loop_stream key nonce count p count 0 [] pos h (Nat.zero_le _)
    (by omega)
  rw [Nat.sub_zero, List.nil_append] at h1
  exact h1

/-- A freshly constructed generator has emitted nothing. -/
theorem init_prng_at (seed : List Nat) (seed_nonce : Option (List Nat)) :
    prng_at (ChaCha20PRNG.init seed seed_nonce).key (ChaCha20PRNG.init seed seed_nonce).nonce
      (ChaCha20PRNG.init seed seed_nonce) 0 :=
  ⟨rfl, rfl, Nat.le_refl 64, 0, rfl, rfl, fun h => absurd h (Nat.lt_irrefl 64)⟩

/-- The first `64 * m` bytes of the stream of a generator are the first `m` blocks of
RFC 8439, for the counters `0, ..., m - 1`. -/
theorem stream_bytes_eq (key nonce : List Nat) :
    ∀ m, m ≤ 2 ^ 32 →
      (List.range (64 * m)).map (fun i => prng_stream_byte key nonce i) =
        rfc8439_stream key nonce m := by
  intro m
  induction m with
  | zero => intro _; rfl
  | succ m ih =>
    intro hm
    have hblock : (List.range 64).map (fun i => prng_stream_byte key nonce (64 * m + i)) =
        rfc8439_block key nonce m := by
      have h1 := map_range_getD 0 (fun x : Nat => x) (chacha_block key nonce m)
      rw [chacha_block_length, List.map_id'] at h1
      rw [← chacha_block_eq_rfc8439]
      conv_rhs => rw [← h1]
      apply List.map_congr_left
      intro i hi
      rw [List.mem_range] at hi
      unfold prng_stream_byte
      have e1 : (64 * m + i) / 64 = m := by omega
      have e2 : (64 * m + i) % 64 = i := by omega
      have e3 : m % U32 = m := Nat.mod_eq_of_lt (by unfold U32; norm_num at hm; omega)
      rw [e1, e2, e3]
    unfold rfc8439_stream at ih ⊢
    conv_rhs => rw [List.range_succ, List.flatMap_append, List.flatMap_singleton]
    rw [Nat.mul_add, Nat.mul_one, List.range_add, List.map_append, ih (by omega),
      List.map_map]
    refine (List.append_right_inj _).mpr ?_
    rw [← hblock]
    rfl

/-- C15: the byte stream of `ChaCha20PRNG`.  For a 32-byte seed, the first `n` bytes that a
freshly constructed generator emits through `next_bytes` are the first `n` bytes of the
blocks of the block function of RFC 8439 for the counters 0, 1, ..., with the seed as key and
the given 12-byte nonce, or twelve zero bytes when none is given; a second call continues the
stream where the first one ended; `chacha_block` is that block function; and the block
function gives the block of the test vector of RFC 8439, section 2.3.2. -/
theorem chacha20_prng_stream (seed : List Nat) (n m : Nat) (hseed : seed.length = 32)
    (hn : n ≤ 64 * m) (hm : m ≤ 2 ^ 32) :
    ((ChaCha20PRNG.init seed none).next_bytes n).2 =
        (rfc8439_stream seed (List.replicate 12 0) m).take n ∧
      (∀ nonce : List Nat, nonce.length = 12 →
        ((ChaCha20PRNG.init seed (some nonce)).next_bytes n).2 =
          (rfc8439_stream seed nonce m).take n) ∧
      (∀ (seed_nonce : Option (List Nat)) (a b : Nat), a + b = n →
        ((ChaCha20PRNG.init seed seed_nonce).next_bytes a).2 ++
            (((ChaCha20PRNG.init seed seed_nonce).next_bytes a).1.next_bytes b).2 =
          ((ChaCha20PRNG.init seed seed_nonce).next_bytes n).2) ∧
      (∀ (key nonce : List Nat) (counter : Nat),
        chacha_block key nonce counter = rfc8439_block key nonce counter) ∧
      rfc8439_block rfc8439_test_key rfc8439_test_nonce 1 =
        [0x10, 0xf1, 0xe7, 0xe4, 0xd1, 0x3b, 0x59, 0x15, 0x50, 0x0f, 0xdd, 0x1f, 0xa3, 0x20,
         0x71, 0xc4, 0xc7, 0xd1, 0xf4, 0xc7, 0x33, 0xc0, 0x68, 0x03, 0x04, 0x22, 0xaa, 0x9a,
         0xc3, 0xd4, 0x6c, 0x4e, 0xd2, 0x82, 0x64, 0x46, 0x07, 0x9f, 0xaa, 0x09, 0x14, 0xc2,
         0xd7, 0x05, 0xd9, 0x8b, 0x02, 0xa2, 0xb5, 0x12, 0x9c, 0xd1, 0xde, 0x16, 0x4e, 0xb9,
         0xcb, 0xd0, 0x83, 0xe8, 0xa2, 0x50, 0x3c, 0x4e] := by
  have hfirst : ∀ seed_nonce : Option (List Nat),
      ((ChaCha20PRNG.init seed seed_nonce).next_bytes n).2 =
        (rfc8439_stream (ChaCha20PRNG.init seed seed_nonce).key
          (ChaCha20PRNG.init seed seed_nonce).nonce m).take n := by
    intro seed_nonce
    rw [(next_bytes_stream _ _ _ 0 n (init_prng_at seed seed_nonce)).1,
      ← stream_bytes_eq _ _ m hm, ← List.map_take, List.take_range, Nat.min_eq_left hn]
    simp only [Nat.zero_add]
  have hkey : ∀ seed_nonce : Option (List Nat), (ChaCha20PRNG.init seed seed_nonce).key = seed :=
    fun _ => List.take_of_length_le (by omega)
  refine ⟨?_, ?_, ?_, chacha_block_eq_rfc8439, rfc8439_block_test_vector⟩
  · rw [hfirst none, hkey]
    rfl
  · intro nonce hnonce
    rw [hfirst (some nonce), hkey]
    have hno : (ChaCha20PRNG.init seed (some nonce)).nonce = nonce :=
      List.take_of_length_le (by omega)
    rw [hno]
  · intro seed_nonce a b hab
    obtain ⟨h1, h2⟩ := next_bytes_stream _ _ _ 0 a (init_prng_at seed seed_nonce)
    obtain ⟨h3, _⟩ := next_bytes_stream _ _ _ (0 + a) b h2
    rw [h1, h3, (next_bytes_stream _ _ _ 0 n (init_prng_at seed seed_nonce)).1, ← hab,
      List.range_add, List.map_append, List.map_map]
    refine (List.append_right_inj _).mpr ?_
    apply List.map_congr_left
    intro i _
    simp only [Function.comp, Nat.add_assoc]

/-- C15 on the seed of 32 zero bytes: the first 100 bytes of the generator are the first
100 bytes of the blocks for the counters 0 and 1. -/
theorem chacha20_prng_stream_witness :
    ((ChaCha20PRNG.init (List.replicate 32 0) none).next_bytes 100).2 =
      (rfc8439_stream (List.replicate 32 0) (List.replicate 12 0) 2).take 100 :=
  (chacha20_prng_stream (List.replicate 32 0) 100 2 (by decide) (by decide) (by decide)).1

/-! ## gf_math.cpp: the table lookups of `gf_mul` -/

/-- The array `gf_log_table` written out. -/
theorem gf_log_table_eq : gf_log_table = log_values := by
  unfold gf_log_table
  rw [init_gf_tables_eq]

/-- Every entry of `gf_log_table` is at most 254. -/
theorem gf_log_table_le (a : Nat) : gf_log_table.getD a 0 ≤ 254 := by
  have hall : ∀ x ∈ log_values, x ≤ 254 := by decide
  rw [gf_log_table_eq]
  rcases getD_zero_or_mem log_values a with h | h
  · rw [h]; exact Nat.zero_le _
  · exact hall _ h

/-- The two folding passes of `gf_mul` on a sum of at most 508: the result is at most 255
and congruent to the sum modulo 255. -/
theorem fold_mod_255 (sum : Nat) (h : sum ≤ 508) :
    ((sum &&& 0xFF) + (sum >>> 8) &&& 0xFF) + (((sum &&& 0xFF) + (sum >>> 8)) >>> 8) ≤ 255 ∧
      (((sum &&& 0xFF) + (sum >>> 8) &&& 0xFF) + (((sum &&& 0xFF) + (sum >>> 8)) >>> 8)) % 255 =
        sum % 255 := by
  simp only [and_ff, Nat.shiftRight_eq_div_pow]
  omega

/-- C31: the table lookups of `gf_mul` are in range.  For nonzero `a` and `b` the sum of the
two logarithms is at most 508; the two folding passes reduce it to `s <= 255` congruent to
the sum modulo 255; `gf_exp_table` has 256 entries and `gf_exp_table[255] = gf_exp_table[0]`;
so `gf_mul(a, b)` is the entry `gf_exp_table[s]`, inside the table, and equals
`gf_exp_table[sum mod 255]`. -/
theorem gf_mul_lookup_in_range (a b : Nat) (ha : a ≠ 0) (hb : b ≠ 0) :
    gf_log_table.getD a 0 + gf_log_table.getD b 0 ≤ 508 ∧
      ∃ s : Nat,
        s = (((gf_log_table.getD a 0 + gf_log_table.getD b 0) &&& 0xFF) +
              ((gf_log_table.getD a 0 + gf_log_table.getD b 0) >>> 8) &&& 0xFF) +
            ((((gf_log_table.getD a 0 + gf_log_table.getD b 0) &&& 0xFF) +
              ((gf_log_table.getD a 0 + gf_log_table.getD b 0) >>> 8)) >>> 8) ∧
        s ≤ 255 ∧
        s % 255 = (gf_log_table.getD a 0 + gf_log_table.getD b 0) % 255 ∧
        gf_exp_table.length = 256 ∧ s < gf_exp_table.length ∧
        gf_exp_table.getD 255 0 = gf_exp_table.getD 0 0 ∧
        gf_mul a b = gf_exp_table.getD s 0 ∧
        gf_mul a b =
          gf_exp_table.getD ((gf_log_table.getD a 0 + gf_log_table.getD b 0) % 255) 0 := by
  have hla := gf_log_table_le a
  have hlb := gf_log_table_le b
  have hsum : gf_log_table.getD a 0 + gf_log_table.getD b 0 ≤ 508 := by omega
  obtain ⟨hs1, hs2⟩ := fold_mod_255 _ hsum
  have hlen : gf_exp_table.length = 256 := by rw [gf_exp_table_eq]; decide
  have hwrap : gf_exp_table.getD 255 0 = gf_exp_table.getD 0 0 := by
    rw [gf_exp_table_eq]; decide
  have hmul : gf_mul a b = gf_exp_table.getD
      ((((gf_log_table.getD a 0 + gf_log_table.getD b 0) &&& 0xFF) +
          ((gf_log_table.getD a 0 + gf_log_table.getD b 0) >>> 8) &&& 0xFF) +
        ((((gf_log_table.getD a 0 + gf_log_table.getD b 0) &&& 0xFF) +
          ((gf_log_table.getD a 0 + gf_log_table.getD b 0) >>> 8)) >>> 8)) 0 := by
    unfold gf_mul gf_mul_with
    rw [if_neg (by rintro (h | h); exact ha h; exact hb h)]
  refine ⟨hsum, _, rfl, hs1, hs2, hlen, by omega, hwrap, hmul, ?_⟩
  rw [hmul]
  generalize gf_log_table.getD a 0 + gf_log_table.getD b 0 = sum at hsum hs1 hs2 ⊢
  generalize ((sum &&& 0xFF) + (sum >>> 8) &&& 0xFF) +
    (((sum &&& 0xFF) + (sum >>> 8)) >>> 8) = s at hs1 hs2 ⊢
  by_cases h255 : s = 255
  · have h0 : sum % 255 = 0 := by omega
    rw [h255, h0]
    exact hwrap
  · have hs : s = sum % 255 := by omega
    rw [hs]

/-- C31 on `a = 2` and `b = 0x8D`, whose logarithms 205 and 254 sum to 459: the product is
the entry of `gf_exp_table` at `459 mod 255 = 204`. -/
theorem gf_mul_lookup_in_range_witness :
    gf_log_table.getD 2 0 + gf_log_table.getD 0x8D 0 = 459 ∧
      gf_log_table.getD 2 0 + gf_log_table.getD 0x8D 0 ≤ 508 ∧
      gf_mul 2 0x8D =
        gf_exp_table.getD ((gf_log_table.getD 2 0 + gf_log_table.getD 0x8D 0) % 255) 0 :=
  have h := gf_mul_lookup_in_range 2 0x8D (by decide) (by decide)
  ⟨by rw [gf_log_table_eq]; decide, h.1,
    by obtain ⟨_, s, _, _, _, _, _, _, _, h8⟩ := h; exact h8⟩

end RUC
